import Mathlib

/-!
# Verification of `netgen_rs` (NETGEN network-flow instance generator)

Shallow embedding of the Rust sources (`src/random.rs`, `src/index_list.rs`,
`src/lib.rs`, `src/netgen.rs`) and proofs about the embedded definitions.

Conventions used throughout the embedding:

* Rust `i64` values are modeled as `Int`.  No intermediate computation of the
  program exceeds the `i64` range on the inputs reachable from a positive
  seed and validated parameters, so plain `Int` arithmetic is exact.
  Rust's truncating `/` and `%` on `i64` are `Int.tdiv` / `Int.tmod`;
  arithmetic shift right by `k` is `Int.ediv` by `2^k` and masking with
  `2^k - 1` is `Int.emod` by `2^k` (both exact for two's complement).
* Rust `usize` index values are `Nat`.  An `x as usize` cast of an `i64` is
  `intToUsize` (reduction mod `2^64`).  Fallible operations (asserts,
  out-of-bounds indexing, division by zero, loops without a structural
  bound) are modeled in `Option`, `none` standing for a Rust panic or for
  running out of fuel; theorems about generated results are stated for
  executions that return `some`.
* The `pseudo_size` counter and interval-tree `count` fields of
  `IndexList` are modeled as `Int`: the original C code this crate ports
  uses signed counters, and the only transient below-zero value (during the
  back-out path of `remove`) is restored before it is ever observed, which
  matches the two's-complement behavior of the Rust port at every use site
  (in particular `pseudo_size() as i64`).
-/

/-! ## `src/random.rs`: the portable LCG -/

def MULTIPLIER : Int := 16807

def MODULUS : Int := 2147483647

/-- One call of `Rng::next(a, b)` from `src/random.rs`, acting on the stored
seed.  Returns the drawn value together with the updated seed.  The bit
manipulations of the source (`>> 16`, `& 0xffff`, `>> 15`, `& 0x7fff`,
`<< 16`) are rendered as the corresponding exact divisions / remainders. -/
def rngNext (seed a b : Int) : Int × Int :=
  let hi := MULTIPLIER * (seed.ediv 65536)
  let lo_raw := MULTIPLIER * (seed.emod 65536)
  let hi2 := hi + lo_raw.ediv 65536
  let lo := lo_raw.emod 65536 + hi2.ediv 32768
  let hi3 := hi2.emod 32768
  let lo2 := lo - MODULUS
  let seed1 := hi3 * 65536 + lo2
  let seed2 := if seed1 < 0 then seed1 + MODULUS else seed1
  if b ≤ a then (b, seed2) else (a + seed2.tmod (b - a + 1), seed2)

/-- Drawing `n` successive values `next(a, b)` starting from `seed`. -/
def rngSequence (seed a b : Int) : Nat → List Int
  | 0 => []
  | n + 1 =>
    let r := rngNext seed a b
    r.1 :: rngSequence r.2 a b n

/-- C1: For the Rng constructed with `new(13502460)`, ten successive calls of
`next(0, 2147483646)` return exactly the sequence
1450062285, 1552397839, 1371652670, 129474145, 671020604, 1406661031,
104478194, 1470866959, 1176719296, 944302649. -/
theorem c1_rng_known_sequence :
    rngSequence 13502460 0 2147483646 10 =
      [1450062285, 1552397839, 1371652670, 129474145, 671020604, 1406661031,
       104478194, 1470866959, 1176719296, 944302649] := by
  decide

/-! ## `src/lib.rs`: parameters, validation, problem type -/

/-- The 13 generation parameters (`NetgenParams` in `src/lib.rs`). -/
structure NetgenParams where
  nodes : Int
  sources : Int
  sinks : Int
  density : Int
  mincost : Int
  maxcost : Int
  supply : Int
  tsources : Int
  tsinks : Int
  hicost_pct : Int
  capacitated_pct : Int
  mincap : Int
  maxcap : Int
deriving DecidableEq

/-- The validation error variants (`ParamError` in `src/lib.rs`). -/
inductive ParamError where
  | nonPositiveNodes
  | nonPositiveSources
  | nonPositiveSinks
  | sourcesSinksExceedNodes
  | densityTooLow
  | minCostExceedsMaxCost
  | supplyTooLow
  | tSourcesExceedSources
  | tSinksExceedSinks
  | hiCostOutOfRange
  | capacitatedOutOfRange
  | minCapExceedsMaxCap
deriving DecidableEq

/-- `NetgenParams::validate` from `src/lib.rs`: the chain of range checks,
returning the error of the first failing check. -/
def NetgenParams.validate (p : NetgenParams) : Except ParamError Unit :=
  if p.nodes ≤ 0 then .error .nonPositiveNodes
  else if p.sources ≤ 0 then .error .nonPositiveSources
  else if p.sinks ≤ 0 then .error .nonPositiveSinks
  else if p.sources + p.sinks > p.nodes then .error .sourcesSinksExceedNodes
  else if p.nodes > p.density then .error .densityTooLow
  else if p.mincost > p.maxcost then .error .minCostExceedsMaxCost
  else if p.supply < p.sources then .error .supplyTooLow
  else if p.tsources > p.sources then .error .tSourcesExceedSources
  else if p.tsinks > p.sinks then .error .tSinksExceedSinks
  else if p.hicost_pct < 0 ∨ p.hicost_pct > 100 then .error .hiCostOutOfRange
  else if p.capacitated_pct < 0 ∨ p.capacitated_pct > 100 then
    .error .capacitatedOutOfRange
  else if p.mincap > p.maxcap then .error .minCapExceedsMaxCap
  else .ok ()

/-- `ProblemType` from `src/lib.rs`. -/
inductive ProblemType where
  | assignment
  | maxFlow
  | minCostFlow
deriving DecidableEq

/-- `NetgenParams::problem_type` from `src/lib.rs`. -/
def NetgenParams.problem_type (p : NetgenParams) : ProblemType :=
  if (p.sources - p.tsources) + (p.sinks - p.tsinks) = p.nodes ∧
      (p.sources - p.tsources) = (p.sinks - p.tsinks) ∧
      p.sources = p.supply then
    .assignment
  else if p.mincost = 1 ∧ p.maxcost = 1 then
    .maxFlow
  else
    .minCostFlow

/-- The assignment-detection condition shared by `problem_type` and `netgen`. -/
def NetgenParams.assignCond (p : NetgenParams) : Prop :=
  (p.sources - p.tsources) + (p.sinks - p.tsinks) = p.nodes ∧
    (p.sources - p.tsources) = (p.sinks - p.tsinks) ∧
    p.sources = p.supply

instance (p : NetgenParams) : Decidable p.assignCond := by
  unfold NetgenParams.assignCond; infer_instance

instance : DecidableEq (Except ParamError Unit) := fun a b =>
  match a, b with
  | .ok (), .ok () => .isTrue rfl
  | .ok _, .error _ => .isFalse (by simp)
  | .error _, .ok _ => .isFalse (by simp)
  | .error e, .error f =>
    if h : e = f then .isTrue (by rw [h]) else .isFalse (by simp [h])

/-- A valid, non-assignment parameter set with a collapsed cost range
(`mincost = maxcost = 5`) that is nevertheless detected as `MinCostFlow`. -/
def c4Params : NetgenParams :=
  ⟨3, 1, 1, 3, 5, 5, 1, 0, 0, 0, 0, 0, 0⟩

/-- C4 counterexample: the claim says a valid non-assignment parameter set is
detected as MaxFlow exactly when `mincost = maxcost`; but for `c4Params`
(valid, non-assignment, `mincost = maxcost = 5`) `problem_type` returns
`MinCostFlow`, because the code tests `mincost == 1 && maxcost == 1`, not
`mincost == maxcost`. -/
theorem c4_maxflow_detection_counterexample :
    c4Params.validate = .ok () ∧ ¬ c4Params.assignCond ∧
      c4Params.mincost = c4Params.maxcost ∧
      c4Params.problem_type = .minCostFlow ∧
      c4Params.problem_type ≠ .maxFlow := by
  decide

/-- C4 amended: for every valid parameter set that does not satisfy the
assignment condition, the detected problem type is MaxFlow exactly when
`mincost = 1` and `maxcost = 1`, and MinCostFlow otherwise. -/
theorem c4_maxflow_detection (p : NetgenParams)
    (_hv : p.validate = .ok ()) (hna : ¬ p.assignCond) :
    (p.problem_type = .maxFlow ↔ p.mincost = 1 ∧ p.maxcost = 1) ∧
      (¬ (p.mincost = 1 ∧ p.maxcost = 1) → p.problem_type = .minCostFlow) := by
  unfold NetgenParams.problem_type
  have hna' : ¬((p.sources - p.tsources) + (p.sinks - p.tsinks) = p.nodes ∧
      (p.sources - p.tsources) = (p.sinks - p.tsinks) ∧ p.sources = p.supply) := hna
  rw [if_neg hna']
  by_cases h : p.mincost = 1 ∧ p.maxcost = 1
  · simp [h]
  · simp [h]

/-- Witness for C4's amended theorem at a concrete input. -/
theorem c4_maxflow_detection_witness :
    (⟨3, 1, 1, 3, 1, 1, 1, 0, 0, 0, 0, 0, 0⟩ : NetgenParams).validate = .ok () ∧
      ¬ (⟨3, 1, 1, 3, 1, 1, 1, 0, 0, 0, 0, 0, 0⟩ : NetgenParams).assignCond ∧
      (⟨3, 1, 1, 3, 1, 1, 1, 0, 0, 0, 0, 0, 0⟩ : NetgenParams).problem_type
        = .maxFlow :=
  ⟨by decide, by decide,
    (c4_maxflow_detection ⟨3, 1, 1, 3, 1, 1, 1, 0, 0, 0, 0, 0, 0⟩
      (by decide) (by decide)).1.mpr (by decide)⟩

/-! ## `src/index_list.rs`: the index list

The arena (`Vec<IntervalNode>`) is a `List IntervalNode`; reads `nodes[idx]`
are `getD` (in bounds in every state reachable through the public interface;
Rust would panic otherwise) and writes are `List.set`.  The unbounded
`while` descents get fuel `nodes.length`, sufficient for every reachable
state (a root-to-leaf path visits distinct arena indices). -/

def FLAG_LIMIT : Nat := 100

/-- A node of the interval tree (`IntervalNode` in `src/index_list.rs`). -/
structure IntervalNode where
  base : Nat
  count : Int
  left_child : Option Nat
deriving DecidableEq

instance : Inhabited IntervalNode := ⟨⟨0, 0, none⟩⟩

/-- `ListImpl` from `src/index_list.rs`: flag array or interval tree. -/
inductive ListImpl where
  | small (base : Nat) (flags : List Bool)
  | large (nodes : List IntervalNode)
deriving DecidableEq

/-- `IndexList` from `src/index_list.rs`. -/
structure IndexList where
  original_size : Nat
  index_size : Int
  pseudo_size : Int
  imp : ListImpl
deriving DecidableEq

/-- `IndexList::new(from, to)`; `none` models the failed assert
`from >= 1 && from <= to`. -/
def IndexList.new (from_ to_ : Nat) : Option IndexList :=
  if from_ ≥ 1 ∧ from_ ≤ to_ then
    let size := to_ - from_ + 1
    let imp : ListImpl :=
      if size ≤ FLAG_LIMIT then .small from_ (List.replicate size false)
      else .large [⟨from_, (size : Int), none⟩]
    some ⟨size, (size : Int), (size : Int), imp⟩
  else none

/-- The flag-array scan of `IndexList::choose` (`Small` branch): walk the
flags from offset `i`, counting down `remaining` over unremoved entries;
flag the hit and return `base + i`.  `none` models the `unreachable!`. -/
def chooseSmallScan (base i remaining : Nat) : List Bool → Option (Nat × List Bool)
  | [] => none
  | f :: fs =>
    if f = false then
      if remaining = 1 then some (base + i, true :: fs)
      else
        match chooseSmallScan base (i + 1) (remaining - 1) fs with
        | some (v, fs') => some (v, f :: fs')
        | none => none
    else
      match chooseSmallScan base (i + 1) remaining fs with
      | some (v, fs') => some (v, f :: fs')
      | none => none

/-- The tree descent of `IndexList::choose` (`Large` branch): decrement the
count of every visited node, descend by comparing against the left child's
count, and consume the first / last element of the reached leaf interval or
split it in the middle (two fresh leaves appended to the arena). -/
def chooseLarge (fuel : Nat) (nodes : List IntervalNode) (idx : Nat)
    (pos : Int) : Option (Nat × List IntervalNode) :=
  match fuel with
  | 0 => none
  | fuel + 1 =>
    let nd := nodes.getD idx default
    match nd.left_child with
    | some left =>
      let nodes1 := nodes.set idx { nd with count := nd.count - 1 }
      let lcount := (nodes1.getD left default).count
      if pos > lcount then chooseLarge fuel nodes1 (left + 1) (pos - lcount)
      else chooseLarge fuel nodes1 left pos
    | none =>
      let nodes1 := nodes.set idx { nd with count := nd.count - 1 }
      let nd1 := nodes1.getD idx default
      if pos = 1 then
        some (nd1.base, nodes1.set idx { nd1 with base := nd1.base + 1 })
      else if pos > nd1.count then
        some (nd1.base + nd1.count.toNat, nodes1)
      else
        let index := nd1.base + pos.toNat - 1
        let new_left := nodes1.length
        let nodes2 := nodes1 ++
          [⟨nd1.base, pos - 1, none⟩, ⟨index + 1, nd1.count - (pos - 1), none⟩]
        some (index, nodes2.set idx { nd1 with left_child := some new_left })

/-- `IndexList::choose(position)`: returns the chosen value and the updated
list; an out-of-range position returns the sentinel 0 with no mutation. -/
def IndexList.choose (l : IndexList) (position : Nat) : Option (Nat × IndexList) :=
  if position < 1 ∨ (position : Int) > l.index_size then some (0, l)
  else
    let l' := { l with index_size := l.index_size - 1,
                       pseudo_size := l.pseudo_size - 1 }
    match l.imp with
    | .small base flags =>
      match chooseSmallScan base 0 position flags with
      | some (v, flags') => some (v, { l' with imp := .small base flags' })
      | none => none
    | .large nodes =>
      match chooseLarge nodes.length nodes 0 (position : Int) with
      | some (v, nodes') => some (v, { l' with imp := .large nodes' })
      | none => none

/-- Increment the count of arena node `p` (one step of the back-out loop of
`IndexList::remove`). -/
def bumpCount (nodes : List IntervalNode) (p : Nat) : List IntervalNode :=
  let nd := nodes.getD p default
  nodes.set p { nd with count := nd.count + 1 }

/-- The back-out loop of `IndexList::remove`: restore the counts decremented
along `path`. -/
def restorePath (nodes : List IntervalNode) (path : List Nat) : List IntervalNode :=
  path.foldl bumpCount nodes

/-- The tree descent of `IndexList::remove` (`Large` branch): decrement
counts along the way, remembering the path; at the leaf either back out the
decrements (value absent) or consume / split the interval.  Returns the new
arena and whether the value was removed. -/
def removeLarge (fuel : Nat) (nodes : List IntervalNode) (idx : Nat)
    (path : List Nat) (index : Nat) : Option (List IntervalNode × Bool) :=
  match fuel with
  | 0 => none
  | fuel + 1 =>
    let nd := nodes.getD idx default
    match nd.left_child with
    | some left =>
      let path1 := path ++ [idx]
      let nodes1 := nodes.set idx { nd with count := nd.count - 1 }
      let right := left + 1
      if index < (nodes1.getD right default).base then
        removeLarge fuel nodes1 left path1 index
      else
        removeLarge fuel nodes1 right path1 index
    | none =>
      if index < nd.base ∨ (index : Int) ≥ (nd.base : Int) + nd.count then
        some (restorePath nodes path, false)
      else
        let nodes1 := nodes.set idx { nd with count := nd.count - 1 }
        let nd1 := nodes1.getD idx default
        if index = nd1.base then
          some (nodes1.set idx { nd1 with base := nd1.base + 1 }, true)
        else if (index : Int) = (nd1.base : Int) + nd1.count then
          some (nodes1, true)
        else
          let new_left := nodes1.length
          let nodes2 := nodes1 ++
            [⟨nd1.base, (index : Int) - (nd1.base : Int), none⟩,
             ⟨index + 1, nd1.count - ((index : Int) - (nd1.base : Int)), none⟩]
          some (nodes2.set idx { nd1 with left_child := some new_left }, true)

/-- `IndexList::remove(index)`: `pseudo_size` always decrements; `index_size`
and the contents change only if the value was present. -/
def IndexList.remove (l : IndexList) (index : Nat) : Option IndexList :=
  let l' := { l with pseudo_size := l.pseudo_size - 1 }
  match l.imp with
  | .small base flags =>
    if index < base ∨ index ≥ base + l.original_size then some l'
    else
      match flags.get? (index - base) with
      | none => none
      | some f =>
        if f = false then
          some { l' with imp := .small base (flags.set (index - base) true),
                         index_size := l'.index_size - 1 }
        else some l'
  | .large nodes =>
    match removeLarge nodes.length nodes 0 [] index with
    | none => none
    | some (nodes', removed) =>
      if removed then
        some { l' with imp := .large nodes', index_size := l'.index_size - 1 }
      else some { l' with imp := .large nodes' }

/-- `IndexList::size`. -/
def IndexList.size (l : IndexList) : Int := l.index_size

/-! ## Abstraction: decoded element lists and an inductive view of the tree -/

/-- The present elements of a flag array, in ascending order. -/
def elemsSmall (base : Nat) : List Bool → List Nat
  | [] => []
  | false :: fs => base :: elemsSmall (base + 1) fs
  | true :: fs => elemsSmall (base + 1) fs

/-- The present elements below arena node `idx`, in order (fueled descent). -/
def subtreeElems (fuel : Nat) (nodes : List IntervalNode) (idx : Nat) : List Nat :=
  match fuel with
  | 0 => []
  | fuel + 1 =>
    let nd := nodes.getD idx default
    match nd.left_child with
    | none => List.range' nd.base nd.count.toNat
    | some left => subtreeElems fuel nodes left ++ subtreeElems fuel nodes (left + 1)

/-- The currently-present elements of an `IndexList`, in ascending order. -/
def IndexList.elems (l : IndexList) : List Nat :=
  match l.imp with
  | .small base flags => elemsSmall base flags
  | .large nodes => subtreeElems nodes.length nodes 0

/-- Inductive (arena-free) view of the interval tree. -/
inductive ITree where
  | leaf (base count : Nat)
  | node (base : Nat) (l r : ITree)
deriving DecidableEq

/-- Elements of a subtree, in order. -/
def ITree.elems : ITree → List Nat
  | .leaf b c => List.range' b c
  | .node _ l r => l.elems ++ r.elems

/-- Number of elements of a subtree. -/
def ITree.tsize (t : ITree) : Nat := t.elems.length

/-- The stored base of a subtree's root. -/
def ITree.tbase : ITree → Nat
  | .leaf b _ => b
  | .node b _ _ => b

/-- Height (number of arena nodes on the longest root-to-leaf path). -/
def ITree.height : ITree → Nat
  | .leaf _ _ => 1
  | .node _ l r => 1 + max l.height r.height

/-- Well-formedness: the stored base of every subtree bounds its elements
from below, and the left subtree's elements lie strictly below the right
subtree's stored base (this is exactly what the descent of `remove` routes
on). -/
def ITree.wf : ITree → Prop
  | .leaf _ _ => True
  | .node b l r =>
    l.wf ∧ r.wf ∧ b ≤ l.tbase ∧ b ≤ r.tbase ∧ ∀ x ∈ l.elems, x < r.tbase

/-- The interval-tree analogue of `choose`'s descent, on the inductive view. -/
def ITree.chooseAt : ITree → Nat → Nat × ITree
  | .leaf b c, pos =>
    if pos = 1 then (b, .leaf (b + 1) (c - 1))
    else if pos > c - 1 then (b + (c - 1), .leaf b (c - 1))
    else
      (b + pos - 1,
        .node b (.leaf b (pos - 1)) (.leaf (b + pos) (c - 1 - (pos - 1))))
  | .node b l r, pos =>
    if pos > l.tsize then
      let vr := r.chooseAt (pos - l.tsize)
      (vr.1, .node b l vr.2)
    else
      let vl := l.chooseAt pos
      (vl.1, .node b vl.2 r)

/-- The interval-tree analogue of `remove`'s descent, on the inductive view. -/
def ITree.removeAt : ITree → Nat → ITree × Bool
  | .leaf b c, v =>
    if v < b ∨ v ≥ b + c then (.leaf b c, false)
    else
      if v = b then (.leaf (b + 1) (c - 1), true)
      else if v = b + (c - 1) then (.leaf b (c - 1), true)
      else (.node b (.leaf b (v - b)) (.leaf (v + 1) ((c - 1) - (v - b))), true)
  | .node b l r, v =>
    if v < r.tbase then
      let p := l.removeAt v
      (.node b p.1 r, p.2)
    else
      let p := r.removeAt v
      (.node b l p.1, p.2)

/-! ### A small toolkit for `List.range'` -/

theorem range'_succ_cons (s n : Nat) :
    List.range' s (n + 1) = s :: List.range' (s + 1) n := List.range'_succ s n 1

theorem range'_append_eq (s m n : Nat) :
    List.range' s m ++ List.range' (s + m) n = List.range' s (m + n) := by
  have := List.range'_append s m n 1
  simpa [Nat.add_comm] using this

theorem mem_range'_iff {m s n : Nat} : m ∈ List.range' s n ↔ s ≤ m ∧ m < s + n :=
  List.mem_range'_1

theorem range'_getElem? (b c i : Nat) (h : i < c) :
    (List.range' b c)[i]? = some (b + i) := by
  rw [List.getElem?_eq_getElem (by simpa using h)]
  simp

theorem range'_sorted (b : Nat) : ∀ c : Nat, (List.range' b c).Sorted (· < ·) := by
  intro c
  induction c generalizing b with
  | zero => exact List.sorted_nil
  | succ c ih =>
    rw [range'_succ_cons]
    refine List.sorted_cons.mpr ⟨?_, ih (b + 1)⟩
    intro x hx
    exact Nat.lt_of_lt_of_le (by omega) (mem_range'_iff.mp hx).1

theorem range'_eraseIdx (b : Nat) : ∀ (c i : Nat), i < c →
    (List.range' b c).eraseIdx i =
      List.range' b i ++ List.range' (b + i + 1) (c - i - 1) := by
  intro c
  induction c generalizing b with
  | zero => intro i h; omega
  | succ c ih =>
    intro i h
    rw [range'_succ_cons]
    cases i with
    | zero => simp [List.eraseIdx]
    | succ i =>
      have hi : i < c := by omega
      have hrec := ih (b + 1) i hi
      have e1 : b + (i + 1) + 1 = b + 1 + i + 1 := by omega
      have e2 : c + 1 - (i + 1) - 1 = c - i - 1 := by omega
      rw [e1, e2, range'_succ_cons b i, List.cons_append]
      show b :: (List.range' (b + 1) c).eraseIdx i = _
      rw [hrec]

theorem range'_erase (b : Nat) : ∀ (c v : Nat), b ≤ v → v < b + c →
    (List.range' b c).erase v =
      List.range' b (v - b) ++ List.range' (v + 1) (b + c - v - 1) := by
  intro c
  induction c generalizing b with
  | zero => intro v h1 h2; omega
  | succ c ih =>
    intro v h1 h2
    rw [range'_succ_cons]
    rcases Nat.eq_or_lt_of_le h1 with he | hlt
    · subst he
      have e1 : b - b = 0 := by omega
      have e2 : b + (c + 1) - b - 1 = c := by omega
      rw [e1, e2, List.erase_cons_head]
      simp
    · rw [List.erase_cons_tail (by simp; omega)]
      have := ih (b + 1) v (by omega) (by omega)
      rw [this]
      have hvb : v - b = (v - (b + 1)) + 1 := by omega
      rw [hvb, range'_succ_cons]
      simp only [List.cons_append]
      congr 3 <;> omega

theorem range'_length (b c : Nat) : (List.range' b c).length = c := by
  simp

theorem range'_nodup (b c : Nat) : (List.range' b c).Nodup :=
  List.nodup_range' b c

/-! ### Facts about the inductive tree view -/

theorem ITree.tsize_leaf (b c : Nat) : (ITree.leaf b c).tsize = c := by
  simp [ITree.tsize, ITree.elems]

theorem ITree.tsize_node (b : Nat) (l r : ITree) :
    (ITree.node b l r).tsize = l.tsize + r.tsize := by
  simp [ITree.tsize, ITree.elems]

theorem ITree.tbase_le_of_mem {t : ITree} (hw : t.wf) {x : Nat}
    (hx : x ∈ t.elems) : t.tbase ≤ x := by
  induction t with
  | leaf b c =>
    simp only [ITree.elems] at hx
    exact (mem_range'_iff.mp hx).1
  | node b l r ihl ihr =>
    obtain ⟨hwl, hwr, hbl, hbr, _⟩ := hw
    simp only [ITree.elems, List.mem_append] at hx
    rcases hx with hx | hx
    · exact le_trans hbl (ihl hwl hx)
    · exact le_trans hbr (ihr hwr hx)

theorem ITree.elems_sorted {t : ITree} (hw : t.wf) : t.elems.Sorted (· < ·) := by
  induction t with
  | leaf b c => exact range'_sorted b c
  | node b l r ihl ihr =>
    obtain ⟨hwl, hwr, _, _, hlr⟩ := hw
    show ((l.elems ++ r.elems).Pairwise (· < ·))
    refine List.pairwise_append.mpr ⟨ihl hwl, ihr hwr, ?_⟩
    intro x hx y hy
    exact lt_of_lt_of_le (hlr x hx) (ITree.tbase_le_of_mem hwr hy)

theorem ITree.chooseAt_spec {t : ITree} (hw : t.wf) :
    ∀ pos : Nat, 1 ≤ pos → pos ≤ t.tsize →
    t.elems[pos - 1]? = some (t.chooseAt pos).1 ∧
      (t.chooseAt pos).2.elems = t.elems.eraseIdx (pos - 1) ∧
      (t.chooseAt pos).2.wf ∧
      t.tbase ≤ (t.chooseAt pos).2.tbase := by
  induction t with
  | leaf b c =>
    intro pos h1 h2
    rw [ITree.tsize_leaf] at h2
    by_cases hp1 : pos = 1
    · subst hp1
      refine ⟨?_, ?_, trivial, by simp [ITree.chooseAt, ITree.tbase]⟩
      · simpa using range'_getElem? b c 0 (by omega)
      · show List.range' (b + 1) (c - 1) = (List.range' b c).eraseIdx 0
        rw [range'_eraseIdx b c 0 (by omega)]
        simp
    · by_cases hpe : pos > c - 1
      · have hpc : pos = c := by omega
        simp only [ITree.chooseAt, if_neg hp1, if_pos hpe]
        refine ⟨?_, ?_, trivial, by simp [ITree.tbase]⟩
        · rw [show (ITree.leaf b c).elems = List.range' b c from rfl,
            range'_getElem? b c (pos - 1) (by omega)]
          congr 1
          omega
        · show List.range' b (c - 1) = (List.range' b c).eraseIdx (pos - 1)
          rw [range'_eraseIdx b c (pos - 1) (by omega)]
          have : c - (pos - 1) - 1 = 0 := by omega
          rw [this]
          simp [show pos - 1 = c - 1 from by omega]
      · simp only [ITree.chooseAt, if_neg hp1, if_neg hpe]
        have h3 : 2 ≤ pos := by omega
        have h4 : pos ≤ c - 1 := by omega
        refine ⟨?_, ?_, ?_, by simp [ITree.tbase]⟩
        · rw [show (ITree.leaf b c).elems = List.range' b c from rfl,
            range'_getElem? b c (pos - 1) (by omega)]
          congr 1
          omega
        · show List.range' b (pos - 1) ++ List.range' (b + pos) (c - 1 - (pos - 1))
              = (List.range' b c).eraseIdx (pos - 1)
          rw [range'_eraseIdx b c (pos - 1) (by omega)]
          congr 2 <;> omega
        · refine ⟨trivial, trivial, le_refl _, by simp [ITree.tbase], ?_⟩
          intro x hx
          have := (mem_range'_iff.mp hx).2
          simp only [ITree.tbase]
          omega
  | node b l r ihl ihr =>
    intro pos h1 h2
    obtain ⟨hwl, hwr, hbl, hbr, hlr⟩ := hw
    rw [ITree.tsize_node] at h2
    by_cases hgt : pos > l.tsize
    · have h1' : 1 ≤ pos - l.tsize := by omega
      have h2' : pos - l.tsize ≤ r.tsize := by omega
      obtain ⟨hget, helems, hwf2, hbase2⟩ := ihr hwr (pos - l.tsize) h1' h2'
      simp only [ITree.chooseAt, if_pos hgt]
      have hlen : l.elems.length = l.tsize := rfl
      refine ⟨?_, ?_, ?_, by simp [ITree.tbase]⟩
      · show (l.elems ++ r.elems)[pos - 1]? = _
        rw [List.getElem?_append_right (by omega)]
        rw [show pos - 1 - l.elems.length = pos - l.tsize - 1 from by rw [hlen]; omega]
        exact hget
      · show l.elems ++ (r.chooseAt (pos - l.tsize)).2.elems
            = (l.elems ++ r.elems).eraseIdx (pos - 1)
        have hle : l.elems.length ≤ pos - 1 := by omega
        rw [helems, List.eraseIdx_append_of_length_le hle,
          show pos - 1 - l.elems.length = pos - l.tsize - 1 from by rw [hlen]; omega]
      · exact ⟨hwl, hwf2, hbl, le_trans hbr hbase2, fun x hx =>
          lt_of_lt_of_le (hlr x hx) hbase2⟩
    · have h2' : pos ≤ l.tsize := by omega
      obtain ⟨hget, helems, hwf2, hbase2⟩ := ihl hwl pos h1 h2'
      simp only [ITree.chooseAt, if_neg hgt]
      have hlen : l.elems.length = l.tsize := rfl
      refine ⟨?_, ?_, ?_, by simp [ITree.tbase]⟩
      · show (l.elems ++ r.elems)[pos - 1]? = _
        rw [List.getElem?_append_left (by omega)]
        exact hget
      · show (l.chooseAt pos).2.elems ++ r.elems
            = (l.elems ++ r.elems).eraseIdx (pos - 1)
        rw [helems, List.eraseIdx_append_of_lt_length (by omega)]
      · refine ⟨hwf2, hwr, le_trans hbl hbase2, hbr, ?_⟩
        intro x hx
        have hsub : List.Sublist (l.chooseAt pos).2.elems l.elems := by
          rw [helems]; exact List.eraseIdx_sublist l.elems (pos - 1)
        exact hlr x (hsub.subset hx)

theorem ITree.removeAt_not_mem {t : ITree} (hw : t.wf) {v : Nat}
    (hv : v ∉ t.elems) : t.removeAt v = (t, false) := by
  induction t with
  | leaf b c =>
    have : v < b ∨ v ≥ b + c := by
      by_contra hc
      push_neg at hc
      exact hv (mem_range'_iff.mpr ⟨by omega, by omega⟩)
    simp only [ITree.removeAt, if_pos this]
  | node b l r ihl ihr =>
    obtain ⟨hwl, hwr, hbl, hbr, hlr⟩ := hw
    simp only [ITree.elems, List.mem_append] at hv
    push_neg at hv
    by_cases hroute : v < r.tbase
    · simp only [ITree.removeAt, if_pos hroute, ihl hwl hv.1]
    · simp only [ITree.removeAt, if_neg hroute, ihr hwr hv.2]

theorem ITree.removeAt_mem_spec {t : ITree} (hw : t.wf) {v : Nat}
    (hv : v ∈ t.elems) :
    (t.removeAt v).2 = true ∧
      (t.removeAt v).1.elems = t.elems.erase v ∧
      (t.removeAt v).1.wf ∧
      t.tbase ≤ (t.removeAt v).1.tbase := by
  induction t with
  | leaf b c =>
    have hm := mem_range'_iff.mp hv
    have hguard : ¬(v < b ∨ v ≥ b + c) := by omega
    by_cases hb : v = b
    · subst hb
      simp only [ITree.removeAt, if_neg hguard, if_pos rfl]
      refine ⟨rfl, ?_, trivial, by simp [ITree.tbase]⟩
      show List.range' (v + 1) (c - 1) = (List.range' v c).erase v
      rw [range'_erase v c v (le_refl v) (by omega)]
      simp
    · by_cases he : v = b + (c - 1)
      · simp only [ITree.removeAt, if_neg hguard, if_neg hb, if_pos he]
        refine ⟨by trivial, ?_, trivial, by simp [ITree.tbase]⟩
        show List.range' b (c - 1) = (List.range' b c).erase v
        rw [range'_erase b c v (by omega) (by omega)]
        have h0 : b + c - v - 1 = 0 := by omega
        rw [h0, show v - b = c - 1 from by omega]
        simp
      · simp only [ITree.removeAt, if_neg hguard, if_neg hb, if_neg he]
        refine ⟨by trivial, ?_, ?_, by simp [ITree.tbase]⟩
        · show List.range' b (v - b) ++ List.range' (v + 1) ((c - 1) - (v - b))
              = (List.range' b c).erase v
          rw [range'_erase b c v (by omega) (by omega)]
          congr 2
          omega
        · refine ⟨trivial, trivial, le_refl _, by simp [ITree.tbase]; omega, ?_⟩
          intro x hx
          have := (mem_range'_iff.mp hx).2
          simp only [ITree.tbase]
          omega
  | node b l r ihl ihr =>
    obtain ⟨hwl, hwr, hbl, hbr, hlr⟩ := hw
    by_cases hroute : v < r.tbase
    · have hvl : v ∈ l.elems := by
        simp only [ITree.elems, List.mem_append] at hv
        rcases hv with h | h
        · exact h
        · exact absurd (ITree.tbase_le_of_mem hwr h) (by omega)
      obtain ⟨hrem, helems, hwf2, hbase2⟩ := ihl hwl hvl
      simp only [ITree.removeAt, if_pos hroute]
      refine ⟨hrem, ?_, ?_, by simp [ITree.tbase]⟩
      · show (l.removeAt v).1.elems ++ r.elems = (l.elems ++ r.elems).erase v
        rw [helems, List.erase_append_left r.elems hvl]
      · refine ⟨hwf2, hwr, le_trans hbl hbase2, hbr, ?_⟩
        intro x hx
        have hsub : List.Sublist (l.removeAt v).1.elems l.elems := by
          rw [helems]; exact List.erase_sublist v l.elems
        exact hlr x (hsub.subset hx)
    · have hvnl : v ∉ l.elems := fun h => hroute (hlr v h)
      have hvr : v ∈ r.elems := by
        simp only [ITree.elems, List.mem_append] at hv
        tauto
      obtain ⟨hrem, helems, hwf2, hbase2⟩ := ihr hwr hvr
      simp only [ITree.removeAt, if_neg hroute]
      refine ⟨hrem, ?_, ?_, by simp [ITree.tbase]⟩
      · show l.elems ++ (r.removeAt v).1.elems = (l.elems ++ r.elems).erase v
        rw [helems, List.erase_append_right r.elems hvnl]
      · exact ⟨hwl, hwf2, hbl, le_trans hbr hbase2, fun x hx =>
          lt_of_lt_of_le (hlr x hx) hbase2⟩

/-! ### Arena helper lemmas -/

theorem getD_set_eq {α : Type} (l : List α) (i : Nat) (a d : α)
    (h : i < l.length) : (l.set i a).getD i d = a := by
  simp [List.getD, List.getElem?_set_self, h]

theorem getD_set_ne {α : Type} (l : List α) (i j : Nat) (a d : α)
    (h : i ≠ j) : (l.set i a).getD j d = l.getD j d := by
  simp [List.getD, List.getElem?_set_ne h]

theorem getD_append_left {α : Type} (l1 l2 : List α) (j : Nat) (d : α)
    (h : j < l1.length) : (l1 ++ l2).getD j d = l1.getD j d := by
  simp [List.getD, List.getElem?_append_left h]

theorem set_getD_self {α : Type} : ∀ (l : List α) (i : Nat) (d : α),
    l.set i (l.getD i d) = l := by
  intro l
  induction l with
  | nil => intro i d; rfl
  | cons x xs ih =>
    intro i d
    cases i with
    | zero => rfl
    | succ i =>
      show x :: xs.set i ((x :: xs).getD (i + 1) d) = x :: xs
      rw [show (x :: xs).getD (i + 1) d = xs.getD i d from rfl, ih i d]

/-- `Decodes nodes idx t I`: arena position `idx` of `nodes` decodes to the
inductive tree `t`, using exactly the arena indices in `I`. -/
inductive Decodes : List IntervalNode → Nat → ITree → List Nat → Prop
  | leaf {nodes : List IntervalNode} {idx b c : Nat} :
      idx < nodes.length →
      nodes.getD idx default = ⟨b, (c : Int), none⟩ →
      Decodes nodes idx (.leaf b c) [idx]
  | node {nodes : List IntervalNode} {idx b l : Nat} {tl tr : ITree}
      {Il Ir : List Nat} :
      idx < nodes.length →
      nodes.getD idx default = ⟨b, ((tl.tsize + tr.tsize : Nat) : Int), some l⟩ →
      idx < l →
      Decodes nodes l tl Il →
      Decodes nodes (l + 1) tr Ir →
      Decodes nodes idx (.node b tl tr) (idx :: (Il ++ Ir))

theorem Decodes.mem_lt {ns : List IntervalNode} {idx : Nat} {t : ITree}
    {I : List Nat} (h : Decodes ns idx t I) : ∀ j ∈ I, j < ns.length := by
  induction h with
  | leaf hlt _ => intro j hj; simp at hj; omega
  | node hlt _ _ _ _ ihl ihr =>
    intro j hj
    simp only [List.mem_cons, List.mem_append] at hj
    rcases hj with rfl | hj | hj
    · exact hlt
    · exact ihl j hj
    · exact ihr j hj

theorem Decodes.head_mem {ns : List IntervalNode} {idx : Nat} {t : ITree}
    {I : List Nat} (h : Decodes ns idx t I) : idx ∈ I := by
  cases h with
  | leaf _ _ => simp
  | node _ _ _ _ _ => simp

theorem Decodes.stable {ns ns' : List IntervalNode} {idx : Nat} {t : ITree}
    {I : List Nat} (h : Decodes ns idx t I)
    (hsame : ∀ j ∈ I, ns'.getD j default = ns.getD j default)
    (hlen : ∀ j ∈ I, j < ns'.length) : Decodes ns' idx t I := by
  induction h with
  | leaf hlt heq =>
    exact .leaf (hlen _ (by simp)) (by rw [hsame _ (by simp)]; exact heq)
  | node hlt heq hil hdl hdr ihl ihr =>
    refine .node (hlen _ (by simp)) (by rw [hsame _ (by simp)]; exact heq) hil
      (ihl ?_ ?_) (ihr ?_ ?_)
    · intro j hj; exact hsame j (by simp [hj])
    · intro j hj; exact hlen j (by simp [hj])
    · intro j hj; exact hsame j (by simp [hj])
    · intro j hj; exact hlen j (by simp [hj])

theorem Decodes.count_eq {ns : List IntervalNode} {idx : Nat} {t : ITree}
    {I : List Nat} (h : Decodes ns idx t I) :
    (ns.getD idx default).count = (t.tsize : Int) := by
  cases h with
  | leaf hlt heq => rw [heq]; simp [ITree.tsize_leaf]
  | node hlt heq _ _ _ => rw [heq]; simp [ITree.tsize_node]

theorem Decodes.base_eq {ns : List IntervalNode} {idx : Nat} {t : ITree}
    {I : List Nat} (h : Decodes ns idx t I) :
    (ns.getD idx default).base = t.tbase := by
  cases h with
  | leaf hlt heq => rw [heq]; rfl
  | node hlt heq _ _ _ => rw [heq]; rfl

theorem Decodes.height_le {ns : List IntervalNode} {idx : Nat} {t : ITree}
    {I : List Nat} (h : Decodes ns idx t I) : t.height ≤ I.length := by
  induction h with
  | leaf _ _ => simp [ITree.height]
  | node _ _ _ _ _ ihl ihr =>
    simp only [ITree.height, List.length_cons, List.length_append]
    omega

theorem subtreeElems_succ (fuel : Nat) (ns : List IntervalNode) (idx : Nat) :
    subtreeElems (fuel + 1) ns idx =
      match (ns.getD idx default).left_child with
      | none => List.range' (ns.getD idx default).base
          (ns.getD idx default).count.toNat
      | some left => subtreeElems fuel ns left ++ subtreeElems fuel ns (left + 1) :=
  rfl

theorem Decodes.subtreeElems_eq {ns : List IntervalNode} {idx : Nat} {t : ITree}
    {I : List Nat} (h : Decodes ns idx t I) :
    ∀ fuel, t.height ≤ fuel → subtreeElems fuel ns idx = t.elems := by
  induction h with
  | leaf hlt heq =>
    intro fuel hf
    simp only [ITree.height] at hf
    cases fuel with
    | zero => omega
    | succ fuel =>
      rw [subtreeElems_succ, heq]
      simp [ITree.elems]
  | node hlt heq hil hdl hdr ihl ihr =>
    intro fuel hf
    simp only [ITree.height] at hf
    cases fuel with
    | zero => omega
    | succ fuel =>
      rw [subtreeElems_succ, heq]
      show subtreeElems fuel ns _ ++ subtreeElems fuel ns _ = _
      rw [ihl fuel (by omega), ihr fuel (by omega)]
      rfl

theorem getD_append_fst {α : Type} (l1 l2 : List α) (a d : α) :
    (l1 ++ a :: l2).getD l1.length d = a := by
  simp [List.getD, List.getElem?_append_right (le_refl l1.length)]

theorem getD_append_snd {α : Type} (l1 l2 : List α) (a b d : α) :
    (l1 ++ a :: b :: l2).getD (l1.length + 1) d = b := by
  simp [List.getD, List.getElem?_append_right (by omega : l1.length ≤ l1.length + 1)]

theorem ITree.chooseAt_tsize {t : ITree} (hw : t.wf) (pos : Nat)
    (h1 : 1 ≤ pos) (h2 : pos ≤ t.tsize) :
    (t.chooseAt pos).2.tsize = t.tsize - 1 := by
  obtain ⟨-, helems, -, -⟩ := ITree.chooseAt_spec hw pos h1 h2
  show (t.chooseAt pos).2.elems.length = t.elems.length - 1
  rw [helems, List.length_eraseIdx]
  have hlt : pos - 1 < t.elems.length := by
    have : t.elems.length = t.tsize := rfl
    omega
  rw [if_pos hlt]

theorem ITree.removeAt_tsize {t : ITree} (hw : t.wf) {v : Nat}
    (hv : v ∈ t.elems) : (t.removeAt v).1.tsize = t.tsize - 1 := by
  obtain ⟨-, helems, -, -⟩ := ITree.removeAt_mem_spec hw hv
  show (t.removeAt v).1.elems.length = t.elems.length - 1
  rw [helems, List.length_erase_of_mem hv]

theorem chooseLarge_leaf_step (fuel : Nat) (ns : List IntervalNode) (idx : Nat)
    (pos : Int) (b : Nat) (cnt : Int)
    (heq : ns.getD idx default = ⟨b, cnt, none⟩) (hlt : idx < ns.length) :
    chooseLarge (fuel + 1) ns idx pos =
      (if pos = 1 then
         some (b, (ns.set idx ⟨b, cnt - 1, none⟩).set idx ⟨b + 1, cnt - 1, none⟩)
       else if pos > cnt - 1 then
         some (b + (cnt - 1).toNat, ns.set idx ⟨b, cnt - 1, none⟩)
       else
         some (b + pos.toNat - 1,
           ((ns.set idx ⟨b, cnt - 1, none⟩) ++
             [(⟨b, pos - 1, none⟩ : IntervalNode),
              (⟨b + pos.toNat - 1 + 1, (cnt - 1) - (pos - 1), none⟩ : IntervalNode)]).set idx
             ⟨b, cnt - 1, some (ns.set idx ⟨b, cnt - 1, none⟩).length⟩)) := by
  simp only [chooseLarge, heq]
  rw [getD_set_eq ns idx ⟨b, cnt - 1, none⟩ default hlt]

theorem chooseLarge_node_step (fuel : Nat) (ns : List IntervalNode) (idx : Nat)
    (pos : Int) (b : Nat) (cnt : Int) (l : Nat)
    (heq : ns.getD idx default = ⟨b, cnt, some l⟩) :
    chooseLarge (fuel + 1) ns idx pos =
      (if pos > (((ns.set idx ⟨b, cnt - 1, some l⟩)).getD l default).count then
         chooseLarge fuel (ns.set idx ⟨b, cnt - 1, some l⟩) (l + 1)
           (pos - (((ns.set idx ⟨b, cnt - 1, some l⟩)).getD l default).count)
       else chooseLarge fuel (ns.set idx ⟨b, cnt - 1, some l⟩) l pos) := by
  simp only [chooseLarge, heq]

theorem chooseLarge_sim {t : ITree} :
    ∀ (pos fuel : Nat) {ns : List IntervalNode} {idx : Nat} {I : List Nat},
    Decodes ns idx t I → I.Nodup → t.wf → 1 ≤ pos → pos ≤ t.tsize →
    t.height ≤ fuel →
    ∃ ns' I',
      chooseLarge fuel ns idx (pos : Int) = some ((t.chooseAt pos).1, ns') ∧
      Decodes ns' idx (t.chooseAt pos).2 I' ∧ I'.Nodup ∧
      ns.length ≤ ns'.length ∧
      (∀ j ∈ I', j ∈ I ∨ ns.length ≤ j) ∧
      (∀ j, j ∉ I → j < ns.length → ns'.getD j default = ns.getD j default) := by
  induction t with
  | leaf b c =>
    intro pos fuel ns idx I hd hnd hw h1 h2 hf
    rw [ITree.tsize_leaf] at h2
    simp only [ITree.height] at hf
    cases hd with
    | leaf hlt heq =>
    obtain ⟨fuel, rfl⟩ : ∃ f, fuel = f + 1 := ⟨fuel - 1, by omega⟩
    rw [chooseLarge_leaf_step fuel ns idx _ b (c : Int) heq hlt]
    have hcastc : ((c : Int) - 1) = ((c - 1 : Nat) : Int) := by omega
    by_cases hp1 : pos = 1
    · subst hp1
      have hch : (ITree.leaf b c).chooseAt 1 = (b, .leaf (b + 1) (c - 1)) := by
        simp [ITree.chooseAt]
      rw [hch, if_pos (by norm_num), List.set_set]
      refine ⟨ns.set idx ⟨b + 1, (c : Int) - 1, none⟩, [idx], rfl, ?_, by simp,
        by simp, ?_, ?_⟩
      · rw [hcastc]
        exact .leaf (by simpa using hlt) (by rw [getD_set_eq _ _ _ _ hlt])
      · intro j hj
        exact Or.inl hj
      · intro j hjI hjl
        have hne : idx ≠ j := by simp at hjI; omega
        rw [getD_set_ne _ _ _ _ _ hne]
    · by_cases hmid : pos > c - 1
      · -- end of interval
        have hch : (ITree.leaf b c).chooseAt pos = (b + (c - 1), .leaf b (c - 1)) := by
          simp [ITree.chooseAt, if_neg hp1, if_pos hmid]
        rw [hch, if_neg (by omega), if_pos (by omega),
          show ((c : Int) - 1).toNat = c - 1 from by omega]
        refine ⟨ns.set idx ⟨b, (c : Int) - 1, none⟩, [idx], rfl, ?_, by simp,
          by simp, ?_, ?_⟩
        · rw [hcastc]
          exact .leaf (by simpa using hlt) (by rw [getD_set_eq _ _ _ _ hlt])
        · intro j hj
          exact Or.inl hj
        · intro j hjI hjl
          have hne : idx ≠ j := by simp at hjI; omega
          rw [getD_set_ne _ _ _ _ _ hne]
      · -- middle of interval: split the leaf
        have hp2 : 2 ≤ pos := by omega
        have hpcm : pos ≤ c - 1 := by omega
        have hch : (ITree.leaf b c).chooseAt pos =
            (b + pos - 1,
              .node b (.leaf b (pos - 1)) (.leaf (b + pos) (c - 1 - (pos - 1)))) := by
          simp [ITree.chooseAt, if_neg hp1, if_neg hmid]
        rw [hch, if_neg (by omega), if_neg (by omega), Int.toNat_natCast]
        set A : IntervalNode := ⟨b, (c : Int) - 1, none⟩ with hA
        set L : IntervalNode := ⟨b, (pos : Int) - 1, none⟩ with hL
        set R : IntervalNode :=
          ⟨b + pos - 1 + 1, ((c : Int) - 1) - ((pos : Int) - 1), none⟩ with hR
        set N : IntervalNode :=
          ⟨b, (c : Int) - 1, some (ns.set idx A).length⟩ with hN
        have hsetlen : (ns.set idx A).length = ns.length := by simp
        have hfin : ((ns.set idx A ++ [L, R]).set idx N).length = ns.length + 2 := by
          simp
        refine ⟨_, idx :: ([ns.length] ++ [ns.length + 1]), rfl, ?_, ?_, ?_, ?_, ?_⟩
        · -- decode of the freshly split node
          have hgid : ((ns.set idx A ++ [L, R]).set idx N).getD idx default
              = ⟨b, (((ITree.leaf b (pos - 1)).tsize
                  + (ITree.leaf (b + pos) (c - 1 - (pos - 1))).tsize : Nat) : Int),
                 some ns.length⟩ := by
            rw [getD_set_eq _ _ _ _ (by simp; omega), hN, hsetlen]
            rw [ITree.tsize_leaf, ITree.tsize_leaf]
            have : ((c : Int) - 1) = ((pos - 1 + (c - 1 - (pos - 1)) : Nat) : Int) := by
              omega
            rw [this]
          refine Decodes.node (by rw [hfin]; omega) hgid (by omega) ?_ ?_
          · -- left fresh leaf
            refine Decodes.leaf (by rw [hfin]; omega) ?_
            rw [getD_set_ne _ _ _ _ _ (by omega), ← hsetlen, getD_append_fst, hL]
            have : ((pos : Int) - 1) = ((pos - 1 : Nat) : Int) := by omega
            rw [this]
          · -- right fresh leaf
            refine Decodes.leaf (by rw [hfin]; omega) ?_
            rw [getD_set_ne _ _ _ _ _ (by omega),
              show ns.length + 1 = (ns.set idx A).length + 1 from by rw [hsetlen],
              getD_append_snd, hR]
            have h1' : b + pos - 1 + 1 = b + pos := by omega
            have h2' : ((c : Int) - 1) - ((pos : Int) - 1)
                = ((c - 1 - (pos - 1) : Nat) : Int) := by omega
            rw [h1', h2']
        · simp
          omega
        · rw [hfin]; omega
        · intro j hj
          simp at hj
          rcases hj with rfl | rfl | rfl
          · exact Or.inl (by simp)
          · right; omega
          · right; omega
        · intro j hjI hjl
          have hne : idx ≠ j := by simp at hjI; omega
          rw [getD_set_ne _ _ _ _ _ hne, getD_append_left _ _ _ _ (by rw [hsetlen]; omega),
            getD_set_ne _ _ _ _ _ hne]
  | node b tl tr ihl ihr =>
    intro pos fuel ns idx I hd hnd hw h1 h2 hf
    rw [ITree.tsize_node] at h2
    simp only [ITree.height] at hf
    obtain ⟨hwl, hwr, hbl, hbr, hlr⟩ := hw
    cases hd with
    | node hlt heq hil hdl hdr =>
    rename_i l Il Ir
    obtain ⟨fuel, rfl⟩ : ∃ f, fuel = f + 1 := ⟨fuel - 1, by omega⟩
    -- dissect the Nodup hypothesis
    rw [List.nodup_cons, List.nodup_append] at hnd
    obtain ⟨hidx_nmem, hIl_nd, hIr_nd, hdisj⟩ := hnd
    have hidx_nIl : idx ∉ Il := fun h => hidx_nmem (by simp [h])
    have hidx_nIr : idx ∉ Ir := fun h => hidx_nmem (by simp [h])
    have hIl_lt := hdl.mem_lt
    have hIr_lt := hdr.mem_lt
    rw [chooseLarge_node_step fuel ns idx _ b _ l heq]
    have hsetlen : (ns.set idx ⟨b, ((tl.tsize + tr.tsize : Nat) : Int) - 1, some l⟩).length
        = ns.length := by simp
    have hlc : ((ns.set idx ⟨b, ((tl.tsize + tr.tsize : Nat) : Int) - 1, some l⟩).getD
        l default).count = (tl.tsize : Int) := by
      rw [getD_set_ne _ _ _ _ _ (by omega)]
      exact hdl.count_eq
    set nodes1 := ns.set idx ⟨b, ((tl.tsize + tr.tsize : Nat) : Int) - 1, some l⟩ with hnodes1
    have hstable_l : Decodes nodes1 l tl Il :=
      hdl.stable
        (fun j hj => getD_set_ne _ _ _ _ _ (fun h => hidx_nIl (h ▸ hj)))
        (fun j hj => by rw [hsetlen]; exact hIl_lt j hj)
    have hstable_r : Decodes nodes1 (l + 1) tr Ir :=
      hdr.stable
        (fun j hj => getD_set_ne _ _ _ _ _ (fun h => hidx_nIr (h ▸ hj)))
        (fun j hj => by rw [hsetlen]; exact hIr_lt j hj)
    by_cases hgt : pos > tl.tsize
    · -- descend right
      have hch : (ITree.node b tl tr).chooseAt pos =
          ((tr.chooseAt (pos - tl.tsize)).1, .node b tl (tr.chooseAt (pos - tl.tsize)).2) := by
        simp [ITree.chooseAt, if_pos hgt]
      obtain ⟨ns2, Ir', hrun, hdec2, hnd2, hlen2, hsub2, hframe2⟩ :=
        ihr (pos - tl.tsize) fuel hstable_r hIr_nd hwr (by omega) (by omega)
          (by omega)
      rw [hch, hlc, if_pos (by omega),
        show ((pos : Int) - (tl.tsize : Int)) = ((pos - tl.tsize : Nat) : Int) from by omega]
      refine ⟨ns2, idx :: (Il ++ Ir'), hrun, ?_, ?_, ?_, ?_, ?_⟩
      · -- rebuild the decode at idx
        have hgidx : ns2.getD idx default = nodes1.getD idx default := by
          rw [hframe2 idx hidx_nIr (by rw [hsetlen]; exact hlt)]
        have hcnt : ((tl.tsize + tr.tsize : Nat) : Int) - 1
            = ((tl.tsize + (tr.chooseAt (pos - tl.tsize)).2.tsize : Nat) : Int) := by
          rw [ITree.chooseAt_tsize hwr (pos - tl.tsize) (by omega) (by omega)]
          omega
        refine Decodes.node (by omega) ?_ hil ?_ hdec2
        · rw [hgidx, hnodes1, getD_set_eq _ _ _ _ hlt, hcnt]
        · -- left subtree untouched
          refine hstable_l.stable (fun j hj => ?_) (fun j hj => by
            have := hIl_lt j hj; omega)
          refine hframe2 j (fun hc => hdisj hj hc) ?_
          rw [hsetlen]; exact hIl_lt j hj
      · -- nodup
        rw [List.nodup_cons, List.nodup_append]
        refine ⟨?_, hIl_nd, hnd2, ?_⟩
        · intro hc
          simp only [List.mem_append] at hc
          rcases hc with hc | hc
          · exact hidx_nIl hc
          · rcases hsub2 idx hc with h | h
            · exact hidx_nIr h
            · omega
        · intro a ha hc
          rcases hsub2 a hc with h | h
          · exact hdisj ha h
          · have := hIl_lt a ha; omega
      · omega
      · intro j hj
        simp only [List.mem_cons, List.mem_append] at hj
        rcases hj with rfl | hj | hj
        · exact Or.inl (by simp)
        · exact Or.inl (by simp [hj])
        · rcases hsub2 j hj with h | h
          · exact Or.inl (by simp [h])
          · right; omega
      · intro j hjI hjl
        have hj_nIr : j ∉ Ir := fun h => hjI (by simp [h])
        have hj_ne : idx ≠ j := fun h => hjI (by simp [h])
        rw [hframe2 j hj_nIr (by rw [hsetlen]; exact hjl), hnodes1,
          getD_set_ne _ _ _ _ _ hj_ne]
    · -- descend left
      have hch : (ITree.node b tl tr).chooseAt pos =
          ((tl.chooseAt pos).1, .node b (tl.chooseAt pos).2 tr) := by
        simp [ITree.chooseAt, if_neg hgt]
      obtain ⟨ns2, Il', hrun, hdec2, hnd2, hlen2, hsub2, hframe2⟩ :=
        ihl pos fuel hstable_l hIl_nd hwl h1 (by omega) (by omega)
      rw [hch, hlc, if_neg (by omega)]
      refine ⟨ns2, idx :: (Il' ++ Ir), hrun, ?_, ?_, ?_, ?_, ?_⟩
      · have hgidx : ns2.getD idx default = nodes1.getD idx default := by
          rw [hframe2 idx hidx_nIl (by rw [hsetlen]; exact hlt)]
        have hcnt : ((tl.tsize + tr.tsize : Nat) : Int)
            - 1 = (((tl.chooseAt pos).2.tsize + tr.tsize : Nat) : Int) := by
          rw [ITree.chooseAt_tsize hwl pos h1 (by omega)]
          omega
        refine Decodes.node (by omega) ?_ hil hdec2 ?_
        · rw [hgidx, hnodes1, getD_set_eq _ _ _ _ hlt, hcnt]
        · refine hstable_r.stable (fun j hj => ?_) (fun j hj => by
            have := hIr_lt j hj; omega)
          refine hframe2 j (fun hc => hdisj hc hj) ?_
          rw [hsetlen]; exact hIr_lt j hj
      · rw [List.nodup_cons, List.nodup_append]
        refine ⟨?_, hnd2, hIr_nd, ?_⟩
        · intro hc
          simp only [List.mem_append] at hc
          rcases hc with hc | hc
          · rcases hsub2 idx hc with h | h
            · exact hidx_nIl h
            · omega
          · exact hidx_nIr hc
        · intro a ha hc
          rcases hsub2 a ha with h | h
          · exact hdisj h hc
          · have := hIr_lt a hc; omega
      · omega
      · intro j hj
        simp only [List.mem_cons, List.mem_append] at hj
        rcases hj with rfl | hj | hj
        · exact Or.inl (by simp)
        · rcases hsub2 j hj with h | h
          · exact Or.inl (by simp [h])
          · right; omega
        · exact Or.inl (by simp [hj])
      · intro j hjI hjl
        have hj_nIl : j ∉ Il := fun h => hjI (by simp [h])
        have hj_ne : idx ≠ j := fun h => hjI (by simp [h])
        rw [hframe2 j hj_nIl (by rw [hsetlen]; exact hjl), hnodes1,
          getD_set_ne _ _ _ _ _ hj_ne]

/-! ### Simulation of `remove`'s descent -/

theorem bumpCount_length (ns : List IntervalNode) (p : Nat) :
    (bumpCount ns p).length = ns.length := by
  simp [bumpCount]

theorem restorePath_length (path : List Nat) : ∀ ns : List IntervalNode,
    (restorePath ns path).length = ns.length := by
  induction path with
  | nil => intro ns; rfl
  | cons p path ih =>
    intro ns
    show (restorePath (bumpCount ns p) path).length = ns.length
    rw [ih, bumpCount_length]

theorem bumpCount_set_comm (ns : List IntervalNode) (idx p : Nat)
    (a : IntervalNode) (h : p ≠ idx) :
    bumpCount (ns.set idx a) p = (bumpCount ns p).set idx a := by
  simp only [bumpCount]
  rw [getD_set_ne _ _ _ _ _ (fun hc => h hc.symm)]
  exact List.set_comm _ _ ns (fun hc => h hc.symm)

theorem restorePath_set_comm (path : List Nat) :
    ∀ (ns : List IntervalNode) (idx : Nat) (a : IntervalNode), idx ∉ path →
    restorePath (ns.set idx a) path = (restorePath ns path).set idx a := by
  induction path with
  | nil => intro ns idx a _; rfl
  | cons p path ih =>
    intro ns idx a hnm
    have hp : p ≠ idx := fun h => hnm (by simp [h])
    show restorePath (bumpCount (ns.set idx a) p) path = _
    rw [bumpCount_set_comm ns idx p a hp, ih _ idx a (fun h => hnm (by simp [h]))]
    rfl

theorem restorePath_getD_ne (path : List Nat) :
    ∀ (ns : List IntervalNode) (idx : Nat), idx ∉ path →
    (restorePath ns path).getD idx default = ns.getD idx default := by
  induction path with
  | nil => intro ns idx _; rfl
  | cons p path ih =>
    intro ns idx hnm
    have hp : p ≠ idx := fun h => hnm (by simp [h])
    show (restorePath (bumpCount ns p) path).getD idx default = _
    rw [ih _ idx (fun h => hnm (by simp [h]))]
    simp only [bumpCount]
    rw [getD_set_ne _ _ _ _ _ hp]

/-- Backing out the decrement at `idx` (appended last to the path) restores
the arena exactly. -/
theorem restorePath_snoc_cancel (ns : List IntervalNode) (path : List Nat)
    (idx : Nat) (b : Nat) (cnt : Int) (lc : Option Nat)
    (heq : ns.getD idx default = ⟨b, cnt, lc⟩) (hlt : idx < ns.length)
    (hnm : idx ∉ path) :
    restorePath (ns.set idx ⟨b, cnt - 1, lc⟩) (path ++ [idx])
      = restorePath ns path := by
  show List.foldl bumpCount _ (path ++ [idx]) = _
  rw [List.foldl_append]
  show bumpCount (restorePath (ns.set idx ⟨b, cnt - 1, lc⟩) path) idx = _
  rw [restorePath_set_comm path _ idx _ hnm]
  unfold bumpCount
  rw [getD_set_eq _ _ _ _ (by rw [restorePath_length]; exact hlt), List.set_set]
  have hv : (⟨b, cnt - 1 + 1, lc⟩ : IntervalNode)
      = (restorePath ns path).getD idx default := by
    rw [restorePath_getD_ne path ns idx hnm, heq]
    simp
  rw [hv, set_getD_self]

theorem removeLarge_leaf_step (fuel : Nat) (ns : List IntervalNode) (idx : Nat)
    (path : List Nat) (v b : Nat) (cnt : Int)
    (heq : ns.getD idx default = ⟨b, cnt, none⟩) (hlt : idx < ns.length) :
    removeLarge (fuel + 1) ns idx path v =
      (if v < b ∨ (v : Int) ≥ (b : Int) + cnt then
         some (restorePath ns path, false)
       else if v = b then
         some ((ns.set idx ⟨b, cnt - 1, none⟩).set idx ⟨b + 1, cnt - 1, none⟩, true)
       else if (v : Int) = (b : Int) + (cnt - 1) then
         some (ns.set idx ⟨b, cnt - 1, none⟩, true)
       else
         some (((ns.set idx ⟨b, cnt - 1, none⟩) ++
             [(⟨b, (v : Int) - (b : Int), none⟩ : IntervalNode),
              (⟨v + 1, (cnt - 1) - ((v : Int) - (b : Int)), none⟩ : IntervalNode)]).set
             idx ⟨b, cnt - 1, some (ns.set idx ⟨b, cnt - 1, none⟩).length⟩, true)) := by
  simp only [removeLarge, heq]
  rw [getD_set_eq ns idx ⟨b, cnt - 1, none⟩ default hlt]

theorem removeLarge_node_step (fuel : Nat) (ns : List IntervalNode) (idx : Nat)
    (path : List Nat) (v b : Nat) (cnt : Int) (l : Nat)
    (heq : ns.getD idx default = ⟨b, cnt, some l⟩) :
    removeLarge (fuel + 1) ns idx path v =
      (if v < ((ns.set idx ⟨b, cnt - 1, some l⟩).getD (l + 1) default).base then
         removeLarge fuel (ns.set idx ⟨b, cnt - 1, some l⟩) l (path ++ [idx]) v
       else
         removeLarge fuel (ns.set idx ⟨b, cnt - 1, some l⟩) (l + 1) (path ++ [idx]) v) := by
  simp only [removeLarge, heq]

theorem removeLarge_sim {t : ITree} :
    ∀ (v fuel : Nat) (path : List Nat) {ns : List IntervalNode} {idx : Nat}
      {I : List Nat},
    Decodes ns idx t I → I.Nodup → t.wf → t.height ≤ fuel →
    (∀ j ∈ path, j ∉ I) → (∀ j ∈ path, j < ns.length) →
    ((v ∉ t.elems →
        removeLarge fuel ns idx path v = some (restorePath ns path, false)) ∧
     (v ∈ t.elems → ∃ ns' I',
        removeLarge fuel ns idx path v = some (ns', true) ∧
        Decodes ns' idx (t.removeAt v).1 I' ∧ I'.Nodup ∧
        ns.length ≤ ns'.length ∧
        (∀ j ∈ I', j ∈ I ∨ ns.length ≤ j) ∧
        (∀ j, j ∉ I → j < ns.length → ns'.getD j default = ns.getD j default))) := by
  induction t with
  | leaf b c =>
    intro v fuel path ns idx I hd hnd hw hf hpI hplen
    simp only [ITree.height] at hf
    cases hd with
    | leaf hlt heq =>
    obtain ⟨fuel, rfl⟩ : ∃ f, fuel = f + 1 := ⟨fuel - 1, by omega⟩
    rw [removeLarge_leaf_step fuel ns idx path v b (c : Int) heq hlt]
    constructor
    · intro hnv
      have hout : v < b ∨ v ≥ b + c := by
        by_contra hc
        push_neg at hc
        exact hnv (mem_range'_iff.mpr ⟨by omega, by omega⟩)
      rw [if_pos (by omega)]
    · intro hv
      have hm := mem_range'_iff.mp hv
      rw [if_neg (by omega)]
      have hcastc : ((c : Int) - 1) = ((c - 1 : Nat) : Int) := by omega
      by_cases hb : v = b
      · have hch : (ITree.leaf b c).removeAt v = (.leaf (b + 1) (c - 1), true) := by
          simp only [ITree.removeAt, if_neg (by omega : ¬(v < b ∨ v ≥ b + c)),
            if_pos hb]
        rw [if_pos hb, List.set_set, hch]
        refine ⟨ns.set idx ⟨b + 1, (c : Int) - 1, none⟩, [idx], rfl, ?_, by simp,
          by simp, ?_, ?_⟩
        · rw [hcastc]
          exact .leaf (by simpa using hlt) (by rw [getD_set_eq _ _ _ _ hlt])
        · intro j hj
          exact Or.inl hj
        · intro j hjI hjl
          have hne : idx ≠ j := by simp at hjI; omega
          rw [getD_set_ne _ _ _ _ _ hne]
      · by_cases he : v = b + (c - 1)
        · have hch : (ITree.leaf b c).removeAt v = (.leaf b (c - 1), true) := by
            simp only [ITree.removeAt, if_neg (by omega : ¬(v < b ∨ v ≥ b + c)),
              if_neg hb, if_pos he]
          rw [if_neg hb, if_pos (by omega), hch]
          refine ⟨ns.set idx ⟨b, (c : Int) - 1, none⟩, [idx], rfl, ?_, by simp,
            by simp, ?_, ?_⟩
          · rw [hcastc]
            exact .leaf (by simpa using hlt) (by rw [getD_set_eq _ _ _ _ hlt])
          · intro j hj
            exact Or.inl hj
          · intro j hjI hjl
            have hne : idx ≠ j := by simp at hjI; omega
            rw [getD_set_ne _ _ _ _ _ hne]
        · -- middle: split
          have hch : (ITree.leaf b c).removeAt v =
              (.node b (.leaf b (v - b)) (.leaf (v + 1) ((c - 1) - (v - b))), true) := by
            simp only [ITree.removeAt, if_neg (by omega : ¬(v < b ∨ v ≥ b + c)),
              if_neg hb, if_neg he]
          rw [if_neg hb, if_neg (by omega), hch]
          set A : IntervalNode := ⟨b, (c : Int) - 1, none⟩ with hA
          set L : IntervalNode := ⟨b, (v : Int) - (b : Int), none⟩ with hL
          set R : IntervalNode :=
            ⟨v + 1, ((c : Int) - 1) - ((v : Int) - (b : Int)), none⟩ with hR
          set N : IntervalNode :=
            ⟨b, (c : Int) - 1, some (ns.set idx A).length⟩ with hN
          have hsetlen : (ns.set idx A).length = ns.length := by simp
          have hfin : ((ns.set idx A ++ [L, R]).set idx N).length = ns.length + 2 := by
            simp
          refine ⟨_, idx :: ([ns.length] ++ [ns.length + 1]), rfl, ?_, ?_, ?_, ?_, ?_⟩
          · have hgid : ((ns.set idx A ++ [L, R]).set idx N).getD idx default
                = ⟨b, (((ITree.leaf b (v - b)).tsize
                    + (ITree.leaf (v + 1) ((c - 1) - (v - b))).tsize : Nat) : Int),
                   some ns.length⟩ := by
              rw [getD_set_eq _ _ _ _ (by simp; omega), hN, hsetlen]
              rw [ITree.tsize_leaf, ITree.tsize_leaf]
              have : ((c : Int) - 1) = ((v - b + (c - 1 - (v - b)) : Nat) : Int) := by
                omega
              rw [this]
            refine Decodes.node (by rw [hfin]; omega) hgid (by omega) ?_ ?_
            · refine Decodes.leaf (by rw [hfin]; omega) ?_
              rw [getD_set_ne _ _ _ _ _ (by omega), ← hsetlen, getD_append_fst, hL]
              have : ((v : Int) - (b : Int)) = ((v - b : Nat) : Int) := by omega
              rw [this]
            · refine Decodes.leaf (by rw [hfin]; omega) ?_
              rw [getD_set_ne _ _ _ _ _ (by omega),
                show ns.length + 1 = (ns.set idx A).length + 1 from by rw [hsetlen],
                getD_append_snd, hR]
              have h2' : ((c : Int) - 1) - ((v : Int) - (b : Int))
                  = ((c - 1 - (v - b) : Nat) : Int) := by omega
              rw [h2']
          · simp
            omega
          · rw [hfin]; omega
          · intro j hj
            simp at hj
            rcases hj with rfl | rfl | rfl
            · exact Or.inl (by simp)
            · right; omega
            · right; omega
          · intro j hjI hjl
            have hne : idx ≠ j := by simp at hjI; omega
            rw [getD_set_ne _ _ _ _ _ hne,
              getD_append_left _ _ _ _ (by rw [hsetlen]; omega),
              getD_set_ne _ _ _ _ _ hne]
  | node b tl tr ihl ihr =>
    intro v fuel path ns idx I hd hnd hw hf hpI hplen
    simp only [ITree.height] at hf
    obtain ⟨hwl, hwr, hbl, hbr, hlr⟩ := hw
    cases hd with
    | node hlt heq hil hdl hdr =>
    rename_i l Il Ir
    obtain ⟨fuel, rfl⟩ : ∃ f, fuel = f + 1 := ⟨fuel - 1, by omega⟩
    rw [List.nodup_cons, List.nodup_append] at hnd
    obtain ⟨hidx_nmem, hIl_nd, hIr_nd, hdisj⟩ := hnd
    have hidx_nIl : idx ∉ Il := fun h => hidx_nmem (by simp [h])
    have hidx_nIr : idx ∉ Ir := fun h => hidx_nmem (by simp [h])
    have hIl_lt := hdl.mem_lt
    have hIr_lt := hdr.mem_lt
    rw [removeLarge_node_step fuel ns idx path v b _ l heq]
    have hsetlen : (ns.set idx ⟨b, ((tl.tsize + tr.tsize : Nat) : Int) - 1, some l⟩).length
        = ns.length := by simp
    set nodes1 := ns.set idx ⟨b, ((tl.tsize + tr.tsize : Nat) : Int) - 1, some l⟩
      with hnodes1
    have hrb : (nodes1.getD (l + 1) default).base = tr.tbase := by
      rw [hnodes1, getD_set_ne _ _ _ _ _ (by omega)]
      exact hdr.base_eq
    have hstable_l : Decodes nodes1 l tl Il :=
      hdl.stable
        (fun j hj => getD_set_ne _ _ _ _ _ (fun h => hidx_nIl (h ▸ hj)))
        (fun j hj => by rw [hsetlen]; exact hIl_lt j hj)
    have hstable_r : Decodes nodes1 (l + 1) tr Ir :=
      hdr.stable
        (fun j hj => getD_set_ne _ _ _ _ _ (fun h => hidx_nIr (h ▸ hj)))
        (fun j hj => by rw [hsetlen]; exact hIr_lt j hj)
    have hrestore : restorePath nodes1 (path ++ [idx]) = restorePath ns path := by
      rw [hnodes1]
      exact restorePath_snoc_cancel ns path idx b _ (some l) heq hlt
        (fun h => hpI idx h (by simp))
    have hpI_l : ∀ j ∈ path ++ [idx], j ∉ Il := by
      intro j hj
      simp only [List.mem_append, List.mem_singleton] at hj
      rcases hj with hj | rfl
      · exact fun hc => hpI j hj (by simp [hc])
      · exact hidx_nIl
    have hpI_r : ∀ j ∈ path ++ [idx], j ∉ Ir := by
      intro j hj
      simp only [List.mem_append, List.mem_singleton] at hj
      rcases hj with hj | rfl
      · exact fun hc => hpI j hj (by simp [hc])
      · exact hidx_nIr
    have hplen1 : ∀ j ∈ path ++ [idx], j < nodes1.length := by
      intro j hj
      rw [hsetlen]
      simp only [List.mem_append, List.mem_singleton] at hj
      rcases hj with hj | rfl
      · exact hplen j hj
      · exact hlt
    by_cases hroute : v < tr.tbase
    · rw [hrb, if_pos hroute]
      have hch : (ITree.node b tl tr).removeAt v =
          (.node b (tl.removeAt v).1 tr, (tl.removeAt v).2) := by
        simp [ITree.removeAt, if_pos hroute]
      obtain ⟨ihn, ihy⟩ := ihl v fuel (path ++ [idx]) hstable_l hIl_nd hwl
        (by omega) hpI_l hplen1
      constructor
      · intro hnv
        have hnvl : v ∉ tl.elems := fun h => hnv (by
          simp only [ITree.elems, List.mem_append]; exact Or.inl h)
        rw [ihn hnvl, hrestore]
      · intro hv
        have hvl : v ∈ tl.elems := by
          simp only [ITree.elems, List.mem_append] at hv
          rcases hv with h | h
          · exact h
          · exact absurd (ITree.tbase_le_of_mem hwr h) (by omega)
        obtain ⟨ns2, Il', hrun, hdec2, hnd2, hlen2, hsub2, hframe2⟩ := ihy hvl
        rw [hrun, hch]
        refine ⟨ns2, idx :: (Il' ++ Ir), ?_, ?_, ?_, ?_, ?_, ?_⟩
        · rfl
        · have hgidx : ns2.getD idx default = nodes1.getD idx default :=
            hframe2 idx hidx_nIl (by rw [hsetlen]; exact hlt)
          have htsl : 1 ≤ tl.tsize := by
            have := List.length_pos_of_mem hvl
            show 1 ≤ tl.elems.length
            omega
          have hcnt : ((tl.tsize + tr.tsize : Nat) : Int) - 1
              = (((tl.removeAt v).1.tsize + tr.tsize : Nat) : Int) := by
            rw [ITree.removeAt_tsize hwl hvl]
            omega
          have hgid2 : ns2.getD idx default
              = ⟨b, (((tl.removeAt v).1.tsize + tr.tsize : Nat) : Int), some l⟩ := by
            rw [hgidx, hnodes1, getD_set_eq _ _ _ _ hlt, hcnt]
          refine Decodes.node (by omega) hgid2 hil hdec2 ?_
          refine hstable_r.stable (fun j hj => ?_) (fun j hj => by
            have := hIr_lt j hj; omega)
          refine hframe2 j (fun hc => hdisj hc hj) ?_
          rw [hsetlen]; exact hIr_lt j hj
        · rw [List.nodup_cons, List.nodup_append]
          refine ⟨?_, hnd2, hIr_nd, ?_⟩
          · intro hc
            simp only [List.mem_append] at hc
            rcases hc with hc | hc
            · rcases hsub2 idx hc with h | h
              · exact hidx_nIl h
              · omega
            · exact hidx_nIr hc
          · intro a ha hc
            rcases hsub2 a ha with h | h
            · exact hdisj h hc
            · have := hIr_lt a hc; omega
        · omega
        · intro j hj
          simp only [List.mem_cons, List.mem_append] at hj
          rcases hj with rfl | hj | hj
          · exact Or.inl (by simp)
          · rcases hsub2 j hj with h | h
            · exact Or.inl (by simp [h])
            · right; omega
          · exact Or.inl (by simp [hj])
        · intro j hjI hjl
          have hj_nIl : j ∉ Il := fun h => hjI (by simp [h])
          have hj_ne : idx ≠ j := fun h => hjI (by simp [h])
          rw [hframe2 j hj_nIl (by rw [hsetlen]; exact hjl), hnodes1,
            getD_set_ne _ _ _ _ _ hj_ne]
    · rw [hrb, if_neg hroute]
      have hch : (ITree.node b tl tr).removeAt v =
          (.node b tl (tr.removeAt v).1, (tr.removeAt v).2) := by
        simp [ITree.removeAt, if_neg hroute]
      obtain ⟨ihn, ihy⟩ := ihr v fuel (path ++ [idx]) hstable_r hIr_nd hwr
        (by omega) hpI_r hplen1
      have hnvl : v ∉ tl.elems := fun h => hroute (hlr v h)
      constructor
      · intro hnv
        have hnvr : v ∉ tr.elems := fun h => hnv (by
          simp only [ITree.elems, List.mem_append]; exact Or.inr h)
        rw [ihn hnvr, hrestore]
      · intro hv
        have hvr : v ∈ tr.elems := by
          simp only [ITree.elems, List.mem_append] at hv
          tauto
        obtain ⟨ns2, Ir', hrun, hdec2, hnd2, hlen2, hsub2, hframe2⟩ := ihy hvr
        rw [hrun, hch]
        refine ⟨ns2, idx :: (Il ++ Ir'), ?_, ?_, ?_, ?_, ?_, ?_⟩
        · rfl
        · have hgidx : ns2.getD idx default = nodes1.getD idx default :=
            hframe2 idx hidx_nIr (by rw [hsetlen]; exact hlt)
          have htsr : 1 ≤ tr.tsize := by
            have := List.length_pos_of_mem hvr
            show 1 ≤ tr.elems.length
            omega
          have hcnt : ((tl.tsize + tr.tsize : Nat) : Int) - 1
              = ((tl.tsize + (tr.removeAt v).1.tsize : Nat) : Int) := by
            rw [ITree.removeAt_tsize hwr hvr]
            omega
          have hgid2 : ns2.getD idx default
              = ⟨b, ((tl.tsize + (tr.removeAt v).1.tsize : Nat) : Int), some l⟩ := by
            rw [hgidx, hnodes1, getD_set_eq _ _ _ _ hlt, hcnt]
          refine Decodes.node (by omega) hgid2 hil ?_ hdec2
          refine hstable_l.stable (fun j hj => ?_) (fun j hj => by
            have := hIl_lt j hj; omega)
          refine hframe2 j (fun hc => hdisj hj hc) ?_
          rw [hsetlen]; exact hIl_lt j hj
        · rw [List.nodup_cons, List.nodup_append]
          refine ⟨?_, hIl_nd, hnd2, ?_⟩
          · intro hc
            simp only [List.mem_append] at hc
            rcases hc with hc | hc
            · exact hidx_nIl hc
            · rcases hsub2 idx hc with h | h
              · exact hidx_nIr h
              · omega
          · intro a ha hc
            rcases hsub2 a hc with h | h
            · exact hdisj ha h
            · have := hIl_lt a ha; omega
        · omega
        · intro j hj
          simp only [List.mem_cons, List.mem_append] at hj
          rcases hj with rfl | hj | hj
          · exact Or.inl (by simp)
          · exact Or.inl (by simp [hj])
          · rcases hsub2 j hj with h | h
            · exact Or.inl (by simp [h])
            · right; omega
        · intro j hjI hjl
          have hj_nIr : j ∉ Ir := fun h => hjI (by simp [h])
          have hj_ne : idx ≠ j := fun h => hjI (by simp [h])
          rw [hframe2 j hj_nIr (by rw [hsetlen]; exact hjl), hnodes1,
            getD_set_ne _ _ _ _ _ hj_ne]

/-! ### The flag-array representation -/

theorem elemsSmall_replicate (n : Nat) : ∀ base : Nat,
    elemsSmall base (List.replicate n false) = List.range' base n := by
  induction n with
  | zero => intro base; rfl
  | succ n ih =>
    intro base
    show base :: elemsSmall (base + 1) (List.replicate n false) = _
    rw [ih (base + 1), range'_succ_cons]

theorem elemsSmall_lb : ∀ (flags : List Bool) (base v : Nat),
    v ∈ elemsSmall base flags → base ≤ v := by
  intro flags
  induction flags with
  | nil => intro base v h; simp [elemsSmall] at h
  | cons f fs ih =>
    intro base v h
    cases f with
    | false =>
      rcases List.mem_cons.mp h with rfl | h
      · exact le_refl _
      · exact le_trans (by omega) (ih (base + 1) v h)
    | true => exact le_trans (by omega) (ih (base + 1) v h)

theorem elemsSmall_sorted : ∀ (flags : List Bool) (base : Nat),
    (elemsSmall base flags).Sorted (· < ·) := by
  intro flags
  induction flags with
  | nil => intro base; exact List.sorted_nil
  | cons f fs ih =>
    intro base
    cases f with
    | false =>
      refine List.sorted_cons.mpr ⟨?_, ih (base + 1)⟩
      intro v hv
      exact lt_of_lt_of_le (by omega) (elemsSmall_lb fs (base + 1) v hv)
    | true => exact ih (base + 1)

theorem elemsSmall_ub : ∀ (flags : List Bool) (base v : Nat),
    v ∈ elemsSmall base flags → v < base + flags.length := by
  intro flags
  induction flags with
  | nil => intro base v h; simp [elemsSmall] at h
  | cons f fs ih =>
    intro base v h
    cases f with
    | false =>
      rcases List.mem_cons.mp h with rfl | h
      · simp
      · have := ih (base + 1) v h
        simp only [List.length_cons]
        omega
    | true =>
      have := ih (base + 1) v h
      simp only [List.length_cons]
      omega

theorem elemsSmall_mem_flag : ∀ (flags : List Bool) (base v : Nat),
    v ∈ elemsSmall base flags ↔
      base ≤ v ∧ v < base + flags.length ∧ flags.getD (v - base) true = false := by
  intro flags
  induction flags with
  | nil => intro base v; simp [elemsSmall, List.getD]
  | cons f fs ih =>
    intro base v
    constructor
    · intro h
      have hlb := elemsSmall_lb _ _ _ h
      have hub := elemsSmall_ub _ _ _ h
      refine ⟨hlb, hub, ?_⟩
      cases f with
      | false =>
        rcases List.mem_cons.mp h with rfl | h
        · simp
        · have hlb2 := elemsSmall_lb _ _ _ h
          have := (ih (base + 1) v).mp h
          have hvb : v - base = (v - (base + 1)) + 1 := by omega
          rw [hvb]
          exact this.2.2
      | true =>
        have hlb2 := elemsSmall_lb _ _ _ h
        have := (ih (base + 1) v).mp h
        have hvb : v - base = (v - (base + 1)) + 1 := by omega
        rw [hvb]
        exact this.2.2
    · rintro ⟨hlb, hub, hflag⟩
      by_cases hvb : v = base
      · subst hvb
        simp only [Nat.sub_self] at hflag
        cases f with
        | false => exact List.mem_cons_self _ _
        | true => simp [List.getD] at hflag
      · have hvb2 : v - base = (v - (base + 1)) + 1 := by omega
        rw [hvb2] at hflag
        have hmem : v ∈ elemsSmall (base + 1) fs := by
          refine (ih (base + 1) v).mpr ⟨by omega, ?_, hflag⟩
          simp only [List.length_cons] at hub
          omega
        cases f with
        | false => exact List.mem_cons_of_mem _ hmem
        | true => exact hmem

theorem elemsSmall_set_true : ∀ (flags : List Bool) (off base : Nat),
    off < flags.length → flags.getD off true = false →
    elemsSmall base (flags.set off true)
      = (elemsSmall base flags).erase (base + off) := by
  intro flags
  induction flags with
  | nil => intro off base h _; simp at h
  | cons f fs ih =>
    intro off base hoff hflag
    cases off with
    | zero =>
      have hf : f = false := by simpa [List.getD] using hflag
      subst hf
      show elemsSmall (base + 1) fs
          = (base :: elemsSmall (base + 1) fs).erase (base + 0)
      simp
    | succ off =>
      have hoff2 : off < fs.length := by simpa using hoff
      have hflag2 : fs.getD off true = false := by simpa [List.getD] using hflag
      cases f with
      | false =>
        show base :: elemsSmall (base + 1) (fs.set off true) = _
        rw [ih off (base + 1) hoff2 hflag2]
        show _ = (base :: elemsSmall (base + 1) fs).erase (base + (off + 1))
        rw [List.erase_cons_tail (by simp <;> omega)]
        congr 1
        congr 1
        omega
      | true =>
        show elemsSmall (base + 1) (fs.set off true) = _
        rw [ih off (base + 1) hoff2 hflag2]
        congr 1
        omega

theorem chooseSmallScan_spec : ∀ (flags : List Bool) (base i p : Nat),
    1 ≤ p → p ≤ (elemsSmall (base + i) flags).length →
    ∃ fs', chooseSmallScan base i p flags
        = some (((elemsSmall (base + i) flags).getD (p - 1) 0), fs') ∧
      elemsSmall (base + i) fs' = (elemsSmall (base + i) flags).eraseIdx (p - 1) ∧
      fs'.length = flags.length := by
  intro flags
  induction flags with
  | nil =>
    intro base i p h1 h2
    simp [elemsSmall] at h2
    omega
  | cons f fs ih =>
    intro base i p h1 h2
    cases f with
    | false =>
      by_cases hp1 : p = 1
      · subst hp1
        refine ⟨true :: fs, ?_, ?_, by simp⟩
        · show some (base + i, true :: fs) = _
          rfl
        · show elemsSmall (base + i) (true :: fs)
              = (elemsSmall (base + i) (false :: fs)).eraseIdx 0
          show elemsSmall (base + i + 1) fs
              = ((base + i) :: elemsSmall (base + i + 1) fs).eraseIdx 0
          rfl
      · have h2' : p - 1 ≤ (elemsSmall (base + (i + 1)) fs).length := by
          have : elemsSmall (base + i) (false :: fs)
              = (base + i) :: elemsSmall (base + i + 1) fs := rfl
          rw [this] at h2
          simp only [List.length_cons] at h2
          rw [show base + (i + 1) = base + i + 1 from by omega]
          omega
        obtain ⟨fs', hscan, helems, hlen⟩ := ih base (i + 1) (p - 1) (by omega) h2'
        refine ⟨false :: fs', ?_, ?_, by simpa using hlen⟩
        · rw [show chooseSmallScan base i p (false :: fs)
              = (if p = 1 then some (base + i, true :: fs)
                 else match chooseSmallScan base (i + 1) (p - 1) fs with
                   | some (v, fs2) => some (v, false :: fs2)
                   | none => none) from rfl,
            if_neg hp1, hscan]
          show some ((elemsSmall (base + (i + 1)) fs).getD (p - 1 - 1) 0, false :: fs')
            = _
          have hg : (elemsSmall (base + i) (false :: fs)).getD (p - 1) 0
              = (elemsSmall (base + (i + 1)) fs).getD (p - 1 - 1) 0 := by
            show ((base + i) :: elemsSmall (base + i + 1) fs).getD (p - 1) 0 = _
            rw [show base + (i + 1) = base + i + 1 from by omega]
            cases hp : p - 1 with
            | zero => omega
            | succ q => simp [List.getD]
          rw [hg]
        · show (base + i) :: elemsSmall (base + i + 1) fs'
            = ((base + i) :: elemsSmall (base + i + 1) fs).eraseIdx (p - 1)
          rw [show base + i + 1 = base + (i + 1) from by omega, helems]
          cases hp : p - 1 with
          | zero => omega
          | succ q => simp [List.eraseIdx]
    | true =>
      have h2' : p ≤ (elemsSmall (base + (i + 1)) fs).length := by
        have : elemsSmall (base + i) (true :: fs)
            = elemsSmall (base + i + 1) fs := rfl
        rw [this] at h2
        rw [show base + (i + 1) = base + i + 1 from by omega]
        exact h2
      obtain ⟨fs', hscan, helems, hlen⟩ := ih base (i + 1) p h1 h2'
      refine ⟨true :: fs', ?_, ?_, by simpa using hlen⟩
      · rw [show chooseSmallScan base i p (true :: fs)
            = (match chooseSmallScan base (i + 1) p fs with
               | some (v, fs2) => some (v, true :: fs2)
               | none => none) from rfl,
          hscan]
        show some ((elemsSmall (base + (i + 1)) fs).getD (p - 1) 0, true :: fs') = _
        have hg : (elemsSmall (base + i) (true :: fs)).getD (p - 1) 0
            = (elemsSmall (base + (i + 1)) fs).getD (p - 1) 0 := by
          show (elemsSmall (base + i + 1) fs).getD (p - 1) 0 = _
          rw [show base + (i + 1) = base + i + 1 from by omega]
        rw [hg]
      · show elemsSmall (base + i + 1) fs'
          = (elemsSmall (base + i + 1) fs).eraseIdx (p - 1)
        rw [show base + i + 1 = base + (i + 1) from by omega, helems]

/-! ### The `IndexList` invariant and the specifications of its operations -/

theorem Decodes.card_le {ns : List IntervalNode} {idx : Nat} {t : ITree}
    {I : List Nat} (h : Decodes ns idx t I) (hnd : I.Nodup) :
    I.length ≤ ns.length := by
  have hsub : I ⊆ List.range ns.length := fun j hj =>
    List.mem_range.mpr (h.mem_lt j hj)
  have := (List.Nodup.subperm hnd hsub).length_le
  simpa using this

/-- Representation invariant: every `IndexList` obtained through the public
interface satisfies it. -/
def IndexList.Inv (li : IndexList) : Prop :=
  match li.imp with
  | .small base flags =>
      li.original_size = flags.length ∧
      li.index_size = ((elemsSmall base flags).length : Int)
  | .large nodes =>
      ∃ t I, Decodes nodes 0 t I ∧ I.Nodup ∧ t.wf ∧
        li.index_size = (t.tsize : Int)

theorem elems_large_eq {ns : List IntervalNode} {t : ITree} {I : List Nat}
    (hdec : Decodes ns 0 t I) (hnd : I.Nodup) {fuel : Nat}
    (hfuel : ns.length ≤ fuel) : subtreeElems fuel ns 0 = t.elems :=
  hdec.subtreeElems_eq fuel (le_trans (le_trans hdec.height_le
    (hdec.card_le hnd)) hfuel)

theorem IndexList.choose_invalid (l : IndexList) (p : Nat)
    (h : p < 1 ∨ (p : Int) > l.index_size) : l.choose p = some (0, l) := by
  unfold IndexList.choose
  rw [if_pos h]

theorem IndexList.new_spec (from_ to_ : Nat) (h1 : 1 ≤ from_)
    (h2 : from_ ≤ to_) :
    ∃ l, IndexList.new from_ to_ = some l ∧ l.Inv ∧
      l.elems = List.range' from_ (to_ - from_ + 1) ∧
      l.original_size = to_ - from_ + 1 ∧
      l.index_size = ((to_ - from_ + 1 : Nat) : Int) ∧
      l.pseudo_size = ((to_ - from_ + 1 : Nat) : Int) := by
  by_cases hsmall : to_ - from_ + 1 ≤ FLAG_LIMIT
  · have hnew : IndexList.new from_ to_
        = some ⟨to_ - from_ + 1, ((to_ - from_ + 1 : Nat) : Int),
            ((to_ - from_ + 1 : Nat) : Int),
            .small from_ (List.replicate (to_ - from_ + 1) false)⟩ := by
      unfold IndexList.new
      simp [h1, h2, hsmall]
    refine ⟨_, hnew, ⟨by simp, ?_⟩, ?_, rfl, rfl, rfl⟩
    · show ((to_ - from_ + 1 : Nat) : Int) = _
      rw [elemsSmall_replicate (to_ - from_ + 1) from_]
      simp
    · show elemsSmall from_ (List.replicate (to_ - from_ + 1) false) = _
      rw [elemsSmall_replicate (to_ - from_ + 1) from_]
  · have hnew : IndexList.new from_ to_
        = some ⟨to_ - from_ + 1, ((to_ - from_ + 1 : Nat) : Int),
            ((to_ - from_ + 1 : Nat) : Int),
            .large [⟨from_, ((to_ - from_ + 1 : Nat) : Int), none⟩]⟩ := by
      unfold IndexList.new
      simp [h1, h2, hsmall]
    have hdec : Decodes
        [(⟨from_, ((to_ - from_ + 1 : Nat) : Int), none⟩ : IntervalNode)] 0
        (.leaf from_ (to_ - from_ + 1)) [0] := .leaf (by simp) rfl
    refine ⟨_, hnew, ⟨.leaf from_ (to_ - from_ + 1), [0], hdec, by simp,
      trivial, ?_⟩, ?_, rfl, rfl, rfl⟩
    · rw [ITree.tsize_leaf]
    · show subtreeElems _ _ 0 = _
      rw [elems_large_eq hdec (by simp) (by simp)]
      rfl

theorem IndexList.choose_spec (l : IndexList) (hInv : l.Inv) (p : Nat)
    (h1 : 1 ≤ p) (h2 : (p : Int) ≤ l.index_size) :
    ∃ v l', l.choose p = some (v, l') ∧
      l.elems[p - 1]? = some v ∧
      l'.elems = l.elems.eraseIdx (p - 1) ∧
      l'.index_size = l.index_size - 1 ∧
      l'.pseudo_size = l.pseudo_size - 1 ∧
      l'.original_size = l.original_size ∧
      l'.Inv := by
  obtain ⟨os, isz, psz, imp⟩ := l
  cases imp with
  | small base flags =>
    have hInv' : os = flags.length
        ∧ isz = ((elemsSmall base flags).length : Int) := hInv
    obtain ⟨horig, hsz⟩ := hInv'
    simp only at h2
    have hp : p ≤ (elemsSmall base flags).length := by omega
    obtain ⟨fs', hscan, helems, hlen⟩ :=
      chooseSmallScan_spec flags base 0 p h1 (by rw [Nat.add_zero]; exact hp)
    rw [Nat.add_zero] at hscan helems
    have hplt : p - 1 < (elemsSmall base flags).length := by omega
    have hrun : IndexList.choose ⟨os, isz, psz, .small base flags⟩ p
        = some ((elemsSmall base flags).getD (p - 1) 0,
            ⟨os, isz - 1, psz - 1, .small base fs'⟩) := by
      unfold IndexList.choose
      rw [if_neg (by simp only []; omega)]
      simp only [hscan]
    refine ⟨_, _, hrun, ?_, ?_, rfl, rfl, rfl, ?_⟩
    · show (elemsSmall base flags)[p - 1]? = _
      rw [List.getElem?_eq_getElem hplt, List.getD_eq_getElem _ _ hplt]
    · show elemsSmall base fs' = (elemsSmall base flags).eraseIdx (p - 1)
      exact helems
    · refine ⟨by simp only []; omega, ?_⟩
      show isz - 1 = ((elemsSmall base fs').length : Int)
      rw [helems, List.length_eraseIdx, if_pos hplt]
      omega
  | large nodes =>
    obtain ⟨t, I, hdec, hnd, hwf, hsz⟩ := hInv
    simp only at h2 hsz
    have hts : p ≤ t.tsize := by omega
    have hfuel : t.height ≤ nodes.length :=
      le_trans hdec.height_le (hdec.card_le hnd)
    obtain ⟨ns', I', hrun, hdec', hnd', hlen', hsub', hframe'⟩ :=
      chooseLarge_sim p nodes.length hdec hnd hwf h1 hts hfuel
    obtain ⟨hget, helems, hwf', hbase'⟩ := ITree.chooseAt_spec hwf p h1 hts
    have hrun2 : IndexList.choose ⟨os, isz, psz, .large nodes⟩ p
        = some ((t.chooseAt p).1, ⟨os, isz - 1, psz - 1, .large ns'⟩) := by
      unfold IndexList.choose
      rw [if_neg (by simp only []; omega)]
      simp only [hrun]
    refine ⟨_, _, hrun2, ?_, ?_, rfl, rfl, rfl, ?_⟩
    · show (subtreeElems nodes.length nodes 0)[p - 1]? = _
      rw [elems_large_eq hdec hnd (le_refl _)]
      exact hget
    · show subtreeElems ns'.length ns' 0
        = (subtreeElems nodes.length nodes 0).eraseIdx (p - 1)
      rw [elems_large_eq hdec hnd (le_refl _),
        elems_large_eq hdec' hnd' (le_refl _), helems]
    · refine ⟨(t.chooseAt p).2, I', hdec', hnd', hwf', ?_⟩
      show isz - 1 = _
      rw [ITree.chooseAt_tsize hwf p h1 hts]
      omega

theorem remove_small_step (os : Nat) (isz psz : Int) (base : Nat)
    (flags : List Bool) (v : Nat) :
    IndexList.remove ⟨os, isz, psz, .small base flags⟩ v =
      (if v < base ∨ v ≥ base + os then
        some ⟨os, isz, psz - 1, .small base flags⟩
      else
        match flags.get? (v - base) with
        | none => none
        | some f =>
          if f = false then
            some ⟨os, isz - 1, psz - 1, .small base (flags.set (v - base) true)⟩
          else some ⟨os, isz, psz - 1, .small base flags⟩) := rfl

theorem remove_large_step (os : Nat) (isz psz : Int)
    (nodes : List IntervalNode) (v : Nat) :
    IndexList.remove ⟨os, isz, psz, .large nodes⟩ v =
      (match removeLarge nodes.length nodes 0 [] v with
       | none => none
       | some (nodes', removed) =>
         if removed then some ⟨os, isz - 1, psz - 1, .large nodes'⟩
         else some ⟨os, isz, psz - 1, .large nodes'⟩) := rfl

theorem IndexList.remove_spec  (l : IndexList) (hInv : l.Inv) (v : Nat) :
    ∃ l', l.remove v = some l' ∧
      l'.pseudo_size = l.pseudo_size - 1 ∧
      l'.original_size = l.original_size ∧
      l'.Inv ∧
      (v ∈ l.elems → l'.elems = l.elems.erase v ∧
        l'.index_size = l.index_size - 1) ∧
      (v ∉ l.elems → l' = { l with pseudo_size := l.pseudo_size - 1 }) := by
  obtain ⟨os, isz, psz, imp⟩ := l
  cases imp with
  | small base flags =>
    have hInv' : os = flags.length
        ∧ isz = ((elemsSmall base flags).length : Int) := hInv
    obtain ⟨horig, hsz⟩ := hInv'
    have hmem := elemsSmall_mem_flag flags base v
    by_cases hout : v < base ∨ v ≥ base + os
    · have hrun : IndexList.remove ⟨os, isz, psz, .small base flags⟩ v
          = some ⟨os, isz, psz - 1, .small base flags⟩ := by
        rw [remove_small_step, if_pos hout]
      have hnm : v ∉ elemsSmall base flags := by
        intro hc
        have := hmem.mp hc
        omega
      exact ⟨_, hrun, rfl, rfl, hInv, fun hc => absurd hc hnm, fun _ => rfl⟩
    · push_neg at hout
      have hofflt : v - base < flags.length := by omega
      have hget : flags.get? (v - base) = some (flags.getD (v - base) true) := by
        rw [List.get?_eq_getElem?, List.getElem?_eq_getElem hofflt,
          List.getD_eq_getElem _ _ hofflt]
      by_cases hflag : flags.getD (v - base) true = false
      · have hv : v ∈ elemsSmall base flags := hmem.mpr ⟨by omega, by omega, hflag⟩
        have hlenpos : 1 ≤ (elemsSmall base flags).length :=
          List.length_pos_of_mem hv
        have hrun : IndexList.remove ⟨os, isz, psz, .small base flags⟩ v
            = some ⟨os, isz - 1, psz - 1,
                .small base (flags.set (v - base) true)⟩ := by
          rw [remove_small_step, if_neg (by omega)]
          simp only [hget]
          rw [if_pos hflag]
        have helems : elemsSmall base (flags.set (v - base) true)
            = (elemsSmall base flags).erase v := by
          rw [elemsSmall_set_true flags (v - base) base hofflt hflag,
            show base + (v - base) = v from by omega]
        refine ⟨_, hrun, rfl, ?_, ?_, ?_, ?_⟩
        · show os = _
          simp [horig]
        · refine ⟨by simp [horig], ?_⟩
          show isz - 1 = ((elemsSmall base (flags.set (v - base) true)).length : Int)
          rw [helems, List.length_erase_of_mem hv]
          omega
        · intro _
          exact ⟨helems, rfl⟩
        · intro hc
          exact absurd hv hc
      · have hnm : v ∉ elemsSmall base flags := by
          intro hc
          exact hflag (hmem.mp hc).2.2
        have hrun : IndexList.remove ⟨os, isz, psz, .small base flags⟩ v
            = some ⟨os, isz, psz - 1, .small base flags⟩ := by
          rw [remove_small_step, if_neg (by omega)]
          simp only [hget]
          rw [if_neg hflag]
        exact ⟨_, hrun, rfl, rfl, hInv, fun hc => absurd hc hnm, fun _ => rfl⟩
  | large nodes =>
    obtain ⟨t, I, hdec, hnd, hwf, hsz⟩ := hInv
    simp only at hsz
    have hfuel : t.height ≤ nodes.length :=
      le_trans hdec.height_le (hdec.card_le hnd)
    have helemsl : (⟨os, isz, psz, .large nodes⟩ : IndexList).elems = t.elems :=
      elems_large_eq hdec hnd (le_refl _)
    obtain ⟨simn, simy⟩ := removeLarge_sim v nodes.length [] hdec hnd hwf hfuel
      (by simp) (by simp)
    by_cases hv : v ∈ t.elems
    · obtain ⟨ns', I', hrun, hdec', hnd', hlen', hsub', hframe'⟩ := simy hv
      have hlenpos : 1 ≤ t.tsize := List.length_pos_of_mem hv
      obtain ⟨-, herase, hwf', -⟩ := ITree.removeAt_mem_spec hwf hv
      have hrun2 : IndexList.remove ⟨os, isz, psz, .large nodes⟩ v
          = some ⟨os, isz - 1, psz - 1, .large ns'⟩ := by
        rw [remove_large_step]
        simp only [hrun]
        rfl
      refine ⟨_, hrun2, rfl, rfl, ?_, ?_, ?_⟩
      · refine ⟨(t.removeAt v).1, I', hdec', hnd', hwf', ?_⟩
        show isz - 1 = _
        rw [ITree.removeAt_tsize hwf hv]
        omega
      · intro _
        refine ⟨?_, rfl⟩
        show subtreeElems ns'.length ns' 0
            = (⟨os, isz, psz, .large nodes⟩ : IndexList).elems.erase v
        rw [helemsl, elems_large_eq hdec' hnd' (le_refl _), herase]
      · intro hc
        rw [helemsl] at hc
        exact absurd hv hc
    · have hrun0 := simn hv
      have hrun2 : IndexList.remove ⟨os, isz, psz, .large nodes⟩ v
          = some ⟨os, isz, psz - 1, .large nodes⟩ := by
        rw [remove_large_step]
        simp only [hrun0]
        rfl
      refine ⟨_, hrun2, rfl, rfl, ⟨t, I, hdec, hnd, hwf, hsz⟩, ?_, fun _ => rfl⟩
      intro hc
      rw [helemsl] at hc
      exact absurd hc hv

/-! ### Sequences of operations and the abstract ordered-set semantics -/

theorem IndexList.inv_index_size {l : IndexList} (hInv : l.Inv) :
    l.index_size = (l.elems.length : Int) := by
  obtain ⟨os, isz, psz, imp⟩ := l
  cases imp with
  | small base flags => exact hInv.2
  | large nodes =>
    obtain ⟨t, I, hdec, hnd, hwf, hsz⟩ := hInv
    show isz = ((subtreeElems nodes.length nodes 0).length : Int)
    rw [elems_large_eq hdec hnd (le_refl _)]
    exact hsz

theorem IndexList.inv_sorted {l : IndexList} (hInv : l.Inv) :
    l.elems.Sorted (· < ·) := by
  obtain ⟨os, isz, psz, imp⟩ := l
  cases imp with
  | small base flags => exact elemsSmall_sorted flags base
  | large nodes =>
    obtain ⟨t, I, hdec, hnd, hwf, hsz⟩ := hInv
    show (subtreeElems nodes.length nodes 0).Sorted (· < ·)
    rw [elems_large_eq hdec hnd (le_refl _)]
    exact ITree.elems_sorted hwf

/-- A public-interface operation on an `IndexList`. -/
inductive IdxOp where
  | choose (p : Nat)
  | remove (v : Nat)
deriving DecidableEq

/-- Apply one operation (keeping only the state). -/
def IndexList.applyOp (l : IndexList) : IdxOp → Option IndexList
  | .choose p => (l.choose p).map Prod.snd
  | .remove v => l.remove v

/-- Apply a sequence of operations. -/
def IndexList.applyOps (l : IndexList) : List IdxOp → Option IndexList
  | [] => some l
  | op :: ops =>
    match l.applyOp op with
    | some l2 => l2.applyOps ops
    | none => none

/-- Modelled from the spec: the effect of one operation on the abstract
ordered set of present integers (`choose p` deletes the `p`-th smallest when
the position is valid, `remove v` deletes `v` when present). -/
def absApply (xs : List Nat) : IdxOp → List Nat
  | .choose p => if 1 ≤ p ∧ p ≤ xs.length then xs.eraseIdx (p - 1) else xs
  | .remove v => xs.erase v

theorem IndexList.applyOp_spec (l : IndexList) (hInv : l.Inv) (op : IdxOp) :
    ∃ l', l.applyOp op = some l' ∧ l'.Inv ∧
      l'.elems = absApply l.elems op ∧
      l'.original_size = l.original_size := by
  cases op with
  | choose p =>
    by_cases hvalid : 1 ≤ p ∧ (p : Int) ≤ l.index_size
    · obtain ⟨v, l', hrun, _, helems, _, _, horig, hinv'⟩ :=
        l.choose_spec hInv p hvalid.1 hvalid.2
      refine ⟨l', ?_, hinv', ?_, horig⟩
      · show (l.choose p).map Prod.snd = some l'
        rw [hrun]
        rfl
      · rw [helems]
        show _ = if 1 ≤ p ∧ p ≤ l.elems.length then _ else _
        rw [if_pos ⟨hvalid.1, by
          have := l.inv_index_size hInv
          omega⟩]
    · have hinv : p < 1 ∨ (p : Int) > l.index_size := by
        by_contra hc
        push_neg at hc
        exact hvalid ⟨by omega, hc.2⟩
      refine ⟨l, ?_, hInv, ?_, rfl⟩
      · show (l.choose p).map Prod.snd = some l
        rw [l.choose_invalid p hinv]
        rfl
      · show l.elems = if 1 ≤ p ∧ p ≤ l.elems.length then _ else _
        rw [if_neg (by
          have := l.inv_index_size hInv
          intro hc
          exact hvalid ⟨hc.1, by omega⟩)]
  | remove v =>
    obtain ⟨l', hrun, _, horig, hinv', hmem, hnmem⟩ := l.remove_spec hInv v
    refine ⟨l', hrun, hinv', ?_, horig⟩
    by_cases hv : v ∈ l.elems
    · exact (hmem hv).1
    · rw [hnmem hv]
      show l.elems = l.elems.erase v
      rw [List.erase_of_not_mem hv]

theorem IndexList.applyOps_spec (ops : List IdxOp) : ∀ (l : IndexList), l.Inv →
    ∃ l', l.applyOps ops = some l' ∧ l'.Inv ∧
      l'.elems = ops.foldl absApply l.elems ∧
      l'.original_size = l.original_size := by
  induction ops with
  | nil => intro l hInv; exact ⟨l, rfl, hInv, rfl, rfl⟩
  | cons op ops ih =>
    intro l hInv
    obtain ⟨l2, hstep, hinv2, helems2, horig2⟩ := l.applyOp_spec hInv op
    obtain ⟨l', hrest, hinv', helems', horig'⟩ := ih l2 hinv2
    refine ⟨l', ?_, hinv', ?_, horig'.trans horig2⟩
    · show (match l.applyOp op with
        | some l2 => l2.applyOps ops
        | none => none) = some l'
      rw [hstep]
      exact hrest
    · rw [helems', helems2]
      rfl

/-- C8: For every `IndexList` and every position `p` with `p < 1` or
`p > size()`, `choose(p)` returns the sentinel value 0 and leaves `size()`,
`pseudo_size()`, and the set of present elements completely unchanged (the
whole state is returned untouched). -/
theorem c8_choose_out_of_range (l : IndexList) (p : Nat)
    (h : p < 1 ∨ (p : Int) > l.index_size) :
    l.choose p = some (0, l) :=
  l.choose_invalid p h

/-- Witness for C8 at a concrete input. -/
theorem c8_choose_out_of_range_witness :
    ((0 : Nat) < 1 ∨ ((0 : Nat) : Int) > (⟨5, 5, 5,
        .small 1 (List.replicate 5 false)⟩ : IndexList).index_size) ∧
      (⟨5, 5, 5, .small 1 (List.replicate 5 false)⟩ : IndexList).choose 0
        = some (0, ⟨5, 5, 5, .small 1 (List.replicate 5 false)⟩) :=
  ⟨Or.inl (by decide),
    c8_choose_out_of_range ⟨5, 5, 5, .small 1 (List.replicate 5 false)⟩ 0
      (Or.inl (by decide))⟩

/-- C3: For every `IndexList` built by `new(from, to)` with
`1 ≤ from ≤ to` and mutated by any sequence of choose/remove operations, and
for every position `p` with `1 ≤ p ≤ size()`: `choose(p)` returns the `p`-th
smallest currently-present integer (the present set is the abstract replay
of the operations on `[from, to]`, kept sorted), removes it from the set,
and decrements both `size()` and `pseudo_size()` by exactly one.  The
statement covers both representations: `new` picks the flag array for spans
of at most 100 and the interval tree otherwise. -/
theorem c3_choose_kth_smallest (from_ to_ : Nat) (ops : List IdxOp)
    (l0 l : IndexList) (p : Nat)
    (h1 : 1 ≤ from_) (h2 : from_ ≤ to_)
    (hnew : IndexList.new from_ to_ = some l0)
    (hops : l0.applyOps ops = some l)
    (hp1 : 1 ≤ p) (hp2 : (p : Int) ≤ l.index_size) :
    ∃ v l', l.choose p = some (v, l') ∧
      l.elems = ops.foldl absApply (List.range' from_ (to_ - from_ + 1)) ∧
      l.elems.Sorted (· < ·) ∧
      l.elems[p - 1]? = some v ∧
      l'.elems = l.elems.eraseIdx (p - 1) ∧
      l'.index_size = l.index_size - 1 ∧
      l'.pseudo_size = l.pseudo_size - 1 := by
  obtain ⟨l0', hnew', hinv0, helems0, _, _, _⟩ := IndexList.new_spec from_ to_ h1 h2
  rw [hnew'] at hnew
  injection hnew with hnew
  subst hnew
  obtain ⟨l1, hops', hinv1, helems1, _⟩ := IndexList.applyOps_spec ops _ hinv0
  rw [hops'] at hops
  injection hops with hops
  subst hops
  obtain ⟨v, l', hrun, hget, helems', hsz', hpsz', _, _⟩ :=
    IndexList.choose_spec _ hinv1 p hp1 hp2
  exact ⟨v, l', hrun, by rw [helems1, helems0], IndexList.inv_sorted hinv1, hget,
    helems', hsz', hpsz'⟩

/-- The initial list for the C3/C6 witnesses: the interval tree over
`[1, 200]`. -/
def c3l0 : IndexList := ⟨200, 200, 200, .large [⟨1, 200, none⟩]⟩

/-- State of `c3l0` after removing 100. -/
def c3l : IndexList := (c3l0.applyOps [.remove 100]).getD c3l0

/-- Witness for C3: on `IndexList::new(1, 200)` after `remove(100)`,
position 100 yields 101. -/
theorem c3_choose_kth_smallest_witness :
    (1 ≤ 1 ∧ 1 ≤ 200 ∧ IndexList.new 1 200 = some c3l0 ∧
      c3l0.applyOps [.remove 100] = some c3l ∧
      1 ≤ 100 ∧ ((100 : Nat) : Int) ≤ c3l.index_size) ∧
    (∃ v l', c3l.choose 100 = some (v, l') ∧
      c3l.elems = [IdxOp.remove 100].foldl absApply (List.range' 1 200) ∧
      c3l.elems.Sorted (· < ·) ∧
      c3l.elems[100 - 1]? = some v ∧
      l'.elems = c3l.elems.eraseIdx (100 - 1) ∧
      l'.index_size = c3l.index_size - 1 ∧
      l'.pseudo_size = c3l.pseudo_size - 1) :=
  ⟨⟨by decide, by decide, by decide, by decide, by decide, by decide⟩,
    c3_choose_kth_smallest 1 200 [.remove 100] c3l0 c3l 100
      (by decide) (by decide) (by decide) (by decide) (by decide) (by decide)⟩

/-- C6: For every reachable `IndexList` with `pseudo_size() ≥ 1` and every
integer `v`: `remove(v)` decrements `pseudo_size()` by exactly one whether or
not `v` is present; if `v` is present it is removed and `size()` drops by
one; if `v` is absent the state is unchanged except for `pseudo_size` (in
the tree representation the ancestor counts decremented during the descent
are restored exactly). -/
theorem c6_remove_pseudo_size (from_ to_ : Nat) (ops : List IdxOp)
    (l0 l : IndexList) (v : Nat)
    (h1 : 1 ≤ from_) (h2 : from_ ≤ to_)
    (hnew : IndexList.new from_ to_ = some l0)
    (hops : l0.applyOps ops = some l)
    (hps : 1 ≤ l.pseudo_size) :
    ∃ l', l.remove v = some l' ∧
      l'.pseudo_size = l.pseudo_size - 1 ∧
      (v ∈ l.elems → l'.elems = l.elems.erase v ∧
        l'.index_size = l.index_size - 1) ∧
      (v ∉ l.elems → l' = { l with pseudo_size := l.pseudo_size - 1 }) := by
  obtain ⟨l0', hnew', hinv0, _, _, _, _⟩ := IndexList.new_spec from_ to_ h1 h2
  rw [hnew'] at hnew
  injection hnew with hnew
  subst hnew
  obtain ⟨l1, hops', hinv1, _, _⟩ := IndexList.applyOps_spec ops _ hinv0
  rw [hops'] at hops
  injection hops with hops
  subst hops
  obtain ⟨l', hrun, hpsz', _, _, hmem, hnmem⟩ := IndexList.remove_spec _ hinv1 v
  exact ⟨l', hrun, hpsz', hmem, hnmem⟩

/-- Witness for C6: removing the absent value 300 from the tree over
`[1, 200]` after one prior removal only decrements `pseudo_size`. -/
theorem c6_remove_pseudo_size_witness :
    (1 ≤ 1 ∧ 1 ≤ 200 ∧ IndexList.new 1 200 = some c3l0 ∧
      c3l0.applyOps [.remove 100] = some c3l ∧ 1 ≤ c3l.pseudo_size) ∧
    (∃ l', c3l.remove 300 = some l' ∧
      l'.pseudo_size = c3l.pseudo_size - 1 ∧
      (300 ∈ c3l.elems → l'.elems = c3l.elems.erase 300 ∧
        l'.index_size = c3l.index_size - 1) ∧
      (300 ∉ c3l.elems → l' = { c3l with pseudo_size := c3l.pseudo_size - 1 })) :=
  ⟨⟨by decide, by decide, by decide, by decide, by decide⟩,
    c6_remove_pseudo_size 1 200 [.remove 100] c3l0 c3l 300
      (by decide) (by decide) (by decide) (by decide) (by decide)⟩

/-! ### Observational equivalence of the two representations (C10) -/

/-- The flag-array branch of `IndexList::new`, forced regardless of span. -/
def IndexList.newSmall (from_ to_ : Nat) : Option IndexList :=
  if from_ ≥ 1 ∧ from_ ≤ to_ then
    let size := to_ - from_ + 1
    some ⟨size, (size : Int), (size : Int),
      .small from_ (List.replicate size false)⟩
  else none

/-- The interval-tree branch of `IndexList::new`, forced regardless of span. -/
def IndexList.newLarge (from_ to_ : Nat) : Option IndexList :=
  if from_ ≥ 1 ∧ from_ ≤ to_ then
    let size := to_ - from_ + 1
    some ⟨size, (size : Int), (size : Int),
      .large [⟨from_, (size : Int), none⟩]⟩
  else none

/-- One observed step: the value returned by the operation (`remove` returns
nothing, recorded as 0). -/
def obsStep (l : IndexList) : IdxOp → Option (Nat × IndexList)
  | .choose p => l.choose p
  | .remove v => (l.remove v).map (fun l2 => (0, l2))

/-- The full observation trace of a sequence of operations: after each
operation, the returned value together with `size()` and `pseudo_size()`. -/
def IndexList.trace (l : IndexList) : List IdxOp → Option (List (Nat × Int × Int))
  | [] => some []
  | op :: ops =>
    match obsStep l op with
    | none => none
    | some (v, l2) =>
      match l2.trace ops with
      | none => none
      | some rest => some ((v, l2.index_size, l2.pseudo_size) :: rest)

/-- Modelled from the spec: the abstract ordered-set semantics of the index
list.  The state is the sorted list of present integers plus the pseudo-size
counter; `choose p` removes and returns the `p`-th smallest when `p` is
valid (otherwise returns the sentinel 0 and changes nothing), `remove v`
deletes `v` when present and always decrements the pseudo-size. -/
def absTrace (xs : List Nat) (psz : Int) : List IdxOp → List (Nat × Int × Int)
  | [] => []
  | .choose p :: ops =>
    if 1 ≤ p ∧ p ≤ xs.length then
      (xs.getD (p - 1) 0, (xs.length : Int) - 1, psz - 1) ::
        absTrace (xs.eraseIdx (p - 1)) (psz - 1) ops
    else
      (0, (xs.length : Int), psz) :: absTrace xs psz ops
  | .remove v :: ops =>
    if v ∈ xs then
      (0, (xs.length : Int) - 1, psz - 1) :: absTrace (xs.erase v) (psz - 1) ops
    else
      (0, (xs.length : Int), psz - 1) :: absTrace xs (psz - 1) ops

theorem IndexList.trace_abs (ops : List IdxOp) : ∀ (l : IndexList), l.Inv →
    l.trace ops = some (absTrace l.elems l.pseudo_size ops) := by
  induction ops with
  | nil => intro l _; rfl
  | cons op ops ih =>
    intro l hInv
    have hsz := l.inv_index_size hInv
    cases op with
    | choose p =>
      by_cases hvalid : 1 ≤ p ∧ p ≤ l.elems.length
      · obtain ⟨v, l', hrun, hget, helems', hsz', hpsz', _, hinv'⟩ :=
          IndexList.choose_spec l hInv p hvalid.1 (by omega)
        have hplt : p - 1 < l.elems.length := by omega
        show (match obsStep l (.choose p) with
          | none => none
          | some (v, l2) =>
            match l2.trace ops with
            | none => none
            | some rest => some ((v, l2.index_size, l2.pseudo_size) :: rest)) = _
        show (match l.choose p with
          | none => none
          | some (v, l2) =>
            match l2.trace ops with
            | none => none
            | some rest => some ((v, l2.index_size, l2.pseudo_size) :: rest)) = _
        rw [hrun]
        show (match l'.trace ops with
          | none => none
          | some rest => some ((v, l'.index_size, l'.pseudo_size) :: rest)) = _
        rw [ih l' hinv']
        show some ((v, l'.index_size, l'.pseudo_size) :: _) = _
        rw [show absTrace l.elems l.pseudo_size (.choose p :: ops)
            = (l.elems.getD (p - 1) 0, (l.elems.length : Int) - 1,
                l.pseudo_size - 1) ::
              absTrace (l.elems.eraseIdx (p - 1)) (l.pseudo_size - 1) ops
          from by rw [absTrace, if_pos hvalid]]
        have hv : l.elems.getD (p - 1) 0 = v := by
          rw [List.getD_eq_getElem _ _ hplt]
          have := hget
          rw [List.getElem?_eq_getElem hplt] at this
          injection this
        rw [hv, hsz', hpsz', hsz, helems']
      · have hinval : p < 1 ∨ (p : Int) > l.index_size := by
          by_contra hc
          push_neg at hc
          exact hvalid ⟨by omega, by omega⟩
        show (match l.choose p with
          | none => none
          | some (v, l2) =>
            match l2.trace ops with
            | none => none
            | some rest => some ((v, l2.index_size, l2.pseudo_size) :: rest)) = _
        rw [l.choose_invalid p hinval]
        show (match l.trace ops with
          | none => none
          | some rest => some ((0, l.index_size, l.pseudo_size) :: rest)) = _
        rw [ih l hInv]
        show some ((0, l.index_size, l.pseudo_size) :: _) = _
        rw [show absTrace l.elems l.pseudo_size (.choose p :: ops)
            = (0, (l.elems.length : Int), l.pseudo_size) ::
              absTrace l.elems l.pseudo_size ops
          from by rw [absTrace, if_neg hvalid], hsz]
    | remove v =>
      obtain ⟨l', hrun, hpsz', _, hinv', hmem, hnmem⟩ :=
        IndexList.remove_spec l hInv v
      show (match (l.remove v).map (fun l2 => (0, l2)) with
        | none => none
        | some (v, l2) =>
          match l2.trace ops with
          | none => none
          | some rest => some ((v, l2.index_size, l2.pseudo_size) :: rest)) = _
      rw [hrun]
      show (match l'.trace ops with
        | none => none
        | some rest => some ((0, l'.index_size, l'.pseudo_size) :: rest)) = _
      rw [ih l' hinv']
      by_cases hv : v ∈ l.elems
      · obtain ⟨helems', hsz'⟩ := hmem hv
        rw [show absTrace l.elems l.pseudo_size (.remove v :: ops)
            = (0, (l.elems.length : Int) - 1, l.pseudo_size - 1) ::
              absTrace (l.elems.erase v) (l.pseudo_size - 1) ops
          from by rw [absTrace, if_pos hv]]
        rw [hsz', hpsz', hsz, helems']
      · have hl' : l' = { l with pseudo_size := l.pseudo_size - 1 } := hnmem hv
        rw [show absTrace l.elems l.pseudo_size (.remove v :: ops)
            = (0, (l.elems.length : Int), l.pseudo_size - 1) ::
              absTrace l.elems (l.pseudo_size - 1) ops
          from by rw [absTrace, if_neg hv]]
        rw [hl']
        show some ((0, l.index_size, l.pseudo_size - 1) :: _) = _
        rw [hsz]
        show some ((0, _, _) :: absTrace ({ l with
          pseudo_size := l.pseudo_size - 1} : IndexList).elems
            (l.pseudo_size - 1) ops) = _
        rfl

/-- C10: the flag-array and interval-tree representations are
observationally equivalent: for every range `1 ≤ from ≤ to` and every
operation sequence, the trace of returned values and of `size()` /
`pseudo_size()` after each step is the same for both representations and
equals the abstract ordered-set semantics `absTrace`; the representation is
unobservable through the public interface. -/
theorem c10_representations_equivalent (from_ to_ : Nat) (ops : List IdxOp)
    (h1 : 1 ≤ from_) (h2 : from_ ≤ to_) :
    ∃ ls ll, IndexList.newSmall from_ to_ = some ls ∧
      IndexList.newLarge from_ to_ = some ll ∧
      ls.trace ops = some (absTrace (List.range' from_ (to_ - from_ + 1))
        ((to_ - from_ + 1 : Nat) : Int) ops) ∧
      ll.trace ops = ls.trace ops := by
  have hsmall : IndexList.newSmall from_ to_
      = some ⟨to_ - from_ + 1, ((to_ - from_ + 1 : Nat) : Int),
          ((to_ - from_ + 1 : Nat) : Int),
          .small from_ (List.replicate (to_ - from_ + 1) false)⟩ := by
    unfold IndexList.newSmall
    rw [if_pos ⟨h1, h2⟩]
  have hlarge : IndexList.newLarge from_ to_
      = some ⟨to_ - from_ + 1, ((to_ - from_ + 1 : Nat) : Int),
          ((to_ - from_ + 1 : Nat) : Int),
          .large [⟨from_, ((to_ - from_ + 1 : Nat) : Int), none⟩]⟩ := by
    unfold IndexList.newLarge
    rw [if_pos ⟨h1, h2⟩]
  have hinvS : (⟨to_ - from_ + 1, ((to_ - from_ + 1 : Nat) : Int),
      ((to_ - from_ + 1 : Nat) : Int),
      .small from_ (List.replicate (to_ - from_ + 1) false)⟩ : IndexList).Inv := by
    refine ⟨by simp, ?_⟩
    show ((to_ - from_ + 1 : Nat) : Int) = _
    rw [elemsSmall_replicate (to_ - from_ + 1) from_]
    simp
  have hdec : Decodes
      [(⟨from_, ((to_ - from_ + 1 : Nat) : Int), none⟩ : IntervalNode)] 0
      (.leaf from_ (to_ - from_ + 1)) [0] := .leaf (by simp) rfl
  have hinvL : (⟨to_ - from_ + 1, ((to_ - from_ + 1 : Nat) : Int),
      ((to_ - from_ + 1 : Nat) : Int),
      .large [⟨from_, ((to_ - from_ + 1 : Nat) : Int), none⟩]⟩ : IndexList).Inv := by
    refine ⟨.leaf from_ (to_ - from_ + 1), [0], hdec, by simp, trivial, ?_⟩
    rw [ITree.tsize_leaf]
  have helemsS : (⟨to_ - from_ + 1, ((to_ - from_ + 1 : Nat) : Int),
      ((to_ - from_ + 1 : Nat) : Int),
      .small from_ (List.replicate (to_ - from_ + 1) false)⟩ : IndexList).elems
      = List.range' from_ (to_ - from_ + 1) := by
    show elemsSmall from_ (List.replicate (to_ - from_ + 1) false) = _
    rw [elemsSmall_replicate (to_ - from_ + 1) from_]
  have helemsL : (⟨to_ - from_ + 1, ((to_ - from_ + 1 : Nat) : Int),
      ((to_ - from_ + 1 : Nat) : Int),
      .large [⟨from_, ((to_ - from_ + 1 : Nat) : Int), none⟩]⟩ : IndexList).elems
      = List.range' from_ (to_ - from_ + 1) := by
    show subtreeElems _ _ 0 = _
    rw [elems_large_eq hdec (by simp) (by simp)]
    rfl
  refine ⟨_, _, hsmall, hlarge, ?_, ?_⟩
  · rw [IndexList.trace_abs ops _ hinvS, helemsS]
  · rw [IndexList.trace_abs ops _ hinvL, helemsL,
      IndexList.trace_abs ops _ hinvS, helemsS]

/-- Witness for C10 at a concrete range and operation sequence. -/
theorem c10_representations_equivalent_witness :
    (1 ≤ 1 ∧ (1 : Nat) ≤ 7) ∧
    (∃ ls ll, IndexList.newSmall 1 7 = some ls ∧
      IndexList.newLarge 1 7 = some ll ∧
      ls.trace [.choose 3, .remove 5, .remove 9, .choose 4]
        = some (absTrace (List.range' 1 (7 - 1 + 1)) ((7 - 1 + 1 : Nat) : Int)
            [.choose 3, .remove 5, .remove 9, .choose 4]) ∧
      ll.trace [.choose 3, .remove 5, .remove 9, .choose 4]
        = ls.trace [.choose 3, .remove 5, .remove 9, .choose 4]) :=
  ⟨⟨by decide, by decide⟩,
    c10_representations_equivalent 1 7 [.choose 3, .remove 5, .remove 9, .choose 4]
      (by decide) (by decide)⟩

/-! ## `src/netgen.rs`: the generator

The two computations the source performs in `f64` (the `sinks_per_source`
estimate and the feasibility comparison inside `pick_head` — the "BCJL
overflow fix") are abstracted as an oracle parameter `FloatOracle`; every
theorem below holds for all oracles, hence for the actual floating-point
functions.  Loops without a structural bound take fuel; running out of fuel
is `none` (`stuck`), like a panic. -/

/-- `x as usize` on an `i64` value: reduction modulo `2^64`. -/
def intToUsize (x : Int) : Nat := (x % 2 ^ 64).toNat

/-- Checked `usize` subtraction (overflow panics in the source's debug
semantics). -/
def subUsize (a b : Nat) : Option Nat := if b ≤ a then some (a - b) else none

/-- `Arc` from `src/lib.rs`. -/
structure Arc where
  from_ : Nat
  to_ : Nat
  cost : Int
  capacity : Int
deriving DecidableEq

/-- `NetgenResult` from `src/lib.rs`. -/
structure NetgenResult where
  arcs : List Arc
  supply : List Int
deriving DecidableEq

/-- `NetgenError` from `src/lib.rs`. -/
inductive NetgenError where
  | badSeed
  | tooBig
  | badParms
  | allocationFailure
deriving DecidableEq

/-- Outcome of a `netgen` run: a typed error, a modeled panic / exhausted
fuel (`stuck`), or a result. -/
inductive GenOut where
  | fail (e : NetgenError)
  | stuck
  | done (r : NetgenResult)
deriving DecidableEq

/-- The two floating-point computations of the source, abstracted. -/
structure FloatOracle where
  sinksPerSource : Nat → Nat → Nat → Nat
  feasible : Int → Int → Int → Bool

/-- The generator's seed is kept nonnegative (established below for
`rngNext` and true of the initial positive seed). -/
def Seed := { x : Int // 0 ≤ x }

theorem rngNext_seed_nonneg (seed a b : Int) (h : 0 ≤ seed) :
    0 ≤ (rngNext seed a b).2 := by
  have e1 : 0 ≤ seed.ediv 65536 := Int.ediv_nonneg h (by norm_num)
  have e2 : 0 ≤ seed.emod 65536 := Int.emod_nonneg seed (by norm_num)
  have e3 : 0 ≤ MULTIPLIER * (seed.ediv 65536) :=
    mul_nonneg (by norm_num [MULTIPLIER]) e1
  have e4 : 0 ≤ (MULTIPLIER * (seed.emod 65536)).ediv 65536 :=
    Int.ediv_nonneg (mul_nonneg (by norm_num [MULTIPLIER]) e2) (by norm_num)
  have e5 : 0 ≤ (MULTIPLIER * (seed.ediv 65536)
      + (MULTIPLIER * (seed.emod 65536)).ediv 65536).ediv 32768 :=
    Int.ediv_nonneg (by omega) (by norm_num)
  have e6 : 0 ≤ (MULTIPLIER * (seed.emod 65536)).emod 65536 :=
    Int.emod_nonneg _ (by norm_num)
  have e7 : 0 ≤ (MULTIPLIER * (seed.ediv 65536)
      + (MULTIPLIER * (seed.emod 65536)).ediv 65536).emod 32768 :=
    Int.emod_nonneg _ (by norm_num)
  simp only [rngNext, MODULUS]
  split
  · simp only
    split <;> omega
  · simp only
    split <;> omega

/-- One seed-preserving draw. -/
def rngDraw (s : Seed) (a b : Int) : Int × Seed :=
  ((rngNext s.val a b).1,
    ⟨(rngNext s.val a b).2, rngNext_seed_nonneg s.val a b s.property⟩)

theorem rngDraw_range (s : Seed) (a b : Int) (h0 : 0 ≤ a) (hab : a ≤ b) :
    a ≤ (rngDraw s a b).1 ∧ (rngDraw s a b).1 ≤ b := by
  show a ≤ (rngNext s.val a b).1 ∧ (rngNext s.val a b).1 ≤ b
  have hs2 := rngNext_seed_nonneg s.val a b s.property
  by_cases hba : b ≤ a
  · have : (rngNext s.val a b).1 = b := by
      simp only [rngNext]
      rw [if_pos hba]
    omega
  · have hval : (rngNext s.val a b).1
        = a + (rngNext s.val a b).2.tmod (b - a + 1) := by
      simp only [rngNext]
      rw [if_neg hba]
  -- the advanced seed is the same value in both components
    have hmod : 0 ≤ (rngNext s.val a b).2.tmod (b - a + 1) ∧
        (rngNext s.val a b).2.tmod (b - a + 1) < b - a + 1 := by
      constructor
      · exact Int.tmod_nonneg _ (by omega)
      · exact Int.tmod_lt_of_pos _ (by omega)
    omega

theorem rngDraw_of_le (s : Seed) (a b : Int) (h : b ≤ a) :
    (rngDraw s a b).1 = b := by
  show (rngNext s.val a b).1 = b
  simp only [rngNext]
  rw [if_pos h]

/-- `usize as i64`: two's-complement reinterpretation of the low 64 bits. -/
def usizeToI64 (n : Nat) : Int :=
  if (n : Int) % 2 ^ 64 < 2 ^ 63 then (n : Int) % 2 ^ 64
  else (n : Int) % 2 ^ 64 - 2 ^ 64

/-- Bounds-checked write to a `Vec<usize>` (an out-of-bounds index panics). -/
def setN (l : List Nat) (i : Nat) (x : Nat) : Option (List Nat) :=
  if i < l.length then some (l.set i x) else none

/-- Bounds-checked write to a `Vec<i64>`. -/
def setI (l : List Int) (i : Nat) (x : Int) : Option (List Int) :=
  if i < l.length then some (l.set i x) else none

/-- Bounds-checked `l[i] += d` on a `Vec<i64>`. -/
def addAt (l : List Int) (i : Nat) (d : Int) : Option (List Int) :=
  match l.get? i with
  | none => none
  | some x => setI l i (x + d)

/-- Iterate a fallible step `n` times. -/
def iterOpt {α : Type} (f : α → Option α) : Nat → α → Option α
  | 0, st => some st
  | n + 1, st =>
    match f st with
    | none => none
    | some st1 => iterOpt f n st1

/-- The loop of `create_supply`: iteration `i` adds a random part of the
per-source share to `supply[i]` and the rest to a random source cell. -/
def createSupplyLoop (sources_u : Nat) (sps : Int) :
    Nat → Nat → Seed → List Int → Option (Seed × List Int)
  | 0, _, s, supply => some (s, supply)
  | n + 1, i, s, supply =>
    match rngDraw s 1 sps with
    | (part, s1) =>
      match addAt supply i part with
      | none => none
      | some supply1 =>
        match rngDraw s1 0 (usizeToI64 sources_u - 1) with
        | (j, s2) =>
          match addAt supply1 (intToUsize j) (sps - part) with
          | none => none
          | some supply2 => createSupplyLoop sources_u sps n (i + 1) s2 supply2

/-- `create_supply` from `src/netgen.rs` (`sources_u = 0` would be an `i64`
division by zero, a panic). -/
def create_supply (sources_u : Nat) (total_supply : Int) (s : Seed)
    (supply : List Int) : Option (Seed × List Int) :=
  if sources_u = 0 then none
  else
    let sps := total_supply.tdiv (usizeToI64 sources_u)
    match createSupplyLoop sources_u sps sources_u 0 s supply with
    | none => none
    | some (s1, supply1) =>
      match rngDraw s1 0 (usizeToI64 sources_u - 1) with
      | (k, s2) =>
        match addAt supply1 (intToUsize k)
            (total_supply.tmod (usizeToI64 sources_u)) with
        | none => none
        | some supply2 => some (s2, supply2)

/-- `pred[i] = i` for `i in 1..=sources_u` (counted recursion from `i`). -/
def initPred : Nat → Nat → List Nat → Option (List Nat)
  | 0, _, pred => some pred
  | n + 1, i, pred =>
    match setN pred i i with
    | none => none
    | some pred1 => initPred n (i + 1) pred1

/-- `threshold = (4 * transshipment + 9) / 10` from `src/netgen.rs`. -/
def skelThreshold (transshipment : Int) : Int := (4 * transshipment + 9).tdiv 10

/-- One iteration of the first skeleton loop: append a chosen transshipment
node to the current source's chain, then step the source round-robin. -/
def skel1Step (sources_u : Nat) (st : Seed × IndexList × List Nat × Nat) :
    Option (Seed × IndexList × List Nat × Nat) :=
  match st with
  | (s, handle, pred, source) =>
    match rngDraw s 1 handle.index_size with
    | (r, s1) =>
      match handle.choose (intToUsize r) with
      | none => none
      | some (node, handle1) =>
        match pred.get? source with
        | none => none
        | some ps =>
          match setN pred node ps with
          | none => none
          | some pred1 =>
            match setN pred1 source node with
            | none => none
            | some pred2 =>
              some (s1, handle1, pred2,
                if source + 1 > sources_u then 1 else source + 1)

/-- The first skeleton loop, on explicit gas (`(remaining - threshold).toNat`
at entry, exactly the iteration count of the `while` loop). -/
def skel1Go (sources_u : Nat) (threshold : Int) :
    Nat → Int → Seed × IndexList × List Nat × Nat →
    Option (Int × Seed × IndexList × List Nat × Nat)
  | 0, remaining, st =>
    if remaining > threshold then none else some (remaining, st)
  | gas + 1, remaining, st =>
    if remaining > threshold then
      match skel1Step sources_u st with
      | none => none
      | some st1 => skel1Go sources_u threshold gas (remaining - 1) st1
    else some (remaining, st)

/-- The first skeleton loop: `while remaining > threshold`, round-robin
sources.  Returns the final `remaining` alongside the state. -/
def skel1 (sources_u : Nat) (threshold remaining : Int)
    (st : Seed × IndexList × List Nat × Nat) :
    Option (Int × Seed × IndexList × List Nat × Nat) :=
  skel1Go sources_u threshold (remaining - threshold).toNat remaining st

/-- One iteration of the second skeleton loop: append a chosen transshipment
node to a uniformly random source's chain. -/
def skel2Step (sources : Int) (st : Seed × IndexList × List Nat) :
    Option (Seed × IndexList × List Nat) :=
  match st with
  | (s, handle, pred) =>
    match rngDraw s 1 handle.index_size with
    | (r, s1) =>
      match handle.choose (intToUsize r) with
      | none => none
      | some (node, handle1) =>
        match rngDraw s1 1 sources with
        | (src, s2) =>
          match pred.get? (intToUsize src) with
          | none => none
          | some ps =>
            match setN pred node ps with
            | none => none
            | some pred1 =>
              match setN pred1 (intToUsize src) node with
              | none => none
              | some pred2 => some (s2, handle1, pred2)

/-- The second skeleton loop, on explicit gas (`remaining.toNat` at entry). -/
def skel2Go (sources : Int) :
    Nat → Int → Seed × IndexList × List Nat →
    Option (Seed × IndexList × List Nat)
  | 0, remaining, st => if remaining > 0 then none else some st
  | gas + 1, remaining, st =>
    if remaining > 0 then
      match skel2Step sources st with
      | none => none
      | some st1 => skel2Go sources gas (remaining - 1) st1
    else some st

/-- The second skeleton loop: `while remaining > 0`, random sources. -/
def skel2 (sources : Int) (remaining : Int)
    (st : Seed × IndexList × List Nat) :
    Option (Seed × IndexList × List Nat) :=
  skel2Go sources remaining.toNat remaining st

/-- The chain walk filling `head_arr`/`tail_arr` for one source
(`while node != source`). -/
def chainWalk : Nat → List Nat → Nat → Nat → Nat → List Nat → List Nat →
    Option (Nat × List Nat × List Nat)
  | 0, _, _, _, _, _, _ => none
  | fuel + 1, pred, source, node, sort_count, head_arr, tail_arr =>
    if node = source then some (sort_count, head_arr, tail_arr)
    else
      match setN head_arr (sort_count + 1) node with
      | none => none
      | some head1 =>
        match pred.get? node with
        | none => none
        | some pn =>
          match setN tail_arr (sort_count + 1) pn with
          | none => none
          | some tail1 => chainWalk fuel pred source pn (sort_count + 1) head1 tail1

/-- The sink-selection loop: `sinks_per_source` draws from the sink window. -/
def pickSinks : Nat → Seed → IndexList → List Nat →
    Option (Seed × IndexList × List Nat)
  | 0, s, handle, acc => some (s, handle, acc)
  | n + 1, s, handle, acc =>
    match rngDraw s 1 handle.index_size with
    | (r, s1) =>
      match handle.choose (intToUsize r) with
      | none => none
      | some (v, handle1) => pickSinks n s1 handle1 (acc ++ [v])

/-- The absorption loop for the last source: drain the remaining sink window,
collecting the sinks whose supply is still zero. -/
def absorbSinks (supply : List Int) : Nat → IndexList → List Nat →
    Option (IndexList × List Nat)
  | 0, handle, acc => if handle.index_size > 0 then none else some (handle, acc)
  | fuel + 1, handle, acc =>
    if handle.index_size > 0 then
      match handle.choose 1 with
      | none => none
      | some (j, handle1) =>
        match supply.get? j with
        | none => none
        | some sj =>
          if sj = 0 then absorbSinks supply fuel handle1 (acc ++ [j])
          else absorbSinks supply fuel handle1 acc
    else some (handle, acc)

/-- `while steps > 0 { k = pred[k] }`. -/
def walkPred : Nat → List Nat → Nat → Option Nat
  | 0, _, k => some k
  | n + 1, pred, k =>
    match pred.get? k with
    | none => none
    | some k1 => walkPred n pred k1

/-- The supply-splitting loop over the chosen sinks (`for i in
0..actual_sinks`): each iteration records a skeleton entry and moves one
per-sink share of the source's supply onto two (possibly equal) sinks. -/
def splitSupply (actual_sinks chain_length : Nat) (sps : Int) (source : Nat)
    (sinks_vec pred : List Nat) :
    Nat → Nat → Nat → Nat → Seed → List Int → List Nat → List Nat →
    Option (Nat × Nat × Seed × List Int × List Nat × List Nat)
  | 0, _, sort_count, k, s, supply, head_arr, tail_arr =>
    some (sort_count, k, s, supply, head_arr, tail_arr)
  | n + 1, i, sort_count, k, s, supply, head_arr, tail_arr =>
    let d1 := rngDraw s 1 sps
    let d2 := rngDraw d1.2 0 (usizeToI64 actual_sinks - 1)
    (setN tail_arr (sort_count + 1) k).bind fun tail1 =>
    (sinks_vec.get? i).bind fun svi =>
    (setN head_arr (sort_count + 1) (svi + 1)).bind fun head1 =>
    (addAt supply svi (-d1.1)).bind fun supplyA =>
    (sinks_vec.get? (intToUsize d2.1)).bind fun svj =>
    (addAt supplyA svj (-(sps - d1.1))).bind fun supplyB =>
    let d3 := rngDraw d2.2 1 (usizeToI64 chain_length)
    (walkPred d3.1.toNat pred source).bind fun k2 =>
    splitSupply actual_sinks chain_length sps source sinks_vec pred
      n (i + 1) (sort_count + 1) k2 d3.2 supplyB head1 tail1

/-- The inner insertion walk of `sort_skeleton`
(`while i >= 1 && tail[i] > tail[i+m]`). -/
def sortInner : Nat → Nat → Int → List Nat → List Nat →
    Option (List Nat × List Nat)
  | 0, _, _, _, _ => none
  | fuel + 1, m, i, head_arr, tail_arr =>
    if 1 ≤ i then
      match tail_arr.get? i.toNat, tail_arr.get? (i.toNat + m) with
      | some a, some b =>
        if b < a then
          match setN tail_arr i.toNat b with
          | none => none
          | some t1 =>
            match setN t1 (i.toNat + m) a with
            | none => none
            | some t2 =>
              match head_arr.get? i.toNat, head_arr.get? (i.toNat + m) with
              | some ha, some hb =>
                match setN head_arr i.toNat hb with
                | none => none
                | some h1 =>
                  match setN h1 (i.toNat + m) ha with
                  | none => none
                  | some h2 => sortInner fuel m (i - (m : Int)) h2 t2
              | _, _ => none
        else some (head_arr, tail_arr)
      | _, _ => none
    else some (head_arr, tail_arr)

/-- The middle loop of `sort_skeleton` (`for j in 1..=k`). -/
def sortPass (fuel m : Nat) : Nat → Nat → List Nat → List Nat →
    Option (List Nat × List Nat)
  | 0, _, head_arr, tail_arr => some (head_arr, tail_arr)
  | n + 1, j, head_arr, tail_arr =>
    match sortInner fuel m (j : Int) head_arr tail_arr with
    | none => none
    | some (h1, t1) => sortPass fuel m n (j + 1) h1 t1

/-- The outer gap loop of `sort_skeleton` (`m /= 2` until zero), on gas
`m` (the gap at least halves each pass, so gas `m` never runs out). -/
def sortOuterGo (fuel sort_count : Nat) :
    Nat → Nat → List Nat → List Nat → Option (List Nat × List Nat)
  | 0, m, head_arr, tail_arr =>
    if m / 2 = 0 then some (head_arr, tail_arr) else none
  | gas + 1, m, head_arr, tail_arr =>
    if m / 2 = 0 then some (head_arr, tail_arr)
    else
      match sortPass fuel (m / 2) (sort_count - m / 2) 1 head_arr tail_arr with
      | none => none
      | some (h1, t1) => sortOuterGo fuel sort_count gas (m / 2) h1 t1

/-- The outer gap loop of `sort_skeleton`. -/
def sortOuter (fuel sort_count : Nat) (m : Nat)
    (head_arr tail_arr : List Nat) : Option (List Nat × List Nat) :=
  sortOuterGo fuel sort_count m m head_arr tail_arr

/-- `sort_skeleton` from `src/netgen.rs`: shell sort of the
`(tail, head)` pairs `1..=sort_count` by tail (the inner walk runs at most
`sort_count + 1` steps since `i` decreases by `m ≥ 1` from `i ≤ sort_count`). -/
def sort_skeleton (head_arr tail_arr : List Nat) (sort_count : Nat) :
    Option (List Nat × List Nat) :=
  sortOuter (sort_count + 1) sort_count sort_count head_arr tail_arr

/-- The rejection loop of `pick_head` that draws `limit`. -/
def drawLimit (orc : FloatOracle)
    (nodes_left non_sources remaining_arcs upper_bound : Int) :
    Nat → Seed → Option (Int × Seed)
  | 0, _ => none
  | fuel + 1, s =>
    match rngDraw s 1 upper_bound with
    | (l0, s1) =>
      let l := if nodes_left = 0 then remaining_arcs else l0
      if orc.feasible nodes_left (non_sources - 1) (remaining_arcs - l) then
        some (l, s1)
      else drawLimit orc nodes_left non_sources remaining_arcs upper_bound fuel s1

/-- The arc-emission loop of `pick_head` (`for _ in 0..limit`); positions are
drawn against `pseudo_size`, and an out-of-range chosen index is silently
dropped (the BCJL bounds check). -/
def pickHeadLoop (p : NetgenParams) (desired_tail : Nat) :
    Nat → IndexList → List Arc → Seed → Option (IndexList × List Arc × Seed)
  | 0, handle, arcs, s => some (handle, arcs, s)
  | n + 1, handle, arcs, s =>
    match rngDraw s 1 handle.pseudo_size with
    | (r, s1) =>
      match handle.choose (intToUsize r) with
      | none => none
      | some (index, handle1) =>
        match rngDraw s1 1 100 with
        | (c, s2) =>
          match (if c ≤ p.capacitated_pct then rngDraw s2 p.mincap p.maxcap
                 else (p.supply, s2)) with
          | (cap, s3) =>
            if 1 ≤ index ∧ index ≤ intToUsize p.nodes then
              match rngDraw s3 p.mincost p.maxcost with
              | (cost, s4) =>
                pickHeadLoop p desired_tail n handle1
                  (arcs ++ [⟨desired_tail, index, cost, cap⟩]) s4
            else pickHeadLoop p desired_tail n handle1 arcs s3

/-- `pick_head` from `src/netgen.rs`.  `nodes_left` is decremented first; if
twice the decremented count meets the remaining arc budget the call returns
immediately.  A zero divisor (`nodes_left + 1 = 0`) is an `i64` division by
zero, a panic. -/
def pick_head (p : NetgenParams) (orc : FloatOracle) (fuel : Nat)
    (handle : IndexList) (desired_tail : Nat) (nodes_left : Int)
    (arcs : List Arc) (s : Seed) : Option (IndexList × Int × List Arc × Seed) :=
  let non_sources := p.nodes - p.sources + p.tsources
  let remaining_arcs := p.density - (arcs.length : Int)
  let nodes_left1 := nodes_left - 1
  if 2 * nodes_left1 ≥ remaining_arcs then some (handle, nodes_left1, arcs, s)
  else if nodes_left1 + 1 = 0 then none
  else
    match
      (if (remaining_arcs + non_sources - handle.pseudo_size - 1).tdiv
            (nodes_left1 + 1) ≥ non_sources - 1 then
        some (non_sources, s)
      else
        drawLimit orc nodes_left1 non_sources remaining_arcs
          (2 * (remaining_arcs.tdiv (nodes_left1 + 1) - 1)) fuel s) with
    | none => none
    | some (limit, s1) =>
      match pickHeadLoop p desired_tail limit.toNat handle arcs s1 with
      | none => none
      | some (handle1, arcs1, s2) => some (handle1, nodes_left1, arcs1, s2)

/-- The inner run loop of arc emission: consume successive skeleton entries
whose tail equals `it`, emitting one arc each (`while it == tail_arr[i]`).
The capacity draw happens on every pass; the source-supply read only in the
capacitated branch. -/
def emitInner (p : NetgenParams) (source : Nat) (head_arr tail_arr : List Nat)
    (supply : List Int) (it : Nat) :
    Nat → Nat → IndexList → List Arc → Seed →
    Option (Nat × IndexList × List Arc × Seed)
  | 0, _, _, _, _ => none
  | fuel + 1, i, handle, arcs, s =>
    match tail_arr.get? i with
    | none => none
    | some ti =>
      if ti = it then
        match head_arr.get? i with
        | none => none
        | some hi =>
          match handle.remove hi with
          | none => none
          | some handle1 =>
            match rngDraw s 1 100 with
            | (c, s1) =>
              match (if c ≤ p.capacitated_pct then
                      match supply.get? (source - 1) with
                      | none => none
                      | some ssrc => some (max ssrc p.mincap)
                    else some p.supply : Option Int) with
              | none => none
              | some cap =>
                match rngDraw s1 1 100 with
                | (hc, s2) =>
                  match (if hc > p.hicost_pct then rngDraw s2 p.mincost p.maxcost
                         else (p.maxcost, s2)) with
                  | (cost, s3) =>
                    emitInner p source head_arr tail_arr supply it fuel (i + 1)
                      handle1 (arcs ++ [⟨it, hi, cost, cap⟩]) s3
      else some (i, handle, arcs, s)

/-- The outer emission loop (`while i <= sort_count`): one run per distinct
tail value, each followed by a `pick_head` call against a fresh handle over
`[sources_u - tsources + 1, max_node]` with the run's tail removed. -/
def emitRuns (p : NetgenParams) (orc : FloatOracle) (fuel : Nat) (source : Nat)
    (sources_u max_node sort_count : Nat) (head_arr tail_arr : List Nat)
    (supply : List Int) :
    Nat → Nat → Int → List Arc → Seed → Option (Int × List Arc × Seed)
  | 0, _, _, _, _ => none
  | outer + 1, i, nodes_left, arcs, s =>
    if i ≤ sort_count then
      match subUsize sources_u (intToUsize p.tsources) with
      | none => none
      | some d =>
        match IndexList.new (d + 1) max_node with
        | none => none
        | some handle0 =>
          match tail_arr.get? i with
          | none => none
          | some ti =>
            match handle0.remove ti with
            | none => none
            | some handle1 =>
              match emitInner p source head_arr tail_arr supply ti fuel i
                  handle1 arcs s with
              | none => none
              | some (i2, handle2, arcs1, s1) =>
                match pick_head p orc fuel handle2 ti nodes_left arcs1 s1 with
                | none => none
                | some (_, nl1, arcs2, s2) =>
                  emitRuns p orc fuel source sources_u max_node sort_count
                    head_arr tail_arr supply outer i2 nl1 arcs2 s2
    else some (nodes_left, arcs, s)

/-- Per-source processing (`for source in 1..=sources_u`): chain walk, sink
selection, supply splitting, skeleton sort, arc emission.  A zero
`actual_sinks` would be an `i64` division by zero, a panic. -/
def perSource (p : NetgenParams) (orc : FloatOracle) (fuel : Nat)
    (sources_u sinks_u max_node : Nat) (pred : List Nat) :
    Nat → Nat → Seed → List Nat → List Nat → List Int → List Arc → Int →
    Option (Seed × List Int × List Arc × Int)
  | 0, _, s, _, _, supply, arcs, nodes_left => some (s, supply, arcs, nodes_left)
  | n + 1, source, s, head_arr, tail_arr, supply, arcs, nodes_left =>
    (pred.get? source).bind fun p0 =>
    (chainWalk fuel pred source p0 0 head_arr tail_arr).bind fun cw =>
    let sort_count := cw.1
    let sps_raw :=
      if max_node - sources_u - sinks_u = 0 then sinks_u / sources_u + 1
      else orc.sinksPerSource sort_count sinks_u (max_node - sources_u - sinks_u)
    let sinks_per_source := min (max sps_raw 2) sinks_u
    (IndexList.new (max_node - sinks_u) (max_node - 1)).bind fun handle0 =>
    (pickSinks sinks_per_source s handle0 []).bind fun ps =>
    (if source = sources_u ∧ ps.2.1.index_size > 0 then
        absorbSinks supply fuel ps.2.1 ps.2.2
      else some (ps.2.1, ps.2.2)).bind fun ab =>
    let sinks_vec := ab.2
    let actual_sinks := sinks_vec.length
    let chain_length := sort_count
    if actual_sinks = 0 then none
    else
      (supply.get? (source - 1)).bind fun ssrc =>
      let sps := ssrc.tdiv (usizeToI64 actual_sinks)
      (splitSupply actual_sinks chain_length sps source sinks_vec pred
          actual_sinks 0 sort_count p0 ps.1 supply cw.2.1 cw.2.2).bind fun sp =>
      let sort_count2 := sp.1
      (sinks_vec.get? 0).bind fun sv_first =>
      (sp.2.2.2.1.get? (source - 1)).bind fun ssrc2 =>
      (addAt sp.2.2.2.1 sv_first
          (-(ssrc2.tmod (usizeToI64 actual_sinks)))).bind fun supplyB =>
      (sort_skeleton sp.2.2.2.2.1 sp.2.2.2.2.2 sort_count2).bind fun st =>
      (setN st.2 (sort_count2 + 1) 0).bind fun tail4 =>
      (emitRuns p orc fuel source sources_u max_node sort_count2 st.1 tail4
          supplyB fuel 1 nodes_left arcs sp.2.2.1).bind fun er =>
      perSource p orc fuel sources_u sinks_u max_node pred n (source + 1)
        er.2.2 st.1 tail4 supplyB er.2.1 er.1

/-- The rubbish-arc loop over transshipment sinks
(`for i in (max_node - sinks_u + 1)..=(max_node - sinks_u + tsinks)`). -/
def tsinkLoop (p : NetgenParams) (orc : FloatOracle) (fuel : Nat)
    (sources_u max_node : Nat) :
    Nat → Nat → Int → List Arc → Seed → Option (Int × List Arc × Seed)
  | 0, _, nodes_left, arcs, s => some (nodes_left, arcs, s)
  | n + 1, i, nodes_left, arcs, s =>
    match subUsize sources_u (intToUsize p.tsources) with
    | none => none
    | some d =>
      match IndexList.new (d + 1) max_node with
      | none => none
      | some handle0 =>
        match handle0.remove i with
        | none => none
        | some handle1 =>
          match pick_head p orc fuel handle1 i nodes_left arcs s with
          | none => none
          | some (_, nl1, arcs1, s1) =>
            tsinkLoop p orc fuel sources_u max_node n (i + 1) nl1 arcs1 s1

/-- Set the first `n` entries of a supply vector (`iter_mut().take(n)`). -/
def setFirstN (l : List Int) (n : Nat) (v : Int) : List Int :=
  (l.take n).map (fun _ => v) ++ l.drop n

/-- Set the entries in `[a, b)` (`iter_mut().take(b).skip(a)`). -/
def setMid (l : List Int) (a b : Nat) (v : Int) : List Int :=
  l.take a ++ ((l.drop a).take (b - a)).map (fun _ => v) ++ l.drop b

/-- The arc loop of `create_assignment` (`for source in 1..=nodes/2`). -/
def createAssignLoop (p : NetgenParams) (orc : FloatOracle) (fuel : Nat)
    (sources_u nodes_u : Nat) :
    Nat → Nat → IndexList → Seed → List Arc → Int →
    Option (List Arc × Int × Seed)
  | 0, _, _, s, arcs, nodes_left => some (arcs, nodes_left, s)
  | n + 1, source, skeleton, s, arcs, nodes_left =>
    match rngDraw s 1 skeleton.index_size with
    | (r, s1) =>
      match skeleton.choose (intToUsize r) with
      | none => none
      | some (index, skeleton1) =>
        match rngDraw s1 p.mincost p.maxcost with
        | (cost, s2) =>
          match IndexList.new (sources_u + 1) nodes_u with
          | none => none
          | some handle0 =>
            match handle0.remove index with
            | none => none
            | some handle1 =>
              match pick_head p orc fuel handle1 source nodes_left
                  (arcs ++ [⟨source, index, cost, 1⟩]) s2 with
              | none => none
              | some (_, nl1, arcs1, s3) =>
                createAssignLoop p orc fuel sources_u nodes_u n (source + 1)
                  skeleton1 s3 arcs1 nl1

/-- `create_assignment` from `src/netgen.rs`: supplies `+1` on the first
half, `-1` on the second half, one unit arc per supply node plus
`pick_head` extras. -/
def create_assignment (p : NetgenParams) (orc : FloatOracle) (fuel : Nat)
    (s : Seed) (supply : List Int) (nodes_left : Int) :
    Option (List Arc × List Int × Int × Seed) :=
  let nodes_u := intToUsize p.nodes
  let sources_u := intToUsize p.sources
  let supply1 := setFirstN supply (nodes_u / 2) 1
  let supply2 := setMid supply1 (nodes_u / 2) nodes_u (-1)
  match IndexList.new (sources_u + 1) nodes_u with
  | none => none
  | some skeleton =>
    match createAssignLoop p orc fuel sources_u nodes_u (nodes_u / 2) 1
        skeleton s [] nodes_left with
    | none => none
    | some (arcs, nl1, s1) => some (arcs, supply2, nl1, s1)

/-- `netgen` from `src/netgen.rs`, after the seed and validation checks.
`fuel` bounds the loops with no structural measure. -/
def netgenCore (p : NetgenParams) (orc : FloatOracle) (fuel : Nat) (s : Seed) :
    Option NetgenResult :=
  let nodes_u := intToUsize p.nodes
  let sources_u := intToUsize p.sources
  let sinks_u := intToUsize p.sinks
  let nodes_left := p.nodes - p.sinks + p.tsinks
  let supply0 : List Int := List.replicate nodes_u 0
  if p.assignCond then
    (create_assignment p orc fuel s supply0 nodes_left).bind fun ar =>
    some ⟨ar.1, ar.2.1⟩
  else
    (create_supply sources_u p.supply s supply0).bind fun cs =>
    let max_node := nodes_u
    let alloc_size := nodes_u + intToUsize p.density + 2
    (initPred sources_u 1 (List.replicate alloc_size 0)).bind fun pred1 =>
    (IndexList.new (sources_u + 1) (max_node - sinks_u)).bind fun handle =>
    let transshipment := usizeToI64 (nodes_u - sources_u - sinks_u)
    (skel1 sources_u (skelThreshold transshipment) transshipment
        (cs.1, handle, pred1, 1)).bind fun sk1 =>
    (skel2 p.sources sk1.1 (sk1.2.1, sk1.2.2.1, sk1.2.2.2.1)).bind fun sk2 =>
    (perSource p orc fuel sources_u sinks_u max_node sk2.2.2 sources_u 1
        sk2.1 (List.replicate alloc_size 0) (List.replicate alloc_size 0)
        cs.2 [] nodes_left).bind fun pr =>
    (tsinkLoop p orc fuel sources_u max_node (intToUsize p.tsinks)
        (max_node - sinks_u + 1) pr.2.2.2 pr.2.2.1 pr.1).bind fun ts =>
    some ⟨ts.2.1, pr.2.1⟩

/-- `netgen::netgen`: the public entry point.  A validation failure is a
parameter error (`BadParms`). -/
def netgen (seed : Int) (p : NetgenParams) (orc : FloatOracle) (fuel : Nat) :
    GenOut :=
  if h : seed ≤ 0 then .fail .badSeed
  else
    match p.validate with
    | .error _ => .fail .badParms
    | .ok _ =>
      match netgenCore p orc fuel ⟨seed, by omega⟩ with
      | none => .stuck
      | some r => .done r

/-- C7: whenever `pick_head` is called with twice the decremented
`nodes_left` already at least the remaining arc budget
(`density` minus the arcs emitted so far), it emits no arcs: the call
returns with the handle, arc list and rng state unchanged and only
`nodes_left` decremented. -/
theorem c7_pick_head_no_arcs (p : NetgenParams) (orc : FloatOracle)
    (fuel : Nat) (handle : IndexList) (desired_tail : Nat) (nodes_left : Int)
    (arcs : List Arc) (s : Seed)
    (h : 2 * (nodes_left - 1) ≥ p.density - (arcs.length : Int)) :
    pick_head p orc fuel handle desired_tail nodes_left arcs s
      = some (handle, nodes_left - 1, arcs, s) := by
  unfold pick_head
  rw [if_pos h]

def c7p : NetgenParams := ⟨3, 1, 1, 3, 1, 2, 1, 0, 0, 0, 0, 1, 1⟩

def c7orc : FloatOracle := ⟨fun _ _ _ => 2, fun _ _ _ => true⟩

def c7l : IndexList := ⟨1, 1, 1, .small 1 [false]⟩

def c7s : Seed := ⟨1, by norm_num⟩

theorem c7_pick_head_no_arcs_witness :
    2 * ((5 : Int) - 1) ≥ c7p.density - (([] : List Arc).length : Int) ∧
    pick_head c7p c7orc 5 c7l 1 5 [] c7s = some (c7l, 5 - 1, [], c7s) :=
  ⟨by decide, c7_pick_head_no_arcs c7p c7orc 5 c7l 1 5 [] c7s (by decide)⟩

theorem skel1_eq_iter (sources_u : Nat) (threshold : Int) :
    ∀ (remaining : Int), threshold ≤ remaining →
    ∀ st, skel1 sources_u threshold remaining st
      = (iterOpt (skel1Step sources_u) (remaining - threshold).toNat st).map
          (fun st1 => (threshold, st1)) := by
  have key : ∀ (n : Nat) (remaining : Int), threshold ≤ remaining →
      (remaining - threshold).toNat = n →
      ∀ st, skel1Go sources_u threshold n remaining st
        = (iterOpt (skel1Step sources_u) n st).map (fun st1 => (threshold, st1)) := by
    intro n
    induction n with
    | zero =>
      intro remaining h1 h2 st
      unfold skel1Go
      rw [if_neg (by omega)]
      have he : remaining = threshold := by omega
      rw [he]
      rfl
    | succ k ih =>
      intro remaining h1 h2 st
      unfold skel1Go
      rw [if_pos (by omega)]
      simp only [iterOpt]
      cases hstep : skel1Step sources_u st with
      | none => rfl
      | some st1 => exact ih (remaining - 1) (by omega) (by omega) st1
  intro remaining h st
  unfold skel1
  rw [key _ remaining h rfl st]

theorem skel2_eq_iter (sources : Int) :
    ∀ (remaining : Int), 0 ≤ remaining →
    ∀ st, skel2 sources remaining st
      = iterOpt (skel2Step sources) remaining.toNat st := by
  have key : ∀ (n : Nat) (remaining : Int), 0 ≤ remaining →
      remaining.toNat = n →
      ∀ st, skel2Go sources n remaining st
        = iterOpt (skel2Step sources) n st := by
    intro n
    induction n with
    | zero =>
      intro remaining h1 h2 st
      unfold skel2Go
      rw [if_neg (by omega)]
      rfl
    | succ k ih =>
      intro remaining h1 h2 st
      unfold skel2Go
      rw [if_pos (by omega)]
      simp only [iterOpt]
      cases hstep : skel2Step sources st with
      | none => rfl
      | some st1 => exact ih (remaining - 1) (by omega) (by omega) st1
  intro remaining h st
  unfold skel2
  rw [key _ remaining h rfl st]

/-- C5 (amended): for `t ≥ 0` transshipment nodes the split point of the
skeleton loops is `threshold = (4t+9)/10 ≈ 0.4·t`.  The round-robin loop
runs `t - threshold` iterations (about 60% of `t`) and the random-source
loop runs `threshold` iterations (about 40% of `t`) — not the ~90%/~10%
split the spec describes. -/
theorem c5_skeleton_split (t : Int) (ht : 0 ≤ t) (sources_u : Nat)
    (sources : Int) (st : Seed × IndexList × List Nat × Nat)
    (st2 : Seed × IndexList × List Nat) :
    skel1 sources_u (skelThreshold t) t st
      = (iterOpt (skel1Step sources_u) (t - skelThreshold t).toNat st).map
          (fun st1 => (skelThreshold t, st1)) ∧
    skel2 sources (skelThreshold t) st2
      = iterOpt (skel2Step sources) (skelThreshold t).toNat st2 ∧
    4 * t ≤ 10 * skelThreshold t ∧ 10 * skelThreshold t ≤ 4 * t + 9 := by
  have he : skelThreshold t = (4 * t + 9) / 10 := by
    unfold skelThreshold
    rw [Int.tdiv_eq_ediv (by omega) (by omega)]
  refine ⟨skel1_eq_iter sources_u _ t (by omega) st,
    skel2_eq_iter sources _ (by omega) st2, by omega, by omega⟩

def c5st : Seed × IndexList × List Nat × Nat := (⟨1, by norm_num⟩, c7l, [], 1)

def c5st2 : Seed × IndexList × List Nat := (⟨1, by norm_num⟩, c7l, [])

/-- C5 counterexample: with `t = 100` transshipment nodes the threshold is
`(4·100+9)/10 = 40`, so the random-source loop runs 40 iterations — 40% of
the nodes, refuting the spec's "approximately 10%" (which even generously
read allows at most 15 of 100). -/
theorem c5_skeleton_split_counterexample :
    skelThreshold 100 = 40 ∧ ¬(skelThreshold 100 ≤ 15) ∧
    skel2 1 (skelThreshold 100) c5st2 = iterOpt (skel2Step 1) 40 c5st2 := by
  refine ⟨by decide, by decide, ?_⟩
  have h := skel2_eq_iter 1 (skelThreshold 100) (by decide) c5st2
  rw [h]
  rfl

theorem c5_skeleton_split_witness :
    (0 : Int) ≤ 100 ∧
    (skel1 3 (skelThreshold 100) 100 c5st
      = (iterOpt (skel1Step 3) ((100 : Int) - skelThreshold 100).toNat c5st).map
          (fun st1 => (skelThreshold 100, st1)) ∧
    skel2 3 (skelThreshold 100) c5st2
      = iterOpt (skel2Step 3) (skelThreshold 100).toNat c5st2 ∧
    4 * (100 : Int) ≤ 10 * skelThreshold 100 ∧
    10 * skelThreshold 100 ≤ 4 * 100 + 9) :=
  ⟨by decide, c5_skeleton_split 100 (by decide) 3 3 c5st c5st2⟩

/-- Modelled from the spec: the validation table of §6, in order; each row
pairs the violation test with its reported error variant. -/
def specChecks (p : NetgenParams) : List (Bool × ParamError) :=
  [(decide (p.nodes ≤ 0), .nonPositiveNodes),
   (decide (p.sources ≤ 0), .nonPositiveSources),
   (decide (p.sinks ≤ 0), .nonPositiveSinks),
   (decide (p.sources + p.sinks > p.nodes), .sourcesSinksExceedNodes),
   (decide (p.density < p.nodes), .densityTooLow),
   (decide (p.mincost > p.maxcost), .minCostExceedsMaxCost),
   (decide (p.supply < p.sources), .supplyTooLow),
   (decide (p.tsources > p.sources), .tSourcesExceedSources),
   (decide (p.tsinks > p.sinks), .tSinksExceedSinks),
   (decide (p.hicost_pct < 0 ∨ p.hicost_pct > 100), .hiCostOutOfRange),
   (decide (p.capacitated_pct < 0 ∨ p.capacitated_pct > 100),
     .capacitatedOutOfRange),
   (decide (p.mincap > p.maxcap), .minCapExceedsMaxCap)]

/-- Modelled from the spec: the first violated rule of the table, if any. -/
def firstViolation (p : NetgenParams) : Option ParamError :=
  ((specChecks p).find? (fun c => c.1)).map (fun c => c.2)

/-- Modelled from the spec: all twelve validation rules hold. -/
def specAllValid (p : NetgenParams) : Prop :=
  0 < p.nodes ∧ 0 < p.sources ∧ 0 < p.sinks ∧ p.sources + p.sinks ≤ p.nodes ∧
  p.nodes ≤ p.density ∧ p.mincost ≤ p.maxcost ∧ p.sources ≤ p.supply ∧
  p.tsources ≤ p.sources ∧ p.tsinks ≤ p.sinks ∧
  0 ≤ p.hicost_pct ∧ p.hicost_pct ≤ 100 ∧
  0 ≤ p.capacitated_pct ∧ p.capacitated_pct ≤ 100 ∧ p.mincap ≤ p.maxcap

theorem validate_cases (p : NetgenParams) :
    p.validate = (match firstViolation p with
      | none => Except.ok ()
      | some e => Except.error e) ∧
    (firstViolation p = none ↔ specAllValid p) := by
  unfold NetgenParams.validate firstViolation specChecks specAllValid
  by_cases h1 : p.nodes ≤ 0
  · rw [if_pos h1]
    refine ⟨by simp [List.find?, h1], ?_⟩
    simp only [List.find?, h1]
    simp only [decide_True]
    constructor
    · intro hc; simp at hc
    · intro hc; omega
  rw [if_neg h1]
  by_cases h2 : p.sources ≤ 0
  · rw [if_pos h2]
    refine ⟨by simp [List.find?, h1, h2], ?_⟩
    constructor
    · intro hc; simp [List.find?, h1, h2] at hc
    · intro hc; omega
  rw [if_neg h2]
  by_cases h3 : p.sinks ≤ 0
  · rw [if_pos h3]
    refine ⟨by simp [List.find?, h1, h2, h3], ?_⟩
    constructor
    · intro hc; simp [List.find?, h1, h2, h3] at hc
    · intro hc; omega
  rw [if_neg h3]
  by_cases h4 : p.sources + p.sinks > p.nodes
  · rw [if_pos h4]
    refine ⟨by simp [List.find?, h1, h2, h3, h4], ?_⟩
    constructor
    · intro hc; simp [List.find?, h1, h2, h3, h4] at hc
    · intro hc; omega
  rw [if_neg h4]
  by_cases h5 : p.nodes > p.density
  · rw [if_pos h5]
    have h5' : p.density < p.nodes := h5
    refine ⟨by simp [List.find?, h1, h2, h3, h4, h5'], ?_⟩
    constructor
    · intro hc; simp [List.find?, h1, h2, h3, h4, h5'] at hc
    · intro hc; omega
  rw [if_neg h5]
  have h5' : ¬(p.density < p.nodes) := h5
  by_cases h6 : p.mincost > p.maxcost
  · rw [if_pos h6]
    refine ⟨by simp [List.find?, h1, h2, h3, h4, h5', h6], ?_⟩
    constructor
    · intro hc; simp [List.find?, h1, h2, h3, h4, h5', h6] at hc
    · intro hc; omega
  rw [if_neg h6]
  by_cases h7 : p.supply < p.sources
  · rw [if_pos h7]
    refine ⟨by simp [List.find?, h1, h2, h3, h4, h5', h6, h7], ?_⟩
    constructor
    · intro hc; simp [List.find?, h1, h2, h3, h4, h5', h6, h7] at hc
    · intro hc; omega
  rw [if_neg h7]
  by_cases h8 : p.tsources > p.sources
  · rw [if_pos h8]
    refine ⟨by simp [List.find?, h1, h2, h3, h4, h5', h6, h7, h8], ?_⟩
    constructor
    · intro hc; simp [List.find?, h1, h2, h3, h4, h5', h6, h7, h8] at hc
    · intro hc; omega
  rw [if_neg h8]
  by_cases h9 : p.tsinks > p.sinks
  · rw [if_pos h9]
    refine ⟨by simp [List.find?, h1, h2, h3, h4, h5', h6, h7, h8, h9], ?_⟩
    constructor
    · intro hc; simp [List.find?, h1, h2, h3, h4, h5', h6, h7, h8, h9] at hc
    · intro hc; omega
  rw [if_neg h9]
  by_cases h10 : p.hicost_pct < 0 ∨ p.hicost_pct > 100
  · rw [if_pos h10]
    refine ⟨by simp [List.find?, h1, h2, h3, h4, h5', h6, h7, h8, h9, h10], ?_⟩
    constructor
    · intro hc; simp [List.find?, h1, h2, h3, h4, h5', h6, h7, h8, h9, h10] at hc
    · intro hc; omega
  rw [if_neg h10]
  by_cases h11 : p.capacitated_pct < 0 ∨ p.capacitated_pct > 100
  · rw [if_pos h11]
    refine ⟨by simp [List.find?, h1, h2, h3, h4, h5', h6, h7, h8, h9, h10, h11],
      ?_⟩
    constructor
    · intro hc
      simp [List.find?, h1, h2, h3, h4, h5', h6, h7, h8, h9, h10, h11] at hc
    · intro hc; omega
  rw [if_neg h11]
  by_cases h12 : p.mincap > p.maxcap
  · rw [if_pos h12]
    refine ⟨by simp [List.find?, h1, h2, h3, h4, h5', h6, h7, h8, h9, h10, h11,
      h12], ?_⟩
    constructor
    · intro hc
      simp [List.find?, h1, h2, h3, h4, h5', h6, h7, h8, h9, h10, h11, h12] at hc
    · intro hc; omega
  rw [if_neg h12]
  refine ⟨by simp [List.find?, h1, h2, h3, h4, h5', h6, h7, h8, h9, h10, h11,
    h12], ?_⟩
  constructor
  · intro _; omega
  · intro _
    simp [List.find?, h1, h2, h3, h4, h5', h6, h7, h8, h9, h10, h11, h12]

/-- C9: `validate` returns `Ok` exactly when every rule of the §6 table
holds; when rules are violated it returns the error variant of the first
violated rule in table order; and `netgen` on invalid parameters (with a
positive seed) fails with `BadParms` before generation, producing no arcs
and no supply vector. -/
theorem c9_validate_first_violation (p : NetgenParams) :
    (p.validate = .ok () ↔ specAllValid p) ∧
    (∀ e, p.validate = .error e ↔ firstViolation p = some e) ∧
    (∀ (seed : Int) (orc : FloatOracle) (fuel : Nat) (e : ParamError),
      0 < seed → p.validate = .error e →
      netgen seed p orc fuel = .fail .badParms) := by
  obtain ⟨hmatch, hnone⟩ := validate_cases p
  refine ⟨?_, ?_, ?_⟩
  · rw [hmatch]
    cases hfv : firstViolation p with
    | none => simpa [hfv] using hnone.mp hfv
    | some e =>
      simp only [hfv]
      constructor
      · intro hc; cases hc
      · intro hall
        have := hnone.mpr hall
        rw [hfv] at this
        cases this
  · intro e
    rw [hmatch]
    cases hfv : firstViolation p with
    | none =>
      simp only [hfv]
      constructor
      · intro hc; cases hc
      · intro hc; cases hc
    | some f =>
      simp only [hfv]
      constructor
      · intro hc
        injection hc with hef
        rw [hef]
      · intro hc
        injection hc with hef
        rw [hef]
  · intro seed orc fuel e hseed hverr
    unfold netgen
    rw [dif_neg (by omega), hverr]

def c9p : NetgenParams := ⟨0, 1, 1, 3, 1, 2, 1, 0, 0, 0, 0, 1, 1⟩

theorem c9_validate_first_violation_witness :
    (0 : Int) < 7 ∧ c9p.validate = .error .nonPositiveNodes ∧
    netgen 7 c9p ⟨fun _ _ _ => 2, fun _ _ _ => true⟩ 5 = .fail .badParms :=
  ⟨by decide, by decide,
    (c9_validate_first_violation c9p).2.2 7 ⟨fun _ _ _ => 2, fun _ _ _ => true⟩
      5 .nonPositiveNodes (by decide) (by decide)⟩

theorem intToUsize_lt (x : Int) : intToUsize x < 2 ^ 64 := by
  unfold intToUsize
  omega

theorem intToUsize_of_range (x : Int) (h0 : 0 ≤ x) (h1 : x < 2 ^ 64) :
    ((intToUsize x : Nat) : Int) = x := by
  unfold intToUsize
  rw [Int.emod_eq_of_lt h0 h1]
  exact Int.toNat_of_nonneg h0

theorem usizeToI64_eq (n : Nat) (h : n < 2 ^ 63) : usizeToI64 n = (n : Int) := by
  unfold usizeToI64
  have hc : ((n : Int)) < 2 ^ 64 := by omega
  rw [Int.emod_eq_of_lt (Int.natCast_nonneg n) hc]
  rw [if_pos (by omega)]

theorem getD_of_get? {α : Type} {l : List α} {i : Nat} {x : α} (d : α)
    (h : l.get? i = some x) : l.getD i d = x := by
  rw [List.getD_eq_getElem?_getD, ← List.get?_eq_getElem?, h]
  rfl

theorem get?_lt_length {α : Type} {l : List α} {i : Nat} {x : α}
    (h : l.get? i = some x) : i < l.length := by
  by_contra hc
  push_neg at hc
  rw [List.get?_eq_getElem?, List.getElem?_eq_none hc] at h
  cases h

theorem sum_set_of_get? {l : List Int} {i : Nat} {x : Int}
    (h : l.get? i = some x) (y : Int) : (l.set i y).sum = l.sum - x + y := by
  induction l generalizing i with
  | nil => cases h
  | cons a as ih =>
    cases i with
    | zero =>
      have hx : a = x := by simpa using h
      subst hx
      show (y :: as).sum = _
      rw [List.sum_cons, List.sum_cons]
      ring
    | succ n =>
      have h' : as.get? n = some x := by simpa using h
      show (a :: as.set n y).sum = _
      rw [List.sum_cons, List.sum_cons, ih h']
      ring

theorem addAt_eq_some {l : List Int} {i : Nat} {d : Int} {l' : List Int}
    (h : addAt l i d = some l') :
    ∃ x, l.get? i = some x ∧ i < l.length ∧ l' = l.set i (x + d) := by
  unfold addAt setI at h
  cases hg : l.get? i with
  | none => rw [hg] at h; simp at h
  | some x =>
    rw [hg] at h
    replace h : (if i < l.length then some (l.set i (x + d)) else none)
        = some l' := h
    by_cases hlt : i < l.length
    · rw [if_pos hlt] at h
      injection h with h
      exact ⟨x, rfl, hlt, h.symm⟩
    · rw [if_neg hlt] at h
      cases h

theorem addAt_spec {l : List Int} {i : Nat} {d : Int} {l' : List Int}
    (h : addAt l i d = some l') :
    l'.length = l.length ∧ l'.sum = l.sum + d ∧
    (∀ j, j ≠ i → l'.getD j 0 = l.getD j 0) := by
  obtain ⟨x, hg, hlt, hset⟩ := addAt_eq_some h
  subst hset
  refine ⟨by simp, ?_, ?_⟩
  · rw [sum_set_of_get? hg]
    ring
  · intro j hj
    exact getD_set_ne _ _ _ _ _ (fun hc => hj hc.symm)

/-- Sum of `l.getD i 0` over `i ∈ [a, a+n)`. -/
def sumRange (l : List Int) (a n : Nat) : Int :=
  ((List.range' a n).map (fun i => l.getD i 0)).sum

theorem sumRange_zero (l : List Int) (a : Nat) : sumRange l a 0 = 0 := rfl

theorem sumRange_succ_head (l : List Int) (a n : Nat) :
    sumRange l a (n + 1) = l.getD a 0 + sumRange l (a + 1) n := by
  unfold sumRange
  rw [range'_succ_cons, List.map_cons, List.sum_cons]

theorem sumRange_split (l : List Int) (a m n : Nat) :
    sumRange l a (m + n) = sumRange l a m + sumRange l (a + m) n := by
  unfold sumRange
  rw [← range'_append_eq, List.map_append, List.sum_append]

theorem sumRange_congr {l l2 : List Int} (a n : Nat)
    (h : ∀ i, a ≤ i → i < a + n → l.getD i 0 = l2.getD i 0) :
    sumRange l a n = sumRange l2 a n := by
  unfold sumRange
  congr 1
  apply List.map_congr_left
  intro i hi
  have := mem_range'_iff.mp hi
  exact h i this.1 this.2

theorem sumRange_all_zero {l : List Int} (a n : Nat)
    (h : ∀ i, a ≤ i → i < a + n → l.getD i 0 = 0) : sumRange l a n = 0 := by
  induction n generalizing a with
  | zero => rfl
  | succ k ih =>
    rw [sumRange_succ_head, h a (le_refl a) (by omega),
      ih (a + 1) (fun i h1 h2 => h i (by omega) (by omega))]
    ring

theorem sumRange_cons_shift (x : Int) (xs : List Int) (a n : Nat) :
    sumRange (x :: xs) (a + 1) n = sumRange xs a n := by
  induction n generalizing a with
  | zero => rfl
  | succ k ih =>
    rw [sumRange_succ_head, sumRange_succ_head, List.getD_cons_succ, ih]

theorem sumRange_full (l : List Int) : sumRange l 0 l.length = l.sum := by
  induction l with
  | nil => rfl
  | cons x xs ih =>
    show sumRange (x :: xs) 0 (xs.length + 1) = _
    rw [sumRange_succ_head, List.getD_cons_zero, List.sum_cons,
      show (0 + 1 : Nat) = 0 + 1 from rfl, sumRange_cons_shift, ih]

theorem createSupplyLoop_spec (sources_u : Nat) (sps : Int)
    (hsrc : sources_u < 2 ^ 63) :
    ∀ (n i : Nat) (s : Seed) (supply : List Int) (out : Seed × List Int),
    i + n ≤ sources_u →
    createSupplyLoop sources_u sps n i s supply = some out →
    out.2.length = supply.length ∧ out.2.sum = supply.sum + n * sps ∧
    ∀ j, sources_u ≤ j → out.2.getD j 0 = supply.getD j 0 := by
  intro n
  induction n with
  | zero =>
    intro i s supply out hle h
    replace h : some (s, supply) = some out := h
    injection h with h
    subst h
    exact ⟨rfl, by simp, fun j _ => rfl⟩
  | succ k ih =>
    intro i s supply out hle h
    unfold createSupplyLoop at h
    cases hrd : rngDraw s 1 sps with
    | mk part s1 =>
      rw [hrd] at h
      replace h : (match addAt supply i part with
          | none => none
          | some supply1 =>
            match rngDraw s1 0 (usizeToI64 sources_u - 1) with
            | (j, s2) =>
              match addAt supply1 (intToUsize j) (sps - part) with
              | none => none
              | some supply2 =>
                createSupplyLoop sources_u sps k (i + 1) s2 supply2)
          = some out := h
      cases haddA : addAt supply i part with
      | none => rw [haddA] at h; exact absurd h (by simp)
      | some supply1 =>
        rw [haddA] at h
        replace h : (match rngDraw s1 0 (usizeToI64 sources_u - 1) with
            | (j, s2) =>
              match addAt supply1 (intToUsize j) (sps - part) with
              | none => none
              | some supply2 =>
                createSupplyLoop sources_u sps k (i + 1) s2 supply2)
            = some out := h
        cases hrd2 : rngDraw s1 0 (usizeToI64 sources_u - 1) with
        | mk jd s2 =>
          rw [hrd2] at h
          replace h : (match addAt supply1 (intToUsize jd) (sps - part) with
              | none => none
              | some supply2 =>
                createSupplyLoop sources_u sps k (i + 1) s2 supply2)
              = some out := h
          cases haddB : addAt supply1 (intToUsize jd) (sps - part) with
          | none => rw [haddB] at h; exact absurd h (by simp)
          | some supply2 =>
            rw [haddB] at h
            replace h : createSupplyLoop sources_u sps k (i + 1) s2 supply2
                = some out := h
            obtain ⟨hlenA, hsumA, hframeA⟩ := addAt_spec haddA
            obtain ⟨hlenB, hsumB, hframeB⟩ := addAt_spec haddB
            obtain ⟨hlen, hsum, hframe⟩ := ih (i + 1) _ supply2 out (by omega) h
            have hjb : 0 ≤ jd ∧ jd ≤ usizeToI64 sources_u - 1 := by
              have := rngDraw_range s1 0 (usizeToI64 sources_u - 1) (le_refl 0)
                (by rw [usizeToI64_eq sources_u hsrc]; omega)
              rw [hrd2] at this
              exact this
            have hju : intToUsize jd < sources_u := by
              rw [usizeToI64_eq sources_u hsrc] at hjb
              have := intToUsize_of_range jd hjb.1 (by omega)
              omega
            refine ⟨by omega, ?_, ?_⟩
            · rw [hsum, hsumB, hsumA]
              push_cast
              ring
            · intro j hj
              rw [hframe j hj, hframeB j (by omega), hframeA j (by omega)]

theorem create_supply_spec (sources_u : Nat) (total : Int) (s : Seed)
    (supply : List Int) (out : Seed × List Int)
    (hsrc : sources_u < 2 ^ 63) (hpos : 1 ≤ sources_u)
    (h : create_supply sources_u total s supply = some out) :
    out.2.length = supply.length ∧ out.2.sum = supply.sum + total ∧
    ∀ j, sources_u ≤ j → out.2.getD j 0 = supply.getD j 0 := by
  unfold create_supply at h
  rw [if_neg (by omega)] at h
  replace h : (match createSupplyLoop sources_u
        (total.tdiv (usizeToI64 sources_u)) sources_u 0 s supply with
      | none => none
      | some (s1, supply1) =>
        match rngDraw s1 0 (usizeToI64 sources_u - 1) with
        | (k, s2) =>
          match addAt supply1 (intToUsize k)
              (total.tmod (usizeToI64 sources_u)) with
          | none => none
          | some supply2 => some (s2, supply2)) = some out := h
  cases hloop : createSupplyLoop sources_u
      (total.tdiv (usizeToI64 sources_u)) sources_u 0 s supply with
  | none => rw [hloop] at h; exact absurd h (by simp)
  | some p1 =>
    rw [hloop] at h
    obtain ⟨s1, supply1⟩ := p1
    replace h : (match rngDraw s1 0 (usizeToI64 sources_u - 1) with
        | (k, s2) =>
          match addAt supply1 (intToUsize k)
              (total.tmod (usizeToI64 sources_u)) with
          | none => none
          | some supply2 => some (s2, supply2)) = some out := h
    cases hrd : rngDraw s1 0 (usizeToI64 sources_u - 1) with
    | mk kd s2 =>
      rw [hrd] at h
      replace h : (match addAt supply1 (intToUsize kd)
            (total.tmod (usizeToI64 sources_u)) with
          | none => none
          | some supply2 => some (s2, supply2)) = some out := h
      cases hadd : addAt supply1 (intToUsize kd)
          (total.tmod (usizeToI64 sources_u)) with
      | none => rw [hadd] at h; exact absurd h (by simp)
      | some supply2 =>
        rw [hadd] at h
        replace h : some (s2, supply2) = some out := h
        injection h with h
        subst h
        obtain ⟨hlenL, hsumL, hframeL⟩ := createSupplyLoop_spec sources_u _
          hsrc sources_u 0 s supply (s1, supply1) (by omega) hloop
        obtain ⟨hlenA, hsumA, hframeA⟩ := addAt_spec hadd
        have hkb : 0 ≤ kd ∧ kd ≤ usizeToI64 sources_u - 1 := by
          have := rngDraw_range s1 0 (usizeToI64 sources_u - 1) (le_refl 0)
            (by rw [usizeToI64_eq sources_u hsrc]; omega)
          rw [hrd] at this
          exact this
        have hku : intToUsize kd < sources_u := by
          rw [usizeToI64_eq sources_u hsrc] at hkb
          have := intToUsize_of_range kd hkb.1 (by omega)
          omega
        have htt := Int.tdiv_add_tmod total (usizeToI64 sources_u)
        rw [usizeToI64_eq sources_u hsrc] at htt
        refine ⟨by simp at hlenL hlenA ⊢; omega, ?_, ?_⟩
        · show supply2.sum = _
          simp only at hsumL hsumA
          rw [hsumA, hsumL, usizeToI64_eq sources_u hsrc, add_assoc, htt]
        · intro j hj
          show supply2.getD j 0 = _
          simp only at hframeL
          rw [hframeA j (by omega), hframeL j hj]

theorem pickSinks_spec :
    ∀ (n : Nat) (s : Seed) (handle : IndexList) (acc : List Nat)
      (out : Seed × IndexList × List Nat),
    handle.Inv → (n : Int) ≤ handle.index_size →
    handle.elems.length < 2 ^ 63 →
    pickSinks n s handle acc = some out →
    out.2.1.Inv ∧ (∀ v ∈ out.2.1.elems, v ∈ handle.elems) ∧
    (∀ v ∈ out.2.2, v ∈ acc ∨ v ∈ handle.elems) ∧
    out.2.1.index_size = handle.index_size - n ∧
    out.2.2.length = acc.length + n := by
  intro n
  induction n with
  | zero =>
    intro s handle acc out hInv hn hlen h
    replace h : some (s, handle, acc) = some out := h
    injection h with h
    subst h
    exact ⟨hInv, fun v hv => hv, fun v hv => Or.inl hv, by simp, by simp⟩
  | succ k ih =>
    intro s handle acc out hInv hn hlen h
    unfold pickSinks at h
    cases hrd : rngDraw s 1 handle.index_size with
    | mk r s1 =>
      rw [hrd] at h
      replace h : (match handle.choose (intToUsize r) with
          | none => none
          | some (v, handle1) => pickSinks k s1 handle1 (acc ++ [v]))
          = some out := h
      have hisz := IndexList.inv_index_size hInv
      have hr : 1 ≤ r ∧ r ≤ handle.index_size := by
        have := rngDraw_range s 1 handle.index_size (by omega) (by omega)
        rw [hrd] at this
        exact this
      have hrc : ((intToUsize r : Nat) : Int) = r :=
        intToUsize_of_range r (by omega) (by omega)
      obtain ⟨v', l', hrun, hget, helems, hisz', hpsz', horig', hinv'⟩ :=
        handle.choose_spec hInv (intToUsize r) (by omega) (by omega)
      rw [hrun] at h
      replace h : pickSinks k s1 l' (acc ++ [v']) = some out := h
      have hlen' : l'.elems.length < 2 ^ 63 := by
        have h1 := IndexList.inv_index_size hinv'
        omega
      obtain ⟨hInvO, hsubO, hvalsO, hiszO, hlenO⟩ := ih s1 l' (acc ++ [v'])
        out hinv' (by omega) hlen' h
      have hsub1 : ∀ w ∈ l'.elems, w ∈ handle.elems := by
        intro w hw
        rw [helems] at hw
        exact List.eraseIdx_subset _ _ hw
      refine ⟨hInvO, fun w hw => hsub1 w (hsubO w hw), ?_, ?_, ?_⟩
      · intro w hw
        rcases hvalsO w hw with hacc | hmem
        · rcases List.mem_append.mp hacc with h1 | h1
          · exact Or.inl h1
          · have : w = v' := by simpa using h1
            subst this
            exact Or.inr (List.getElem?_mem hget)
        · exact Or.inr (hsub1 w hmem)
      · rw [hiszO, hisz']
        push_cast
        ring
      · rw [hlenO]
        simp
        omega

theorem absorbSinks_spec (supply : List Int) :
    ∀ (fuel : Nat) (handle : IndexList) (acc : List Nat)
      (out : IndexList × List Nat),
    handle.Inv →
    absorbSinks supply fuel handle acc = some out →
    (∀ v ∈ out.2, v ∈ acc ∨ v ∈ handle.elems) ∧
    out.2.length ≤ acc.length + handle.elems.length := by
  intro fuel
  induction fuel with
  | zero =>
    intro handle acc out hInv h
    unfold absorbSinks at h
    by_cases hsz : handle.index_size > 0
    · rw [if_pos hsz] at h
      cases h
    · rw [if_neg hsz] at h
      injection h with h
      subst h
      exact ⟨fun v hv => Or.inl hv,
        by simpa using Nat.le_add_right acc.length handle.elems.length⟩
  | succ k ih =>
    intro handle acc out hInv h
    unfold absorbSinks at h
    by_cases hsz : handle.index_size > 0
    · rw [if_pos hsz] at h
      obtain ⟨v', l', hrun, hget, helems, hisz', hpsz', horig', hinv'⟩ :=
        handle.choose_spec hInv 1 (le_refl 1) (by exact_mod_cast hsz)
      rw [hrun] at h
      replace h : (match supply.get? v' with
          | none => none
          | some sj =>
            if sj = 0 then absorbSinks supply k l' (acc ++ [v'])
            else absorbSinks supply k l' acc) = some out := h
      cases hgs : supply.get? v' with
      | none => rw [hgs] at h; exact absurd h (by simp)
      | some sj =>
        rw [hgs] at h
        replace h : (if sj = 0 then absorbSinks supply k l' (acc ++ [v'])
            else absorbSinks supply k l' acc) = some out := h
        have hsub1 : ∀ w ∈ l'.elems, w ∈ handle.elems := by
          intro w hw
          rw [helems] at hw
          exact List.eraseIdx_subset _ _ hw
        have hlen' : l'.elems.length + 1 = handle.elems.length := by
          have hpos : 0 < handle.elems.length := by
            by_contra hc
            push_neg at hc
            interval_cases hle : handle.elems.length
            · have := IndexList.inv_index_size hInv
              omega
          rw [helems, List.length_eraseIdx]
          rw [if_pos (by omega)]
          omega
        by_cases hz : sj = 0
        · rw [if_pos hz] at h
          obtain ⟨hmemI, hlenI⟩ := ih l' (acc ++ [v']) out hinv' h
          refine ⟨?_, by simp at hlenI; omega⟩
          intro w hw
          rcases hmemI w hw with hacc | hmem
          · rcases List.mem_append.mp hacc with h1 | h1
            · exact Or.inl h1
            · have : w = v' := by simpa using h1
              subst this
              exact Or.inr (List.getElem?_mem hget)
          · exact Or.inr (hsub1 w hmem)
        · rw [if_neg hz] at h
          obtain ⟨hmemI, hlenI⟩ := ih l' acc out hinv' h
          refine ⟨?_, by omega⟩
          intro w hw
          rcases hmemI w hw with hacc | hmem
          · exact Or.inl hacc
          · exact Or.inr (hsub1 w hmem)
    · rw [if_neg hsz] at h
      injection h with h
      subst h
      exact ⟨fun v hv => Or.inl hv,
        by simpa using Nat.le_add_right acc.length handle.elems.length⟩

theorem splitSupply_spec (actual_sinks chain_length : Nat) (sps : Int)
    (source : Nat) (sinks_vec pred : List Nat) (lo : Nat)
    (hsv : ∀ v ∈ sinks_vec, lo ≤ v) :
    ∀ (n i sc k : Nat) (s : Seed) (supply : List Int)
      (head_arr tail_arr : List Nat)
      (out : Nat × Nat × Seed × List Int × List Nat × List Nat),
    splitSupply actual_sinks chain_length sps source sinks_vec pred
      n i sc k s supply head_arr tail_arr = some out →
    out.2.2.2.1.length = supply.length ∧
    out.2.2.2.1.sum = supply.sum - n * sps ∧
    ∀ j, j < lo → out.2.2.2.1.getD j 0 = supply.getD j 0 := by
  intro n
  induction n with
  | zero =>
    intro i sc k s supply head_arr tail_arr out h
    replace h : some (sc, k, s, supply, head_arr, tail_arr) = some out := h
    injection h with h
    subst h
    exact ⟨rfl, by simp, fun j _ => rfl⟩
  | succ m ih =>
    intro i sc k s supply head_arr tail_arr out h
    unfold splitSupply at h
    simp only [Option.bind_eq_some] at h
    obtain ⟨tail1, hsetT, svi, hgi, head1, hsetH, supplyA, haddA, svj, hgj,
      supplyB, haddB, k2, hwp, h⟩ := h
    obtain ⟨hlenA, hsumA, hframeA⟩ := addAt_spec haddA
    obtain ⟨hlenB, hsumB, hframeB⟩ := addAt_spec haddB
    obtain ⟨hlen, hsum, hframe⟩ := ih (i + 1) (sc + 1) k2 _ supplyB head1
      tail1 out h
    have hvi : lo ≤ svi := hsv svi (List.get?_mem hgi)
    have hvj : lo ≤ svj := hsv svj (List.get?_mem hgj)
    refine ⟨by omega, ?_, ?_⟩
    · rw [hsum, hsumB, hsumA]
      push_cast
      ring
    · intro j hj
      rw [hframe j hj, hframeB j (by omega), hframeA j (by omega)]

theorem perSource_spec (p : NetgenParams) (orc : FloatOracle) (fuel : Nat)
    (sources_u sinks_u max_node : Nat) (pred : List Nat)
    (hsrc : 1 ≤ sources_u) (hsink : 1 ≤ sinks_u)
    (hcap : sources_u + sinks_u ≤ max_node) (hmn : max_node < 2 ^ 63) :
    ∀ (n source : Nat) (s : Seed) (head_arr tail_arr : List Nat)
      (supply : List Int) (arcs : List Arc) (nodes_left : Int)
      (out : Seed × List Int × List Arc × Int),
    1 ≤ source → source + n ≤ sources_u + 1 →
    perSource p orc fuel sources_u sinks_u max_node pred n source s head_arr
      tail_arr supply arcs nodes_left = some out →
    out.2.1.length = supply.length ∧
    out.2.1.sum = supply.sum - sumRange supply (source - 1) n ∧
    ∀ j, j < max_node - sinks_u → out.2.1.getD j 0 = supply.getD j 0 := by
  intro n
  induction n with
  | zero =>
    intro source s head_arr tail_arr supply arcs nodes_left out h1 h2 h
    replace h : some (s, supply, arcs, nodes_left) = some out := h
    injection h with h
    subst h
    exact ⟨rfl, by rw [sumRange_zero]; ring, fun j _ => rfl⟩
  | succ m ih =>
    intro source s head_arr tail_arr supply arcs nodes_left out h1 h2 h
    unfold perSource at h
    rw [Option.bind_eq_some] at h
    obtain ⟨p0, hp0, h⟩ := h
    rw [Option.bind_eq_some] at h
    obtain ⟨cw, hcw, h⟩ := h
    rw [Option.bind_eq_some] at h
    obtain ⟨handle0, hnew0, h⟩ := h
    rw [Option.bind_eq_some] at h
    obtain ⟨ps, hps, h⟩ := h
    rw [Option.bind_eq_some] at h
    obtain ⟨ab, hab, h⟩ := h
    by_cases hz : ab.2.length = 0
    · rw [if_pos hz] at h; cases h
    rw [if_neg hz] at h
    rw [Option.bind_eq_some] at h
    obtain ⟨ssrc, hssrc, h⟩ := h
    rw [Option.bind_eq_some] at h
    obtain ⟨sp, hsp, h⟩ := h
    rw [Option.bind_eq_some] at h
    obtain ⟨sv_first, hsv0, h⟩ := h
    rw [Option.bind_eq_some] at h
    obtain ⟨ssrc2, hssrc2, h⟩ := h
    rw [Option.bind_eq_some] at h
    obtain ⟨supplyB, haddB, h⟩ := h
    rw [Option.bind_eq_some] at h
    obtain ⟨st, hsk, h⟩ := h
    rw [Option.bind_eq_some] at h
    obtain ⟨tail4, hsetT4, h⟩ := h
    rw [Option.bind_eq_some] at h
    obtain ⟨er, her, h⟩ := h
    obtain ⟨l0, hl0run, hl0inv, hl0elems, hl0orig, hl0isz, hl0psz⟩ :=
      IndexList.new_spec (max_node - sinks_u) (max_node - 1) (by omega)
        (by omega)
    rw [hnew0] at hl0run
    injection hl0run with hl0run
    subst hl0run
    have hrange : (max_node - 1) - (max_node - sinks_u) + 1 = sinks_u := by
      omega
    rw [hrange] at hl0elems hl0isz
    have hbound : ∀ X : Nat, ((min X sinks_u : Nat) : Int) ≤ handle0.index_size := by
      intro X
      rw [hl0isz]
      push_cast
      omega
    have hlen63 : handle0.elems.length < 2 ^ 63 := by
      rw [hl0elems, List.length_range']
      omega
    obtain ⟨hInv1, hsub1, hvals1, hisz1, hlen1⟩ :=
      pickSinks_spec _ s handle0 [] ps hl0inv (hbound _) hlen63 hps
    have hC : (ps.2.2.length : Int) ≤ (sinks_u : Int) ∧
        ps.2.1.index_size = (sinks_u : Int) - (ps.2.2.length : Int) := by
      have hiz := IndexList.inv_index_size hInv1
      simp only [List.length_nil, Nat.zero_add] at hlen1
      constructor
      · rw [hlen1]
        have h3 := hbound (max (if max_node - sources_u - sinks_u = 0
          then sinks_u / sources_u + 1
          else orc.sinksPerSource cw.1 sinks_u
            (max_node - sources_u - sinks_u)) 2)
        rw [hl0isz] at h3
        push_cast at h3 ⊢
        omega
      · rw [hisz1, hl0isz, hlen1]
    have habm : (∀ v ∈ ab.2, v ∈ handle0.elems) ∧ ab.2.length ≤ sinks_u := by
      have hiz1 := IndexList.inv_index_size hInv1
      by_cases hcnd : source = sources_u ∧ ps.2.1.index_size > 0
      · rw [if_pos hcnd] at hab
        obtain ⟨hm, hl⟩ := absorbSinks_spec supply fuel ps.2.1 ps.2.2 ab hInv1
          hab
        constructor
        · intro v hv
          rcases hm v hv with hv1 | hv1
          · rcases hvals1 v hv1 with hv2 | hv2
            · cases hv2
            · exact hv2
          · exact hsub1 v hv1
        · omega
      · rw [if_neg hcnd] at hab
        injection hab with hab
        subst hab
        constructor
        · intro v hv
          rcases hvals1 v hv with hv2 | hv2
          · cases hv2
          · exact hv2
        · show ps.2.2.length ≤ sinks_u
          have := hC.1
          omega
    have hsv : ∀ v ∈ ab.2, max_node - sinks_u ≤ v := by
      intro v hv
      have := habm.1 v hv
      rw [hl0elems] at this
      exact (mem_range'_iff.mp this).1
    obtain ⟨hlenS, hsumS, hframeS⟩ := splitSupply_spec _ _ _ _ _ pred
      (max_node - sinks_u) hsv _ _ _ _ _ supply _ _ sp hsp
    obtain ⟨hlenB, hsumB, hframeB⟩ := addAt_spec haddB
    obtain ⟨hlenO, hsumO, hframeO⟩ := ih (source + 1) er.2.2 st.1 tail4
      supplyB er.2.1 er.1 out (by omega) (by omega) h
    rw [Nat.add_sub_cancel] at hsumO
    have hsrcle : source ≤ sources_u := by omega
    have hslo : source - 1 < max_node - sinks_u := by omega
    have hsv_lo : max_node - sinks_u ≤ sv_first :=
      hsv sv_first (List.get?_mem hsv0)
    have hA : usizeToI64 ab.2.length = (ab.2.length : Int) :=
      usizeToI64_eq _ (by omega)
    have hssrc_v : ssrc = supply.getD (source - 1) 0 :=
      (getD_of_get? 0 hssrc).symm
    have hssrc2_v : ssrc2 = ssrc := by
      have := getD_of_get? 0 hssrc2
      rw [hframeS (source - 1) hslo] at this
      rw [← this, hssrc_v]
    refine ⟨by omega, ?_, ?_⟩
    · rw [hsumO, hsumB, hsumS]
      have hsum_congr : sumRange supplyB source m = sumRange supply source m := by
        apply sumRange_congr
        intro i hi1 hi2
        rw [hframeB i (by omega), hframeS i (by omega)]
      rw [hsum_congr]
      have hstep : sumRange supply (source - 1) (m + 1)
          = supply.getD (source - 1) 0 + sumRange supply source m := by
        rw [sumRange_succ_head]
        have : source - 1 + 1 = source := by omega
        rw [this]
      rw [hstep, ← hssrc_v]
      have htt := Int.tdiv_add_tmod ssrc (usizeToI64 ab.2.length)
      rw [hA] at htt
      rw [hssrc2_v, hA]
      ring_nf
      ring_nf at htt
      omega
    · intro j hj
      rw [hframeO j hj, hframeB j (by omega), hframeS j hj]

theorem getD_replicate_zero (n j : Nat) :
    (List.replicate n (0 : Int)).getD j 0 = 0 := by
  rw [List.getD_eq_getElem?_getD, List.getElem?_replicate]
  by_cases hj : j < n
  · rw [if_pos hj]
    rfl
  · rw [if_neg hj]
    rfl

theorem setFirstN_replicate (n h : Nat) (v : Int) (hh : h ≤ n) :
    setFirstN (List.replicate n (0 : Int)) h v
      = List.replicate h v ++ List.replicate (n - h) 0 := by
  unfold setFirstN
  rw [List.take_replicate, List.drop_replicate, List.map_const',
    List.length_replicate, Nat.min_eq_left hh]

theorem setMid_append_replicate (h k : Nat) (v w x : Int) :
    setMid (List.replicate h v ++ List.replicate k w) h (h + k) x
      = List.replicate h v ++ List.replicate k x := by
  unfold setMid
  rw [List.take_left' (List.length_replicate h v),
    List.drop_left' (List.length_replicate h v),
    Nat.add_sub_cancel_left, List.take_replicate, Nat.min_self,
    List.map_const', List.length_replicate,
    List.drop_eq_nil_of_le (by simp), List.append_nil]

theorem assignSupply_sum (n : Nat) (he : n % 2 = 0) :
    (setMid (setFirstN (List.replicate n (0 : Int)) (n / 2) 1) (n / 2) n
      (-1)).sum = 0 := by
  rw [setFirstN_replicate n (n / 2) 1 (Nat.div_le_self n 2)]
  have h2 : n - n / 2 = n / 2 := by omega
  rw [h2]
  have hn : n = n / 2 + n / 2 := by omega
  rw [show setMid (List.replicate (n / 2) (1 : Int)
      ++ List.replicate (n / 2) 0) (n / 2) n (-1)
    = setMid (List.replicate (n / 2) (1 : Int)
      ++ List.replicate (n / 2) 0) (n / 2) (n / 2 + n / 2) (-1) from by
      rw [← hn]]
  rw [setMid_append_replicate]
  rw [List.sum_append, List.sum_replicate, List.sum_replicate]
  simp

/-- The thirteen parameters are `i64` values. -/
def NetgenParams.i64Range (p : NetgenParams) : Prop :=
  -2 ^ 63 ≤ p.nodes ∧ p.nodes < 2 ^ 63 ∧
  -2 ^ 63 ≤ p.sources ∧ p.sources < 2 ^ 63 ∧
  -2 ^ 63 ≤ p.sinks ∧ p.sinks < 2 ^ 63 ∧
  -2 ^ 63 ≤ p.density ∧ p.density < 2 ^ 63 ∧
  -2 ^ 63 ≤ p.mincost ∧ p.mincost < 2 ^ 63 ∧
  -2 ^ 63 ≤ p.maxcost ∧ p.maxcost < 2 ^ 63 ∧
  -2 ^ 63 ≤ p.supply ∧ p.supply < 2 ^ 63 ∧
  -2 ^ 63 ≤ p.tsources ∧ p.tsources < 2 ^ 63 ∧
  -2 ^ 63 ≤ p.tsinks ∧ p.tsinks < 2 ^ 63 ∧
  -2 ^ 63 ≤ p.hicost_pct ∧ p.hicost_pct < 2 ^ 63 ∧
  -2 ^ 63 ≤ p.capacitated_pct ∧ p.capacitated_pct < 2 ^ 63 ∧
  -2 ^ 63 ≤ p.mincap ∧ p.mincap < 2 ^ 63 ∧
  -2 ^ 63 ≤ p.maxcap ∧ p.maxcap < 2 ^ 63

instance (p : NetgenParams) : Decidable p.i64Range := by
  unfold NetgenParams.i64Range
  infer_instance

set_option maxRecDepth 1000 in
/-- C2: for every strictly positive seed, every valid `i64` parameter set
whose generated instance is a min-cost-flow or assignment instance, and
every float oracle and fuel, if `netgen` completes then the returned supply
vector sums to zero (total supply equals total demand in magnitude). -/
theorem c2_supply_sum_zero (seed : Int) (p : NetgenParams) (orc : FloatOracle)
    (fuel : Nat) (r : NetgenResult) (hrange : p.i64Range)
    (hty : p.problem_type = ProblemType.assignment ∨
      p.problem_type = ProblemType.minCostFlow)
    (hdone : netgen seed p orc fuel = GenOut.done r) :
    r.supply.sum = 0 := by
  unfold netgen at hdone
  by_cases hseed : seed ≤ 0
  · rw [dif_pos hseed] at hdone
    cases hdone
  rw [dif_neg hseed] at hdone
  cases hval : p.validate with
  | error e =>
    rw [hval] at hdone
    replace hdone : GenOut.fail .badParms = GenOut.done r := hdone
    cases hdone
  | ok u =>
    rw [hval] at hdone
    cases u
    replace hdone : (match netgenCore p orc fuel ⟨seed, by omega⟩ with
        | none => GenOut.stuck
        | some r2 => GenOut.done r2) = GenOut.done r := hdone
    cases hcore : netgenCore p orc fuel ⟨seed, by omega⟩ with
    | none => rw [hcore] at hdone; cases hdone
    | some r2 =>
      rw [hcore] at hdone
      replace hdone : GenOut.done r2 = GenOut.done r := hdone
      injection hdone with hdone
      subst hdone
      have hall : specAllValid p := by
        have hmatch := (validate_cases p).1
        rw [hval] at hmatch
        cases hfv : firstViolation p with
        | none => exact (validate_cases p).2.mp hfv
        | some e =>
          rw [hfv] at hmatch
          cases hmatch
      obtain ⟨hv1, hv2, hv3, hv4, hv5, hv6, hv7, hv8, hv9, hv10, hv11, hv12,
        hv13, hv14⟩ := hall
      obtain ⟨hr1, hr2, hr3, hr4, hr5, hr6, hr7, hr8, hr9, hr10, hr11, hr12,
        hr13, hr14, hr15, hr16, hr17, hr18, hr19, hr20, hr21, hr22, hr23,
        hr24, hr25, hr26⟩ := hrange
      have hnodes : ((intToUsize p.nodes : Nat) : Int) = p.nodes :=
        intToUsize_of_range _ (by omega) (by omega)
      have hsources : ((intToUsize p.sources : Nat) : Int) = p.sources :=
        intToUsize_of_range _ (by omega) (by omega)
      have hsinks : ((intToUsize p.sinks : Nat) : Int) = p.sinks :=
        intToUsize_of_range _ (by omega) (by omega)
      unfold netgenCore at hcore
      by_cases hasn : p.assignCond
      · rw [if_pos hasn] at hcore
        rw [Option.bind_eq_some] at hcore
        obtain ⟨ar, har, hcore⟩ := hcore
        injection hcore with hcore
        subst hcore
        show ar.2.1.sum = 0
        simp only [create_assignment] at har
        cases hnewA : IndexList.new (intToUsize p.sources + 1)
            (intToUsize p.nodes) with
        | none => rw [hnewA] at har; exact absurd har (by simp)
        | some skeleton =>
          rw [hnewA] at har
          replace har : (match createAssignLoop p orc fuel
              (intToUsize p.sources) (intToUsize p.nodes)
              (intToUsize p.nodes / 2) 1 skeleton ⟨seed, by omega⟩ []
              (p.nodes - p.sinks + p.tsinks) with
            | none => none
            | some (arcs, nl1, s1) =>
              some (arcs,
                setMid (setFirstN (List.replicate (intToUsize p.nodes) 0)
                  (intToUsize p.nodes / 2) 1) (intToUsize p.nodes / 2)
                  (intToUsize p.nodes) (-1), nl1, s1)) = some ar := har
          cases hloop : createAssignLoop p orc fuel (intToUsize p.sources)
              (intToUsize p.nodes) (intToUsize p.nodes / 2) 1 skeleton
              ⟨seed, by omega⟩ [] (p.nodes - p.sinks + p.tsinks) with
          | none => rw [hloop] at har; exact absurd har (by simp)
          | some t =>
            rw [hloop] at har
            obtain ⟨arcs0, nl1, s1⟩ := t
            replace har : some (arcs0,
                setMid (setFirstN (List.replicate (intToUsize p.nodes) 0)
                  (intToUsize p.nodes / 2) 1) (intToUsize p.nodes / 2)
                  (intToUsize p.nodes) (-1), nl1, s1) = some ar := har
            injection har with har
            subst har
            show (setMid (setFirstN (List.replicate (intToUsize p.nodes) 0)
              (intToUsize p.nodes / 2) 1) (intToUsize p.nodes / 2)
              (intToUsize p.nodes) (-1)).sum = 0
            apply assignSupply_sum
            obtain ⟨ha1, ha2, ha3⟩ := hasn
            omega
      · rw [if_neg hasn] at hcore
        rw [Option.bind_eq_some] at hcore
        obtain ⟨cs, hcs, hcore⟩ := hcore
        rw [Option.bind_eq_some] at hcore
        obtain ⟨pred1, hpred, hcore⟩ := hcore
        rw [Option.bind_eq_some] at hcore
        obtain ⟨handle, hnewH, hcore⟩ := hcore
        rw [Option.bind_eq_some] at hcore
        obtain ⟨sk1, hsk1, hcore⟩ := hcore
        rw [Option.bind_eq_some] at hcore
        obtain ⟨sk2, hsk2, hcore⟩ := hcore
        rw [Option.bind_eq_some] at hcore
        obtain ⟨pr, hpr, hcore⟩ := hcore
        rw [Option.bind_eq_some] at hcore
        obtain ⟨ts, hts, hcore⟩ := hcore
        rw [Option.some.injEq] at hcore
        subst hcore
        show pr.2.1.sum = 0
        obtain ⟨hlenC, hsumC, hframeC⟩ := create_supply_spec
          (intToUsize p.sources) p.supply ⟨seed, by omega⟩
          (List.replicate (intToUsize p.nodes) 0) cs (by omega) (by omega) hcs
        obtain ⟨hlenP, hsumP, hframeP⟩ := perSource_spec p orc fuel
          (intToUsize p.sources) (intToUsize p.sinks) (intToUsize p.nodes)
          sk2.2.2 (by omega) (by omega) (by omega) (by omega)
          (intToUsize p.sources) 1 sk2.1 (List.replicate _ 0)
          (List.replicate _ 0) cs.2 [] (p.nodes - p.sinks + p.tsinks) pr
          (le_refl 1) (by omega) hpr
        have hlen_cs : cs.2.length = intToUsize p.nodes := by
          rw [hlenC, List.length_replicate]
        have hzero_tail : sumRange cs.2 (intToUsize p.sources)
            (intToUsize p.nodes - intToUsize p.sources) = 0 := by
          apply sumRange_all_zero
          intro i hi1 hi2
          rw [hframeC i hi1, getD_replicate_zero]
        have hfull : sumRange cs.2 0 (intToUsize p.nodes) = cs.2.sum := by
          rw [← hlen_cs, sumRange_full]
        have hsp0 := sumRange_split cs.2 0 (intToUsize p.sources)
          (intToUsize p.nodes - intToUsize p.sources)
        rw [Nat.zero_add] at hsp0
        rw [show intToUsize p.sources
            + (intToUsize p.nodes - intToUsize p.sources)
            = intToUsize p.nodes from by omega] at hsp0
        have hrep0 : (List.replicate (intToUsize p.nodes) (0 : Int)).sum = 0 := by
          simp
        rw [hsumP]
        have h10 : (1 : Nat) - 1 = 0 := rfl
        rw [h10]
        omega

def c2p : NetgenParams := ⟨3, 1, 1, 3, 1, 2, 1, 0, 0, 0, 0, 1, 1⟩

def c2orc : FloatOracle := ⟨fun _ _ _ => 2, fun _ _ _ => true⟩

def c2res : NetgenResult :=
  ⟨[⟨1, 2, 1, 1⟩, ⟨2, 3, 2, 1⟩], [1, 0, -1]⟩

set_option maxRecDepth 10000 in
theorem c2_supply_sum_zero_witness :
    c2p.i64Range ∧
    (c2p.problem_type = ProblemType.assignment ∨
      c2p.problem_type = ProblemType.minCostFlow) ∧
    netgen 7 c2p c2orc 20 = GenOut.done c2res ∧ c2res.supply.sum = 0 :=
  ⟨by decide, Or.inr (by decide), by decide,
    c2_supply_sum_zero 7 c2p c2orc 20 c2res (by decide) (Or.inr (by decide))
      (by decide)⟩
